import Mathlib

/-!
memalloc: a first-fit free-list allocator over `sbrk`.

Shallow embedding of `src/main.c`.

* Target ABI: LP64.  `size_t`, `intptr_t` and pointers are 64 bits wide, so
  `sizeof(block_t) = 8 + 4 (+ 4 padding) + 8 = 24`.
* Pointers are natural numbers below `WORD`; `NULL` is `0`.  Pointer and
  `size_t` arithmetic is reduced modulo `WORD` wherever the C code computes it.
* The heap is a typed store: `mem a` is the `block_t` record whose first byte
  sits at address `a`, `data a` is the payload byte at address `a`.  Records at
  different addresses are independent objects, and header writes do not touch
  `data`.
* The program break is part of the state.  `sbrk` is the operating system's
  primitive: it is given an `intptr_t`, so an argument of `2^63` or more is a
  negative increment.  It refuses a break outside `[lo, hi]`.
* Loops take a fuel argument; `none` means the fuel ran out before the loop
  left (the only way the embedded functions can fail to return).
* The mutex is not modelled: every function is its sequential body.
-/

namespace Memalloc

/-- Two to the power 64: number of values of `size_t` and of a pointer. -/
def WORD : Nat := 18446744073709551616

/-- Two to the power 63: first `size_t` value that is negative as `intptr_t`. -/
def HALF : Nat := 9223372036854775808

/-- Value of `sizeof(block_t)`, the macro `BLOCK_SIZE` of the source. -/
def BLOCK_SIZE : Nat := 24

/-- Record `struct block`: payload size, free flag (`1` is `true`), next block. -/
structure block_t where
  size : Nat
  free : Bool
  next : Nat
deriving DecidableEq

/-- Whole allocator state: the global `head`, the header store, the payload
bytes, and the program break with the bounds the operating system enforces. -/
structure Heap where
  head : Nat
  mem : Nat → block_t
  data : Nat → Nat
  brk : Nat
  lo : Nat
  hi : Nat

/-- Write of a whole record at address `a`. -/
def store (mem : Nat → block_t) (a : Nat) (v : block_t) : Nat → block_t :=
  fun x => if x = a then v else mem x

/-- Assignment `a->size = v`. -/
def set_size (mem : Nat → block_t) (a v : Nat) : Nat → block_t :=
  store mem a { mem a with size := v }

/-- Assignment `a->free = v`. -/
def set_free (mem : Nat → block_t) (a : Nat) (v : Bool) : Nat → block_t :=
  store mem a { mem a with free := v }

/-- Assignment `a->next = v`. -/
def set_next (mem : Nat → block_t) (a v : Nat) : Nat → block_t :=
  store mem a { mem a with next := v }

/-- Unsigned 64-bit subtraction `a - b`. -/
def sub64 (a b : Nat) : Nat := (a + WORD - b) % WORD

/-- Unsigned 64-bit addition `a + b`. -/
def add64 (a b : Nat) : Nat := (a + b) % WORD

/-- Payload pointer of a block: `block + 1` in the source. -/
def payload (block : Nat) : Nat := add64 block BLOCK_SIZE

/-- Block of a payload pointer: `(block_t*)ptr - 1` in the source. -/
def header (ptr : Nat) : Nat := sub64 ptr BLOCK_SIZE

/-- Loop of `find_free_block`, started at `curr`; the result `0` is `NULL`. -/
def find_free_block : Nat → (Nat → block_t) → Nat → Nat → Option Nat
  | 0, _, _, _ => none
  | fuel + 1, mem, curr, size =>
    if curr = 0 then some 0
    else if (mem curr).free && decide (size ≤ (mem curr).size) then some curr
    else find_free_block fuel mem (mem curr).next size

/-- The primitive `sbrk(increment)`: `none` stands for `(void*)-1`; otherwise
the old break is returned and the break moved by the signed increment. -/
def sbrk (s : Heap) (increment : Nat) : Option (Nat × Heap) :=
  if increment < HALF then
    if s.brk + increment ≤ s.hi then
      some (s.brk, { s with brk := s.brk + increment })
    else none
  else
    if s.lo + (WORD - increment) ≤ s.brk then
      some (s.brk, { s with brk := s.brk - (WORD - increment) })
    else none

/-- Function `request_space`; the result `0` is `NULL`. -/
def request_space (s : Heap) (size : Nat) : Nat × Heap :=
  match sbrk s (add64 size BLOCK_SIZE) with
  | none => (0, s)
  | some (p, s1) => (p, { s1 with mem := store s1.mem p ⟨size, false, 0⟩ })

/-- Function `split_block`. -/
def split_block (mem : Nat → block_t) (block size : Nat) : Nat → block_t :=
  if (mem block).size ≤ add64 size BLOCK_SIZE then mem
  else
    let new_block := add64 (add64 block BLOCK_SIZE) size
    let m1 := set_size mem new_block (sub64 (sub64 (mem block).size size) BLOCK_SIZE)
    let m2 := set_free m1 new_block true
    let m3 := set_next m2 new_block (m2 block).next
    let m4 := set_size m3 block size
    set_next m4 block new_block

/-- Loop of `merge_blocks`, started at `curr`. -/
def merge_blocks : Nat → (Nat → block_t) → Nat → Option (Nat → block_t)
  | 0, _, _ => none
  | fuel + 1, mem, curr =>
    if curr ≠ 0 ∧ (mem curr).next ≠ 0 then
      if (mem curr).free && (mem (mem curr).next).free then
        let m1 := set_size mem curr
          (add64 (mem curr).size (add64 BLOCK_SIZE (mem (mem curr).next).size))
        let m2 := set_next m1 curr (m1 (m1 curr).next).next
        merge_blocks fuel m2 curr
      else merge_blocks fuel mem (mem curr).next
    else some mem

/-- The tail walk of `malloc`: `while (last->next) last = last->next;`. -/
def find_last : Nat → (Nat → block_t) → Nat → Option Nat
  | 0, _, _ => none
  | fuel + 1, mem, last =>
    if (mem last).next ≠ 0 then find_last fuel mem (mem last).next else some last

/-- Function `malloc`: result pointer (`0` is `NULL`) and new state. -/
def malloc (fuel : Nat) (s : Heap) (size : Nat) : Option (Nat × Heap) :=
  if size = 0 then some (0, s)
  else
    match find_free_block fuel s.mem s.head size with
    | none => none
    | some block =>
      if block ≠ 0 then
        let m1 := set_free s.mem block false
        let m2 := split_block m1 block size
        some (payload block, { s with mem := m2 })
      else
        let r := request_space s size
        if r.1 = 0 then some (0, r.2)
        else if r.2.head = 0 then some (payload r.1, { r.2 with head := r.1 })
        else
          match find_last fuel r.2.mem r.2.head with
          | none => none
          | some last =>
            some (payload r.1, { r.2 with mem := set_next r.2.mem last r.1 })

/-- Function `free`. -/
def free (fuel : Nat) (s : Heap) (ptr : Nat) : Option Heap :=
  if ptr = 0 then some s
  else
    let block := header ptr
    let m1 := set_free s.mem block true
    match merge_blocks fuel m1 s.head with
    | none => none
    | some m2 => some { s with mem := m2 }

/-- Library `memset(p, c, n)` on the payload bytes. -/
def memset (data : Nat → Nat) (p c n : Nat) : Nat → Nat :=
  fun a => if p ≤ a ∧ a < p + n then c else data a

/-- Library `memcpy(dst, src, n)` on the payload bytes. -/
def memcpy (data : Nat → Nat) (dst src n : Nat) : Nat → Nat :=
  fun a => if dst ≤ a ∧ a < dst + n then data (src + (a - dst)) else data a

/-- Function `calloc`. -/
def calloc (fuel : Nat) (s : Heap) (n size : Nat) : Option (Nat × Heap) :=
  let total := (n * size) % WORD
  match malloc fuel s total with
  | none => none
  | some (p, s1) =>
    if p = 0 then some (0, s1)
    else some (p, { s1 with data := memset s1.data p 0 total })

/-- Function `realloc`. -/
def realloc (fuel : Nat) (s : Heap) (ptr size : Nat) : Option (Nat × Heap) :=
  if ptr = 0 then malloc fuel s size
  else
    let block := header ptr
    if size ≤ (s.mem block).size then some (ptr, s)
    else
      match malloc fuel s size with
      | none => none
      | some (new_ptr, s1) =>
        if new_ptr = 0 then some (0, s1)
        else
          let s2 := { s1 with data := memcpy s1.data new_ptr ptr (s1.mem block).size }
          match free fuel s2 ptr with
          | none => none
          | some s3 => some (new_ptr, s3)

/-- The state before the first call: no block, break at `lo`. -/
def empty_heap (lo hi : Nat) : Heap :=
  { head := 0, mem := fun _ => ⟨0, false, 0⟩, data := fun _ => 0, brk := lo, lo := lo, hi := hi }

/-- Finite block list: following `next` from `a` visits exactly the addresses `l`
and then `NULL`. -/
def chain (mem : Nat → block_t) : Nat → List Nat → Prop
  | a, [] => a = 0
  | a, x :: xs => a = x ∧ x ≠ 0 ∧ chain mem (mem x).next xs

instance chain_decidable (mem : Nat → block_t) : (a : Nat) → (l : List Nat) → Decidable (chain mem a l)
  | a, [] => inferInstanceAs (Decidable (a = 0))
  | a, x :: xs =>
    have := chain_decidable mem (mem x).next xs
    inferInstanceAs (Decidable (a = x ∧ x ≠ 0 ∧ chain mem (mem x).next xs))

/-- Whether block `x` can serve a request of `size` bytes. -/
def fits (mem : Nat → block_t) (size x : Nat) : Bool :=
  (mem x).free && decide (size ≤ (mem x).size)

/-- First block of the list that fits, `0` when none does. -/
def first_fit (mem : Nat → block_t) (size : Nat) : List Nat → Nat
  | [] => 0
  | x :: xs => if fits mem size x then x else first_fit mem size xs

/-- Whether two list neighbours are both free somewhere in the list. -/
def adjacent_free (mem : Nat → block_t) : List Nat → Bool
  | [] => false
  | [_] => false
  | x :: y :: r => ((mem x).free && (mem y).free) || adjacent_free mem (y :: r)

/-- Ledger entry as the caller of the ledger sees it: address, payload size, free flag. -/
structure entry where
  addr : Nat
  size : Nat
  free : Bool
deriving DecidableEq

/-- Entries of the blocks `l` as the store `mem` has them. -/
def view (mem : Nat → block_t) (l : List Nat) : List entry :=
  l.map (fun a => ⟨a, (mem a).size, (mem a).free⟩)

/-- Coalescing in the words of the design (4.1, `coalesce_all`), on entries and with
the current entry held apart: a free successor of a free current entry is merged
into it and the scan stays, otherwise the scan advances.  The loop of
`merge_blocks` is related to it by `merge_blocks_spec`. -/
def coalesce_from (cur : entry) : List entry → List entry
  | [] => [cur]
  | y :: r =>
    if cur.free && y.free then
      coalesce_from ⟨cur.addr, add64 cur.size (add64 BLOCK_SIZE y.size), cur.free⟩ r
    else cur :: coalesce_from y r

/-- Coalescing of a whole ledger in the words of the design, on entries. -/
def coalesce_all : List entry → List entry
  | [] => []
  | x :: r => coalesce_from x r

/-- Entries lying back to back from address `a` up to address `e`: each one starts
where the payload of the one before ends. -/
def tiles_entries : Nat → List entry → Nat → Prop
  | a, [], e => a = e
  | a, x :: xs, e => x.addr = a ∧ tiles_entries (x.addr + BLOCK_SIZE + x.size) xs e

instance tiles_entries_decidable : (a : Nat) → (v : List entry) → (e : Nat) →
    Decidable (tiles_entries a v e)
  | a, [], e => inferInstanceAs (Decidable (a = e))
  | a, x :: xs, e =>
    have := tiles_entries_decidable (x.addr + BLOCK_SIZE + x.size) xs e
    inferInstanceAs (Decidable (x.addr = a ∧ tiles_entries (x.addr + BLOCK_SIZE + x.size) xs e))

/-- The blocks `l` of the store lie back to back from address `a` up to address `e`. -/
def tiles (mem : Nat → block_t) (a : Nat) (l : List Nat) (e : Nat) : Prop :=
  tiles_entries a (view mem l) e

instance tiles_decidable (mem : Nat → block_t) (a : Nat) (l : List Nat) (e : Nat) :
    Decidable (tiles mem a l e) :=
  inferInstanceAs (Decidable (tiles_entries a (view mem l) e))

/-- A ledger state in the sense of the data model: `l` is the list of blocks reached
from `head`, the blocks lie back to back from the start of the heap to the program
break, no block is at `NULL`, and the break is a user-space address. -/
structure Valid (s : Heap) (l : List Nat) : Prop where
  chain : chain s.mem s.head l
  tiles : tiles s.mem s.lo l s.brk
  lo_pos : 0 < s.lo
  brk_le : s.brk ≤ s.hi
  hi_lt : s.hi < HALF

/-- Address of the block that `split_block` carves out of `block`. -/
def split_addr (block size : Nat) : Nat := add64 (add64 block BLOCK_SIZE) size

/-- The list `l` with `nb` put right behind `b`. -/
def insert_after (b nb : Nat) : List Nat → List Nat
  | [] => []
  | x :: xs => if x = b then x :: nb :: xs else x :: insert_after b nb xs

/-- What a call `malloc(n)` that returned `p` in state `s2` has established, for a
ledger state `s` with blocks `l`; `l2` are the blocks afterwards. -/
structure MallocPost (s : Heap) (l : List Nat) (n p : Nat) (s2 : Heap) (l2 : List Nat) :
    Prop where
  chain : chain s2.mem s2.head l2
  sub : l.Sublist l2
  len : l2.length ≤ l.length + 1
  data : s2.data = s.data
  lo : s2.lo = s.lo
  hi : s2.hi = s.hi
  used : ∀ x ∈ l, (s.mem x).free = false →
    (s2.mem x).size = (s.mem x).size ∧ (s2.mem x).free = false
  null_iff : p = 0 ↔
    ((∀ x ∈ l, fits s.mem n x = false) ∧ sbrk s (add64 n BLOCK_SIZE) = none)
  null_same : p = 0 → s2 = s ∧ l2 = l
  block : p ≠ 0 → ∃ b, p = b + BLOCK_SIZE ∧ p < WORD ∧ b ∈ l2 ∧ (s2.mem b).free = false ∧
    n ≤ (s2.mem b).size ∧ (b ∈ l → (s.mem b).free = true)
  found : (∃ x ∈ l, fits s.mem n x = true) →
    s2.brk = s.brk ∧ p = first_fit s.mem n l + BLOCK_SIZE
  valid : n + BLOCK_SIZE < HALF → Valid s2 l2

/-- What a call `free(p)` on the block `b` of a ledger has established; `l3` are the
blocks afterwards. -/
structure FreePost (s : Heap) (l : List Nat) (b : Nat) (s3 : Heap) (l3 : List Nat) :
    Prop where
  chain : chain s3.mem s3.head l3
  view_eq : view s3.mem l3 = coalesce_all (view (set_free s.mem b true) l)
  sub : l3.Sublist l
  frame : ∀ z, z ≠ b → (z ∉ l3 ∨ (s.mem z).free = false) → s3.mem z = s.mem z
  flags : ∀ z, z ≠ b → (s3.mem z).free = (s.mem z).free
  freed : (s3.mem b).free = true
  used : ∀ x ∈ l, x ≠ b → (s.mem x).free = false → x ∈ l3
  head : s3.head = s.head
  data : s3.data = s.data
  brk : s3.brk = s.brk
  lo : s3.lo = s.lo
  hi : s3.hi = s.hi
  valid : Valid s l → Valid s3 l3

/-- A small ledger state: a used block of 100 bytes at 4096 followed by a free block
of 50 bytes at 4220, break at 4294. -/
def demo : Heap :=
  { head := 4096
    mem := fun a =>
      if a = 4096 then ⟨100, false, 4220⟩ else if a = 4220 then ⟨50, true, 0⟩ else ⟨0, false, 0⟩
    data := fun a => if a = 4120 then 7 else 0
    brk := 4294
    lo := 4096
    hi := 4400 }

/-- A small ledger state with three used blocks of 16, 32 and 8 bytes from 4096. -/
def demo_used : Heap :=
  { head := 4096
    mem := fun a =>
      if a = 4096 then ⟨16, false, 4136⟩ else if a = 4136 then ⟨32, false, 4192⟩
      else if a = 4192 then ⟨8, false, 0⟩ else ⟨0, false, 0⟩
    data := fun a => if a = 4120 then 7 else 0
    brk := 4224
    lo := 4096
    hi := 4400 }

/-- The state `demo_used` after `malloc(40)` has appended a block at the old break. -/
def demo_grown : Heap :=
  { demo_used with
    brk := 4288
    mem := set_next (store demo_used.mem 4224 ⟨40, false, 0⟩) 4192 4224 }

/-- A call of the allocator's interface.  `free` and `realloc` name the allocation
they act on by its position in the list of live allocations, so they are always
applied to a live pointer.  The caller of `calloc(n, size)` takes the result for
`n * size` bytes. -/
inductive call where
  | malloc (n : Nat)
  | free (i : Nat)
  | realloc (i n : Nat)
  | calloc (n size : Nat)

/-- One call on a state paired with the live allocations, each a pointer with the
number of bytes granted for it.  A position that names no live allocation makes
the call a no-op; `none` means the fuel ran out. -/
def step (fuel : Nat) (st : Heap × List (Nat × Nat)) : call → Option (Heap × List (Nat × Nat))
  | call.malloc n =>
    match malloc fuel st.1 n with
    | none => none
    | some (p, s2) => some (s2, if p = 0 then st.2 else st.2 ++ [(p, n)])
  | call.free i =>
    match st.2[i]? with
    | none => some st
    | some (p, _) =>
      match free fuel st.1 p with
      | none => none
      | some s2 => some (s2, st.2.eraseIdx i)
  | call.realloc i n =>
    match st.2[i]? with
    | none => some st
    | some (p, _) =>
      match realloc fuel st.1 p n with
      | none => none
      | some (q, s2) => some (s2, if q = 0 then st.2 else st.2.eraseIdx i ++ [(q, n)])
  | call.calloc n size =>
    match calloc fuel st.1 n size with
    | none => none
    | some (p, s2) => some (s2, if p = 0 then st.2 else st.2 ++ [(p, n * size)])

/-- A sequence of calls, from left to right. -/
def run (fuel : Nat) : Heap × List (Nat × Nat) → List call → Option (Heap × List (Nat × Nat))
  | st, [] => some st
  | st, c :: cs =>
    match step fuel st c with
    | none => none
    | some st2 => run fuel st2 cs

/-- The byte ranges `[p, p + n)` and `[q, q + m)` of two allocations do not meet. -/
def ranges_disjoint (a b : Nat × Nat) : Prop := a.1 + a.2 ≤ b.1 ∨ b.1 + b.2 ≤ a.1

instance ranges_disjoint_decidable (a b : Nat × Nat) : Decidable (ranges_disjoint a b) :=
  inferInstanceAs (Decidable (a.1 + a.2 ≤ b.1 ∨ b.1 + b.2 ≤ a.1))

/-- The request of the call, with the header, is a positive `intptr_t`: the increment
handed to `sbrk` neither wraps nor is negative. -/
def bounded : call → Prop
  | call.malloc n => n + BLOCK_SIZE < HALF
  | call.free _ => True
  | call.realloc _ n => n + BLOCK_SIZE < HALF
  | call.calloc n size => n * size + BLOCK_SIZE < HALF

instance bounded_decidable : (c : call) → Decidable (bounded c)
  | call.malloc n => inferInstanceAs (Decidable (n + BLOCK_SIZE < HALF))
  | call.free _ => inferInstanceAs (Decidable True)
  | call.realloc _ n => inferInstanceAs (Decidable (n + BLOCK_SIZE < HALF))
  | call.calloc n size => inferInstanceAs (Decidable (n * size + BLOCK_SIZE < HALF))

/-- Invariant of a run: the state is a ledger state with at most `k` blocks, every
live allocation is the payload of a used block of the ledger that holds the bytes
granted, and no pointer is live twice. -/
structure Inv (s : Heap) (live : List (Nat × Nat)) (k : Nat) : Prop where
  ledger : ∃ l, Valid s l ∧ l.length ≤ k ∧
    ∀ a ∈ live, ∃ b ∈ l, a.1 = b + BLOCK_SIZE ∧ (s.mem b).free = false ∧ a.2 ≤ (s.mem b).size
  nodup : (live.map Prod.fst).Nodup

/-- A store with one free block of 200 bytes whose header is 100 bytes below the top
of the address space. -/
def top_store : Nat → block_t :=
  fun a => if a = 18446744073709551516 then ⟨200, true, 0⟩ else ⟨0, false, 0⟩

/-- Whether two neighbours of a list of entries are both free. -/
def adjacent_free_entries : List entry → Bool
  | [] => false
  | [_] => false
  | x :: y :: r => (x.free && y.free) || adjacent_free_entries (y :: r)

/-- Bytes that a list of entries spans: payload and header of each. -/
def total (v : List entry) : Nat := (v.map (fun y => BLOCK_SIZE + y.size)).sum

/-- Collapse of runs, in the words of the claim: every maximal run of consecutive
free entries with sizes `s1 .. sk` becomes one free entry at the address of the first
with size `s1 + (BLOCK_SIZE + s2) + .. + (BLOCK_SIZE + sk)`; used entries stay as they
are, in their order.  The first argument bounds the number of steps. -/
def collapse_runs : Nat → List entry → List entry
  | 0, _ => []
  | _ + 1, [] => []
  | fuel + 1, x :: r =>
    if x.free then
      ⟨x.addr, x.size + total (r.takeWhile (fun y => y.free)), true⟩ ::
        collapse_runs fuel (r.dropWhile (fun y => y.free))
    else x :: collapse_runs fuel r

/-- Collapse of the runs of free entries of a whole ledger. -/
def collapse (v : List entry) : List entry := collapse_runs v.length v

/-- A ledger state with a run of three free blocks between used ones and a free
block at the end. -/
def demo_runs : Heap :=
  { head := 4096
    mem := fun a =>
      if a = 4096 then ⟨16, false, 4136⟩ else if a = 4136 then ⟨8, true, 4168⟩
      else if a = 4168 then ⟨8, true, 4200⟩ else if a = 4200 then ⟨16, true, 4240⟩
      else if a = 4240 then ⟨8, false, 4272⟩ else if a = 4272 then ⟨8, true, 0⟩
      else ⟨0, false, 0⟩
    data := fun _ => 0
    brk := 4304
    lo := 4096
    hi := 4400 }

/-- No two list neighbours of the block list of the state are both free. -/
def no_adjacent_free (s : Heap) : Prop :=
  ∀ l, chain s.mem s.head l → adjacent_free s.mem l = false

/-- Number of bytes a call asks the allocator for. -/
def request : call → Nat
  | call.malloc n => n
  | call.free _ => 0
  | call.realloc _ n => n
  | call.calloc n size => n * size

/-- Whether the heap extent of `s`, grown by the request of `c` and a header, stays
below `2^64`.  A `free` requests nothing. -/
def within_extent (s : Heap) : call → Bool
  | call.free _ => true
  | c => decide (s.brk - s.lo + (request c + BLOCK_SIZE) < WORD)

/-- Whether every call of a run is made in a state where it is `within_extent`. -/
def run_within (fuel : Nat) : Heap × List (Nat × Nat) → List call → Bool
  | _, [] => true
  | st, c :: cs =>
    within_extent st.1 c &&
      match step fuel st c with
      | none => true
      | some st2 => run_within fuel st2 cs

/-! ## Store and chain lemmas -/

@[simp] theorem store_same (mem : Nat → block_t) (a : Nat) (v : block_t) : store mem a v a = v := by
  simp [store]

theorem store_other (mem : Nat → block_t) (a x : Nat) (v : block_t) (h : x ≠ a) :
    store mem a v x = mem x := by
  simp [store, h]

theorem chain_congr (mem mem2 : Nat → block_t) (l : List Nat) :
    ∀ a, (∀ x ∈ l, (mem2 x).next = (mem x).next) → chain mem a l → chain mem2 a l := by
  induction l with
  | nil => intro a _ h; exact h
  | cons x xs ih =>
    intro a hx h
    obtain ⟨h1, h2, h3⟩ := h
    refine ⟨h1, h2, ?_⟩
    rw [hx x (List.mem_cons_self _ _)]
    exact ih _ (fun y hy => hx y (List.mem_cons_of_mem _ hy)) h3

theorem chain_unique (mem : Nat → block_t) (l1 : List Nat) :
    ∀ (l2 : List Nat) (a : Nat), chain mem a l1 → chain mem a l2 → l1 = l2 := by
  induction l1 with
  | nil =>
    intro l2 a h1 h2
    cases l2 with
    | nil => rfl
    | cons y ys =>
      obtain ⟨e, hy, _⟩ := h2
      simp only [chain] at h1
      omega
  | cons x xs ih =>
    intro l2 a h1 h2
    obtain ⟨e1, hx, h1⟩ := h1
    cases l2 with
    | nil => simp only [chain] at h2; omega
    | cons y ys =>
      obtain ⟨e2, _, h2⟩ := h2
      have : x = y := by omega
      subst this
      rw [ih ys _ h1 h2]

theorem chain_ne_zero (mem : Nat → block_t) (l : List Nat) :
    ∀ a, chain mem a l → ∀ x ∈ l, x ≠ 0 := by
  induction l with
  | nil => intro a _ x hx; simp at hx
  | cons y ys ih =>
    intro a h x hx
    obtain ⟨_, hy, h⟩ := h
    rcases List.mem_cons.1 hx with rfl | hx
    · exact hy
    · exact ih _ h x hx

/-- The chain from an element of the list is a strictly shorter list. -/
theorem chain_suffix (mem : Nat → block_t) (l : List Nat) :
    ∀ a, chain mem a l → ∀ x ∈ l, ∃ t, chain mem (mem x).next t ∧ t.length < l.length := by
  induction l with
  | nil => intro a _ x hx; simp at hx
  | cons y ys ih =>
    intro a h x hx
    obtain ⟨_, hy, h⟩ := h
    rcases List.mem_cons.1 hx with rfl | hx
    · exact ⟨ys, h, by simp⟩
    · obtain ⟨t, ht, hl⟩ := ih _ h x hx
      exact ⟨t, ht, by simp; omega⟩

theorem chain_nodup (mem : Nat → block_t) (l : List Nat) :
    ∀ a, chain mem a l → l.Nodup := by
  induction l with
  | nil => intro a _; exact List.nodup_nil
  | cons y ys ih =>
    intro a h
    obtain ⟨_, hy, h⟩ := h
    refine List.nodup_cons.2 ⟨?_, ih _ h⟩
    intro hmem
    obtain ⟨t, ht, hl⟩ := chain_suffix mem ys _ h y hmem
    have := chain_unique mem _ _ _ ht h
    subst this
    omega

/-! ## The loops -/

theorem find_free_block_eq (mem : Nat → block_t) (size : Nat) (l : List Nat) :
    ∀ fuel a, chain mem a l → l.length < fuel →
      find_free_block fuel mem a size = some (first_fit mem size l) := by
  induction l with
  | nil =>
    intro fuel a h hf
    simp only [chain] at h
    cases fuel with
    | zero => simp at hf
    | succ f => simp [find_free_block, h, first_fit]
  | cons x xs ih =>
    intro fuel a h hf
    obtain ⟨rfl, hx, h⟩ := h
    cases fuel with
    | zero => simp at hf
    | succ f =>
      have hf2 : xs.length < f := by simpa using hf
      by_cases hfit : fits mem size a = true
      · have hfit2 := hfit
        simp only [fits] at hfit2
        simp [find_free_block, hx, first_fit, hfit, hfit2]
      · have hfit2 := hfit
        simp only [fits] at hfit2
        simp only [find_free_block, hx, first_fit, hfit, hfit2, if_false]
        exact ih f _ h hf2

theorem first_fit_eq_zero (mem : Nat → block_t) (size : Nat) (l : List Nat)
    (hnz : ∀ x ∈ l, x ≠ 0) :
    first_fit mem size l = 0 ↔ ∀ x ∈ l, fits mem size x = false := by
  induction l with
  | nil => simp [first_fit]
  | cons x xs ih =>
    have hx : x ≠ 0 := hnz x (List.mem_cons_self _ _)
    have ih2 := ih (fun y hy => hnz y (List.mem_cons_of_mem _ hy))
    by_cases hfit : fits mem size x = true
    · simp [first_fit, hfit, hx]
    · simp only [first_fit, hfit, if_false, List.forall_mem_cons, ih2]
      simp at hfit
      simp [hfit]
      exact ih2

theorem first_fit_mem (mem : Nat → block_t) (size : Nat) (l : List Nat)
    (h : first_fit mem size l ≠ 0) :
    first_fit mem size l ∈ l ∧ fits mem size (first_fit mem size l) = true := by
  induction l with
  | nil => simp [first_fit] at h
  | cons x xs ih =>
    by_cases hfit : fits mem size x = true
    · simp [first_fit, hfit]
    · simp only [first_fit, hfit, if_false] at h ⊢
      exact ⟨List.mem_cons_of_mem _ (ih h).1, (ih h).2⟩

theorem find_last_eq (mem : Nat → block_t) (l : List Nat) :
    ∀ fuel a x, chain mem a (x :: l) → l.length < fuel →
      find_last fuel mem a = some ((x :: l).getLast (List.cons_ne_nil _ _)) := by
  induction l with
  | nil =>
    intro fuel a x h hf
    obtain ⟨rfl, hx, h⟩ := h
    simp only [chain] at h
    cases fuel with
    | zero => simp at hf
    | succ f => simp [find_last, h]
  | cons y ys ih =>
    intro fuel a x h hf
    obtain ⟨rfl, hx, h⟩ := h
    have h2 := h
    obtain ⟨hy, hy0, _⟩ := h2
    cases fuel with
    | zero => simp at hf
    | succ f =>
      have hf2 : ys.length < f := by simpa using hf
      have hne : (mem a).next ≠ 0 := by rw [hy]; exact hy0
      simp only [find_last, hne, ne_eq, not_false_eq_true, if_true]
      rw [ih f _ y h hf2]
      simp

theorem set_size_eq (mem : Nat → block_t) (a v x : Nat) :
    set_size mem a v x = if x = a then { mem a with size := v } else mem x := rfl

theorem set_free_eq (mem : Nat → block_t) (a : Nat) (v : Bool) (x : Nat) :
    set_free mem a v x = if x = a then { mem a with free := v } else mem x := rfl

theorem set_next_eq (mem : Nat → block_t) (a v x : Nat) :
    set_next mem a v x = if x = a then { mem a with next := v } else mem x := rfl

theorem view_congr (mem mem2 : Nat → block_t) (l : List Nat)
    (h : ∀ x ∈ l, (mem2 x).size = (mem x).size ∧ (mem2 x).free = (mem x).free) :
    view mem2 l = view mem l := by
  induction l with
  | nil => rfl
  | cons x xs ih =>
    simp only [view, List.map_cons, List.cons.injEq, entry.mk.injEq, true_and]
    refine ⟨h x (List.mem_cons_self _ _), ?_⟩
    exact ih (fun y hy => h y (List.mem_cons_of_mem _ hy))

/-- The loop of `merge_blocks` on a finite list returns; the list it leaves is a
sublist of the old one whose entries are the coalescing of the old entries, and it
writes no record of a used block or of a block it drops from the list. -/
theorem merge_blocks_spec (r : List Nat) :
    ∀ (mem : Nat → block_t) (x fuel : Nat), chain mem x (x :: r) → r.length < fuel →
      ∃ mem2 l2, merge_blocks fuel mem x = some mem2 ∧ chain mem2 x l2 ∧
        view mem2 l2 = coalesce_from ⟨x, (mem x).size, (mem x).free⟩ (view mem r) ∧
        l2.Sublist (x :: r) ∧
        (∀ z, (z ∉ l2 ∨ (mem z).free = false) → mem2 z = mem z) ∧
        (∀ z, (mem2 z).free = (mem z).free) := by
  induction r with
  | nil =>
    intro mem x fuel h hf
    have h0 := h
    obtain ⟨_, hx, hn⟩ := h
    simp only [chain] at hn
    cases fuel with
    | zero => simp at hf
    | succ f =>
      refine ⟨mem, [x], by simp [merge_blocks, hn], h0, by simp [view, coalesce_from],
        List.Sublist.refl _, fun _ _ => rfl, fun _ => rfl⟩
  | cons y r ih =>
    intro mem x fuel h hf
    have hnd := chain_nodup mem _ _ h
    obtain ⟨_, hx, hy, hy0, hr⟩ := h
    have hxy : x ≠ y := by
      intro e; subst e; simp at hnd
    have hxr : x ∉ r := fun hm => (List.nodup_cons.1 hnd).1 (List.mem_cons_of_mem _ hm)
    cases fuel with
    | zero => simp at hf
    | succ f =>
      have hf2 : r.length < f := by simpa using hf
      by_cases hfree : ((mem x).free && (mem y).free) = true
      · -- merge `y` into `x`
        have hfx : (mem x).free = true := by simp at hfree; exact hfree.1
        have hfy : (mem y).free = true := by simp at hfree; exact hfree.2
        let nsz := add64 (mem x).size (add64 BLOCK_SIZE (mem y).size)
        let m2 : Nat → block_t := store mem x ⟨nsz, (mem x).free, (mem y).next⟩
        have hm2 : (set_next (set_size mem x nsz) x
            ((set_size mem x nsz) ((set_size mem x nsz) x).next).next) = m2 := by
          funext z
          simp only [set_next_eq, set_size_eq, if_true, hy, if_neg (Ne.symm hxy), m2, store]
          by_cases hz : z = x <;> simp [hz]
        have hstep : merge_blocks (f + 1) mem x = merge_blocks f m2 x := by
          rw [← hm2]
          simp only [merge_blocks]
          rw [if_pos ⟨hx, by rw [hy]; exact hy0⟩, hy, if_pos hfree]
        have hm2o : ∀ z, z ≠ x → m2 z = mem z := fun z hz => by simp [m2, store, hz]
        have hm2x : m2 x = ⟨nsz, (mem x).free, (mem y).next⟩ := by simp [m2]
        have hch : chain m2 x (x :: r) := by
          refine ⟨rfl, hx, ?_⟩
          rw [hm2x]
          refine chain_congr mem m2 r _ (fun z hz => ?_) hr
          rw [hm2o z (fun e => hxr (e ▸ hz))]
        obtain ⟨mem3, l3, h1, h2, h3, h4, h5, h6⟩ := ih m2 x f hch hf2
        refine ⟨mem3, l3, hstep.trans h1, h2, ?_, h4.trans (List.Sublist.cons₂ x (List.sublist_cons_self y r)), ?_, ?_⟩
        · rw [h3, hm2x]
          have hv : view m2 r = view mem r :=
            view_congr mem m2 r (fun z hz => by rw [hm2o z (fun e => hxr (e ▸ hz))]; exact ⟨rfl, rfl⟩)
          rw [hv]
          simp only [view, List.map_cons, coalesce_from, hfx, hfy, Bool.and_self, if_true]
        · intro z hz
          have hxl3 : x ∈ l3 := by
            cases l3 with
            | nil => simp only [chain] at h2; exact absurd h2 hx
            | cons w ws => obtain ⟨e, _, _⟩ := h2; rw [← e]; exact List.mem_cons_self _ _
          have hzx : z ≠ x := by
            rcases hz with hz | hz
            · intro e; exact hz (e ▸ hxl3)
            · intro e; rw [e, hfx] at hz; exact absurd hz (by simp)
          rw [h5 z (hz.imp id (fun hz => by rw [hm2o z hzx]; exact hz)), hm2o z hzx]
        · intro z
          rw [h6 z]
          by_cases hzx : z = x
          · rw [hzx, hm2x]
          · rw [hm2o z hzx]
      · -- advance to `y`
        have hstep : merge_blocks (f + 1) mem x = merge_blocks f mem y := by
          simp only [merge_blocks]
          rw [if_pos ⟨hx, by rw [hy]; exact hy0⟩, hy, if_neg hfree]
        have hch : chain mem y (y :: r) := ⟨rfl, hy0, hr⟩
        obtain ⟨mem3, l3, h1, h2, h3, h4, h5, h6⟩ := ih mem y f hch hf2
        have hxl3 : x ∉ l3 := fun hm => by
          have := h4.subset hm
          rcases List.mem_cons.1 this with e | hm2
          · exact hxy e
          · exact hxr hm2
        have hx3 : mem3 x = mem x := h5 x (Or.inl hxl3)
        refine ⟨mem3, x :: l3, hstep.trans h1, ⟨rfl, hx, by rw [hx3, hy]; exact h2⟩, ?_,
          List.Sublist.cons₂ x h4, ?_, h6⟩
        · simp only [view, List.map_cons, coalesce_from, hfree, hx3]
          simp only [view, List.map_cons] at h3
          rw [h3]
          simp
        · intro z hz
          refine h5 z (hz.imp (fun hz hm => hz (List.mem_cons_of_mem _ hm)) id)

/-! ## Tilings -/

theorem tiles_entries_append (v1 : List entry) :
    ∀ (a : Nat) (v2 : List entry) (e : Nat),
      tiles_entries a (v1 ++ v2) e ↔ ∃ m, tiles_entries a v1 m ∧ tiles_entries m v2 e := by
  induction v1 with
  | nil =>
    intro a v2 e
    simp [tiles_entries]
  | cons x xs ih =>
    intro a v2 e
    rw [List.cons_append]
    simp only [tiles_entries]
    rw [ih]
    constructor
    · rintro ⟨h1, m, h2, h3⟩
      exact ⟨m, ⟨h1, h2⟩, h3⟩
    · rintro ⟨m, ⟨h1, h2⟩, h3⟩
      exact ⟨h1, m, h2, h3⟩

theorem tiles_entries_le (v : List entry) :
    ∀ (a e : Nat), tiles_entries a v e → a ≤ e := by
  induction v with
  | nil => intro a e h; simp only [tiles_entries] at h; omega
  | cons x xs ih =>
    intro a e h
    obtain ⟨h1, h2⟩ := h
    have := ih _ _ h2
    omega

theorem tiles_entries_bounds (v : List entry) :
    ∀ (a e : Nat), tiles_entries a v e →
      ∀ x ∈ v, a ≤ x.addr ∧ x.addr + BLOCK_SIZE + x.size ≤ e := by
  induction v with
  | nil => intro a e _ x hx; simp at hx
  | cons y ys ih =>
    intro a e h x hx
    obtain ⟨h1, h2⟩ := h
    rcases List.mem_cons.1 hx with rfl | hx
    · have := tiles_entries_le _ _ _ h2
      omega
    · have := ih _ _ h2 x hx
      omega

theorem tiles_entries_pairwise (v : List entry) :
    ∀ (a e : Nat), tiles_entries a v e →
      v.Pairwise (fun x y => x.addr + BLOCK_SIZE + x.size ≤ y.addr) := by
  induction v with
  | nil => intro a e _; exact List.Pairwise.nil
  | cons y ys ih =>
    intro a e h
    obtain ⟨h1, h2⟩ := h
    refine List.Pairwise.cons (fun z hz => ?_) (ih _ _ h2)
    exact (tiles_entries_bounds ys _ _ h2 z hz).1

theorem mem_view (mem : Nat → block_t) (l : List Nat) (x : Nat) (hx : x ∈ l) :
    (⟨x, (mem x).size, (mem x).free⟩ : entry) ∈ view mem l :=
  List.mem_map.2 ⟨x, hx, rfl⟩

theorem of_mem_view (mem : Nat → block_t) (l : List Nat) (en : entry) (h : en ∈ view mem l) :
    en.addr ∈ l ∧ en.size = (mem en.addr).size ∧ en.free = (mem en.addr).free := by
  obtain ⟨x, hx, rfl⟩ := List.mem_map.1 h
  exact ⟨hx, rfl, rfl⟩

theorem tiles_bounds (mem : Nat → block_t) (a e : Nat) (l : List Nat) (h : tiles mem a l e)
    (x : Nat) (hx : x ∈ l) : a ≤ x ∧ x + BLOCK_SIZE + (mem x).size ≤ e :=
  tiles_entries_bounds _ _ _ h _ (mem_view mem l x hx)

theorem tiles_pairwise (mem : Nat → block_t) (a e : Nat) (l : List Nat) (h : tiles mem a l e) :
    l.Pairwise (fun x y => x + BLOCK_SIZE + (mem x).size ≤ y) := by
  have := tiles_entries_pairwise _ _ _ h
  simp only [view, List.pairwise_map] at this
  exact this

/-- Two different blocks of a tiling do not overlap. -/
theorem tiles_sep (mem : Nat → block_t) (a e : Nat) (l : List Nat) (h : tiles mem a l e)
    (x y : Nat) (hx : x ∈ l) (hy : y ∈ l) (hxy : x ≠ y) :
    x + BLOCK_SIZE + (mem x).size ≤ y ∨ y + BLOCK_SIZE + (mem y).size ≤ x := by
  have hp := tiles_pairwise mem a e l h
  have hsym : (l.Pairwise (fun x y => x + BLOCK_SIZE + (mem x).size ≤ y ∨
      y + BLOCK_SIZE + (mem y).size ≤ x)) := hp.imp (fun h => Or.inl h)
  exact hsym.forall (fun _ _ h => h.symm) hx hy hxy

theorem tiles_congr (mem mem2 : Nat → block_t) (a e : Nat) (l : List Nat)
    (h : ∀ x ∈ l, (mem2 x).size = (mem x).size) (ht : tiles mem a l e) : tiles mem2 a l e := by
  induction l generalizing a with
  | nil => exact ht
  | cons x xs ih =>
    obtain ⟨h1, h2⟩ := ht
    refine ⟨h1, ?_⟩
    have hx := h x (List.mem_cons_self _ _)
    simp only at h2 ⊢
    rw [hx]
    exact ih _ (fun y hy => h y (List.mem_cons_of_mem _ hy)) h2

theorem tiles_append (mem : Nat → block_t) (a e : Nat) (l1 l2 : List Nat) :
    tiles mem a (l1 ++ l2) e ↔ ∃ m, tiles mem a l1 m ∧ tiles mem m l2 e := by
  simp only [tiles, view, List.map_append]
  exact tiles_entries_append _ _ _ _

theorem coalesce_from_tiles (v : List entry) :
    ∀ (cur : entry) (a e : Nat), tiles_entries a (cur :: v) e → e ≤ WORD →
      tiles_entries a (coalesce_from cur v) e := by
  induction v with
  | nil => intro cur a e h _; exact h
  | cons y ys ih =>
    intro cur a e h he
    by_cases hfree : (cur.free && y.free) = true
    · simp only [coalesce_from, hfree, if_true]
      obtain ⟨h1, h2, h3⟩ := h
      have hle := tiles_entries_le _ _ _ h3
      apply ih _ _ _ _ he
      refine ⟨h1, ?_⟩
      have e1 : add64 cur.size (add64 BLOCK_SIZE y.size) = cur.size + BLOCK_SIZE + y.size := by
        simp only [add64, BLOCK_SIZE, WORD] at *
        omega
      simp only [e1]
      have e2 : cur.addr + BLOCK_SIZE + (cur.size + BLOCK_SIZE + y.size) =
          y.addr + BLOCK_SIZE + y.size := by omega
      rw [e2]
      exact h3
    · simp only [coalesce_from, hfree]
      obtain ⟨h1, h2⟩ := h
      exact ⟨h1, ih _ _ _ h2 he⟩

theorem coalesce_from_used (v : List entry) :
    ∀ (cur en : entry), en ∈ cur :: v → en.free = false → en ∈ coalesce_from cur v := by
  induction v with
  | nil => intro cur en h _; exact h
  | cons y ys ih =>
    intro cur en h hen
    by_cases hfree : (cur.free && y.free) = true
    · simp only [coalesce_from, hfree, if_true]
      have hc : cur.free = true := by simp at hfree; exact hfree.1
      have hy : y.free = true := by simp at hfree; exact hfree.2
      apply ih _ _ _ hen
      rcases List.mem_cons.1 h with rfl | h
      · rw [hc] at hen; exact absurd hen (by simp)
      · rcases List.mem_cons.1 h with rfl | h
        · rw [hy] at hen; exact absurd hen (by simp)
        · exact List.mem_cons_of_mem _ h
    · simp only [coalesce_from, hfree]
      rcases List.mem_cons.1 h with rfl | h
      · exact List.mem_cons_self _ _
      · exact List.mem_cons_of_mem _ (ih _ _ h hen)

theorem coalesce_from_length (v : List entry) :
    ∀ (cur : entry), (coalesce_from cur v).length ≤ v.length + 1 := by
  induction v with
  | nil => intro cur; simp [coalesce_from]
  | cons y ys ih =>
    intro cur
    by_cases hfree : (cur.free && y.free) = true
    · simp only [coalesce_from, hfree, if_true]
      have := ih ⟨cur.addr, add64 cur.size (add64 BLOCK_SIZE y.size), cur.free⟩
      simp only [List.length_cons]
      omega
    · have := ih y
      simp only [coalesce_from, hfree, List.length_cons]
      simp only [Bool.false_eq_true, if_false, List.length_cons]
      omega

/-! ## Splitting and appending -/

theorem add64_eq (a b : Nat) (h : a + b < WORD) : add64 a b = a + b := by
  simp only [add64]; exact Nat.mod_eq_of_lt h

theorem sub64_eq (a b : Nat) (h1 : b ≤ a) (h2 : a < WORD) : sub64 a b = a - b := by
  simp only [sub64]
  have : a + WORD - b = (a - b) + WORD := by omega
  rw [this, Nat.add_mod_right]
  exact Nat.mod_eq_of_lt (by omega)

theorem payload_eq (b : Nat) (h : b + BLOCK_SIZE < WORD) : payload b = b + BLOCK_SIZE :=
  add64_eq _ _ h

theorem header_payload (b : Nat) (h : b + BLOCK_SIZE < WORD) : header (payload b) = b := by
  rw [payload_eq b h]
  simp only [header]
  rw [sub64_eq _ _ (by omega) h]
  omega

theorem split_block_of_le (mem : Nat → block_t) (b n : Nat)
    (h : (mem b).size ≤ add64 n BLOCK_SIZE) : split_block mem b n = mem := by
  simp [split_block, h]

theorem split_block_of_gt (mem : Nat → block_t) (b n : Nat)
    (h : add64 n BLOCK_SIZE < (mem b).size) (hne : split_addr b n ≠ b) :
    split_block mem b n =
      store (store mem (split_addr b n)
        ⟨sub64 (sub64 (mem b).size n) BLOCK_SIZE, true, (mem b).next⟩) b
        ⟨n, (mem b).free, split_addr b n⟩ := by
  have h2 : ¬ (mem b).size ≤ add64 n BLOCK_SIZE := by omega
  funext z
  simp only [split_block, h2, if_false, set_next_eq, set_size_eq, set_free_eq, store, split_addr] at *
  by_cases hz : z = b
  · subst hz
    simp [Ne.symm hne]
  · simp only [hz, if_false]
    by_cases hz2 : z = add64 (add64 b BLOCK_SIZE) n
    · simp [hz2, Ne.symm hne]
    · simp [hz2]

theorem mem_insert_after (b nb : Nat) (l : List Nat) (x : Nat) (h : x ∈ l) :
    x ∈ insert_after b nb l := by
  induction l with
  | nil => exact h
  | cons y ys ih =>
    by_cases hy : y = b
    · simp only [insert_after, hy, if_true]
      rcases List.mem_cons.1 h with e | h
      · rw [e, hy]; exact List.mem_cons_self _ _
      · exact List.mem_cons_of_mem _ (List.mem_cons_of_mem _ h)
    · simp only [insert_after, hy, if_false]
      rcases List.mem_cons.1 h with e | h
      · rw [e]; exact List.mem_cons_self _ _
      · exact List.mem_cons_of_mem _ (ih h)

theorem sublist_insert_after (b nb : Nat) (l : List Nat) :
    l.Sublist (insert_after b nb l) := by
  induction l with
  | nil => exact List.Sublist.slnil
  | cons y ys ih =>
    by_cases hy : y = b
    · simp only [insert_after, hy, if_true]
      exact List.Sublist.cons₂ _ (List.sublist_cons_self _ _)
    · simp only [insert_after, hy, if_false]
      exact List.Sublist.cons₂ _ ih

theorem length_insert_after (b nb : Nat) (l : List Nat) :
    (insert_after b nb l).length ≤ l.length + 1 := by
  induction l with
  | nil => simp [insert_after]
  | cons y ys ih =>
    by_cases hy : y = b
    · simp [insert_after, hy]
    · simp only [insert_after, hy, if_false, List.length_cons]
      omega

theorem of_mem_insert_after (b nb : Nat) (l : List Nat) (x : Nat)
    (h : x ∈ insert_after b nb l) : x ∈ l ∨ x = nb := by
  induction l with
  | nil => simp [insert_after] at h
  | cons y ys ih =>
    by_cases hy : y = b
    · simp only [insert_after, hy, if_true, List.mem_cons] at h ⊢
      rcases h with h | h | h
      · exact Or.inl (Or.inl h)
      · exact Or.inr h
      · exact Or.inl (Or.inr h)
    · simp only [insert_after, hy, if_false, List.mem_cons] at h ⊢
      rcases h with h | h
      · exact Or.inl (Or.inl h)
      · rcases ih h with h | h
        · exact Or.inl (Or.inr h)
        · exact Or.inr h

theorem nb_mem_insert_after (b nb : Nat) (l : List Nat) (h : b ∈ l) :
    nb ∈ insert_after b nb l := by
  induction l with
  | nil => simp at h
  | cons y ys ih =>
    by_cases hy : y = b
    · simp [insert_after, hy]
    · simp only [insert_after, hy, if_false]
      rcases List.mem_cons.1 h with e | h
      · exact absurd e.symm hy
      · exact List.mem_cons_of_mem _ (ih h)

/-- Chain after a split of `b`: the carved block `nb` follows `b`. -/
theorem chain_insert_after (mem mem2 : Nat → block_t) (b nb : Nat) (l : List Nat)
    (hb : b ∈ l) (hnb : nb ∉ l) (hnb0 : nb ≠ 0)
    (ho : ∀ z, z ≠ b → z ≠ nb → mem2 z = mem z)
    (h1 : (mem2 b).next = nb) (h2 : (mem2 nb).next = (mem b).next) :
    ∀ a, chain mem a l → chain mem2 a (insert_after b nb l) := by
  induction l with
  | nil => simp at hb
  | cons y ys ih =>
    intro a h
    have hnd := chain_nodup mem _ _ h
    obtain ⟨ha, hy0, hr⟩ := h
    have hynb : y ≠ nb := fun e => hnb (e ▸ List.mem_cons_self _ _)
    have hnbys : nb ∉ ys := fun hm => hnb (List.mem_cons_of_mem _ hm)
    by_cases hy : y = b
    · subst hy
      simp only [insert_after, if_true]
      refine ⟨ha, hy0, ?_⟩
      rw [h1]
      refine ⟨rfl, hnb0, ?_⟩
      rw [h2]
      refine chain_congr mem mem2 ys _ (fun z hz => ?_) hr
      rw [ho z (fun e => (List.nodup_cons.1 hnd).1 (e ▸ hz)) (fun e => hnbys (e ▸ hz))]
    · simp only [insert_after, hy, if_false]
      refine ⟨ha, hy0, ?_⟩
      rw [ho y hy hynb]
      rcases List.mem_cons.1 hb with e | hb2
      · exact absurd e.symm hy
      · exact ih hb2 hnbys _ hr

/-- Tiling after a split of `b`: `b` and the carved block share the old span of `b`. -/
theorem tiles_insert_after (mem mem2 : Nat → block_t) (b nb n : Nat) (l : List Nat)
    (hnd : l.Nodup) (hnb : nb ∉ l)
    (ho : ∀ z, z ≠ b → z ≠ nb → (mem2 z).size = (mem z).size)
    (h1 : (mem2 b).size = n) (h2 : nb = b + BLOCK_SIZE + n)
    (h3 : n + BLOCK_SIZE + (mem2 nb).size = (mem b).size) :
    ∀ a e, tiles mem a l e → tiles mem2 a (insert_after b nb l) e := by
  induction l with
  | nil => intro a e h; exact h
  | cons y ys ih =>
    intro a e h
    obtain ⟨ha, hr⟩ := h
    simp only at ha hr
    have hynb : y ≠ nb := fun e => hnb (e ▸ List.mem_cons_self _ _)
    have hnbys : nb ∉ ys := fun hm => hnb (List.mem_cons_of_mem _ hm)
    by_cases hy : y = b
    · subst hy
      simp only [insert_after, if_true]
      refine ⟨ha, ?_⟩
      simp only
      rw [h1]
      refine ⟨h2, ?_⟩
      simp only
      have e2 : nb + BLOCK_SIZE + (mem2 nb).size = y + BLOCK_SIZE + (mem y).size := by omega
      rw [e2]
      refine tiles_congr mem mem2 _ _ ys (fun z hz => ?_) hr
      exact ho z (fun e => (List.nodup_cons.1 hnd).1 (e ▸ hz)) (fun e => hnbys (e ▸ hz))
    · simp only [insert_after, hy, if_false]
      refine ⟨ha, ?_⟩
      simp only
      rw [ho y hy hynb]
      exact ih (List.nodup_cons.1 hnd).2 hnbys _ _ hr

/-- Chain after the tail append of `malloc`. -/
theorem chain_append_last (mem : Nat → block_t) (nb : Nat) (hnb0 : nb ≠ 0)
    (hn : (mem nb).next = 0) (xs : List Nat) :
    ∀ a x, chain mem a (x :: xs) → nb ∉ x :: xs →
      chain (set_next mem ((x :: xs).getLast (List.cons_ne_nil _ _)) nb) a (x :: xs ++ [nb]) := by
  induction xs with
  | nil =>
    intro a x h hnb
    obtain ⟨ha, hx0, hr⟩ := h
    have hx : x ≠ nb := fun e => hnb (e ▸ List.mem_cons_self _ _)
    simp only [List.getLast_singleton, List.cons_append, List.nil_append]
    refine ⟨ha, hx0, ?_⟩
    simp only [set_next_eq, if_true]
    refine ⟨rfl, hnb0, ?_⟩
    show (set_next mem x nb nb).next = 0
    rw [set_next_eq, if_neg (Ne.symm hx)]
    exact hn
  | cons y ys ih =>
    intro a x h hnb
    have hnd := chain_nodup mem _ _ h
    obtain ⟨ha, hx0, hr⟩ := h
    have hxl : x ≠ (y :: ys).getLast (List.cons_ne_nil _ _) := by
      intro e
      exact (List.nodup_cons.1 hnd).1 (e ▸ List.getLast_mem _)
    rw [List.getLast_cons (List.cons_ne_nil _ _)]
    refine ⟨ha, hx0, ?_⟩
    simp only [set_next_eq, if_neg hxl]
    have hy : (mem x).next = y := hr.1
    rw [hy] at hr ⊢
    exact ih y y hr (fun hm => hnb (List.mem_cons_of_mem _ hm))

/-! ## Unfolding malloc -/

theorem sbrk_some (s : Heap) (inc : Nat) (r : Nat × Heap) (h : sbrk s inc = some r) :
    r.1 = s.brk ∧ r.2 = { s with brk := r.2.brk } := by
  simp only [sbrk] at h
  split at h
  · split at h
    · cases h; exact ⟨rfl, rfl⟩
    · cases h
  · split at h
    · cases h; exact ⟨rfl, rfl⟩
    · cases h

theorem sbrk_some_pos (s : Heap) (inc : Nat) (hi : inc < HALF) (r : Nat × Heap)
    (h : sbrk s inc = some r) : r.2.brk = s.brk + inc ∧ r.2.brk ≤ s.hi := by
  simp only [sbrk, hi, if_true] at h
  split at h
  · cases h; exact ⟨rfl, by assumption⟩
  · cases h

theorem valid_ne_zero (s : Heap) (l : List Nat) (hv : Valid s l) : ∀ x ∈ l, x ≠ 0 :=
  chain_ne_zero s.mem l s.head hv.chain

theorem valid_bounds (s : Heap) (l : List Nat) (hv : Valid s l) (x : Nat) (hx : x ∈ l) :
    s.lo ≤ x ∧ x + BLOCK_SIZE + (s.mem x).size ≤ s.brk :=
  tiles_bounds s.mem s.lo s.brk l hv.tiles x hx

theorem valid_brk_not_mem (s : Heap) (l : List Nat) (hv : Valid s l) : s.brk ∉ l := by
  intro h
  have := valid_bounds s l hv _ h
  simp only [BLOCK_SIZE] at this
  omega

theorem valid_lo_le_brk (s : Heap) (l : List Nat) (hv : Valid s l) : s.lo ≤ s.brk :=
  tiles_entries_le _ _ _ hv.tiles

theorem malloc_found (s : Heap) (l : List Nat) (n fuel : Nat)
    (hc : chain s.mem s.head l) (hn0 : n ≠ 0) (hf : l.length < fuel)
    (hb : first_fit s.mem n l ≠ 0) :
    malloc fuel s n = some (payload (first_fit s.mem n l),
      { s with mem := (split_block (set_free s.mem (first_fit s.mem n l) false)
          (first_fit s.mem n l) n) }) := by
  simp only [malloc, hn0, if_false, find_free_block_eq s.mem n l fuel s.head hc hf]
  simp only [hb, ne_eq, not_false_eq_true, if_true]

theorem malloc_fail (s : Heap) (l : List Nat) (n fuel : Nat)
    (hc : chain s.mem s.head l) (hn0 : n ≠ 0) (hf : l.length < fuel)
    (hb : first_fit s.mem n l = 0) (hs : sbrk s (add64 n BLOCK_SIZE) = none) :
    malloc fuel s n = some (0, s) := by
  simp only [malloc, hn0, if_false, find_free_block_eq s.mem n l fuel s.head hc hf]
  simp only [hb, ne_eq, not_true_eq_false, if_false, request_space, hs, if_true]

theorem malloc_grow_empty (s : Heap) (n fuel nbrk : Nat)
    (hc : chain s.mem s.head []) (hn0 : n ≠ 0) (hf : 0 < fuel) (hbrk : s.brk ≠ 0)
    (hs : sbrk s (add64 n BLOCK_SIZE) = some (s.brk, { s with brk := nbrk })) :
    malloc fuel s n = some (payload s.brk,
      { s with brk := nbrk, mem := store s.mem s.brk ⟨n, false, 0⟩, head := s.brk }) := by
  have hh : s.head = 0 := hc
  simp only [malloc, hn0, if_false, find_free_block_eq s.mem n [] fuel s.head hc hf]
  simp only [first_fit, ne_eq, not_true_eq_false, if_false, request_space, hs, hbrk, hh, if_true]

theorem malloc_grow_append (s : Heap) (x : Nat) (xs : List Nat) (n fuel nbrk : Nat)
    (hc : chain s.mem s.head (x :: xs)) (hn0 : n ≠ 0) (hf : (x :: xs).length < fuel)
    (hbrk : s.brk ≠ 0) (hnm : s.brk ∉ x :: xs)
    (hb : first_fit s.mem n (x :: xs) = 0)
    (hs : sbrk s (add64 n BLOCK_SIZE) = some (s.brk, { s with brk := nbrk })) :
    malloc fuel s n = some (payload s.brk,
      { s with brk := nbrk,
               mem := set_next (store s.mem s.brk ⟨n, false, 0⟩)
                 ((x :: xs).getLast (List.cons_ne_nil _ _)) s.brk }) := by
  have hh : s.head ≠ 0 := by rw [hc.1]; exact hc.2.1
  have hc2 : chain (store s.mem s.brk ⟨n, false, 0⟩) s.head (x :: xs) :=
    chain_congr s.mem _ _ _ (fun z hz => by
      rw [store_other _ _ _ _ (fun e => hnm (by rw [← e]; exact hz))]) hc
  have hfl := find_last_eq _ xs fuel s.head x hc2 (by simp at hf; omega)
  simp only [malloc, hn0, if_false, find_free_block_eq s.mem n _ fuel s.head hc hf]
  simp only [hb, ne_eq, not_true_eq_false, if_false, request_space, hs, hbrk, hh, hfl]

/-! ## What malloc establishes -/

theorem malloc_post_fail (s : Heap) (l : List Nat) (n : Nat) (hv : Valid s l)
    (hb : ∀ x ∈ l, fits s.mem n x = false) (hs : sbrk s (add64 n BLOCK_SIZE) = none) :
    MallocPost s l n 0 s l where
  chain := hv.chain
  sub := List.Sublist.refl _
  len := by omega
  data := rfl
  lo := rfl
  hi := rfl
  used := fun x _ hx => ⟨rfl, hx⟩
  null_iff := ⟨fun _ => ⟨hb, hs⟩, fun _ => rfl⟩
  null_same := fun _ => ⟨rfl, rfl⟩
  block := fun h => absurd rfl h
  found := fun ⟨x, hx, hfx⟩ => by rw [hb x hx] at hfx; exact absurd hfx (by simp)
  valid := fun _ => hv

theorem malloc_post_nosplit (s : Heap) (l : List Nat) (n b : Nat) (hv : Valid s l)
    (hb : b ∈ l) (hfit : fits s.mem n b = true) (hbf : b = first_fit s.mem n l) :
    MallocPost s l n (b + BLOCK_SIZE) { s with mem := set_free s.mem b false } l := by
  have hfit2 := hfit
  simp only [fits, Bool.and_eq_true, decide_eq_true_eq] at hfit2
  have hbb := valid_bounds s l hv b hb
  have hw := hv.hi_lt
  have hble := hv.brk_le
  have hch : chain (set_free s.mem b false) s.head l :=
    chain_congr s.mem _ l _ (fun z _ => by
      rw [set_free_eq]; by_cases hz : z = b <;> simp [hz]) hv.chain
  have hti : tiles (set_free s.mem b false) s.lo l s.brk :=
    tiles_congr s.mem _ _ _ l (fun z _ => by
      rw [set_free_eq]; by_cases hz : z = b <;> simp [hz]) hv.tiles
  refine ⟨hch, List.Sublist.refl _, by omega, rfl, rfl, rfl, ?_, ?_, ?_, ?_, ?_, ?_⟩
  · intro x _ hxu
    have hxb : x ≠ b := fun e => by rw [e, hfit2.1] at hxu; exact absurd hxu (by simp)
    exact ⟨by simp [set_free_eq, hxb], by simp [set_free_eq, hxb, hxu]⟩
  · constructor
    · intro h; simp only [BLOCK_SIZE] at h; omega
    · rintro ⟨h, _⟩; rw [h b hb] at hfit; exact absurd hfit (by simp)
  · intro h; simp only [BLOCK_SIZE] at h; omega
  · intro _
    refine ⟨b, rfl, ?_, hb, ?_, ?_, fun _ => hfit2.1⟩
    · simp only [BLOCK_SIZE, WORD, HALF] at *; omega
    · simp [set_free_eq]
    · simp only [set_free_eq, if_true]; exact hfit2.2
  · intro _; exact ⟨rfl, by rw [hbf]⟩
  · intro _; exact ⟨hch, hti, hv.lo_pos, hv.brk_le, hv.hi_lt⟩

theorem malloc_post_split (s : Heap) (l : List Nat) (n b : Nat) (hv : Valid s l)
    (hb : b ∈ l) (hfit : fits s.mem n b = true) (hbf : b = first_fit s.mem n l)
    (hgt : n + BLOCK_SIZE < (s.mem b).size) :
    MallocPost s l n (b + BLOCK_SIZE)
      { s with mem := (store (store (set_free s.mem b false) (b + BLOCK_SIZE + n)
          ⟨(s.mem b).size - n - BLOCK_SIZE, true, (s.mem b).next⟩) b
          ⟨n, false, b + BLOCK_SIZE + n⟩) }
      (insert_after b (b + BLOCK_SIZE + n) l) := by
  have hfit2 := hfit
  simp only [fits, Bool.and_eq_true, decide_eq_true_eq] at hfit2
  have hbb := valid_bounds s l hv b hb
  have hw := hv.hi_lt
  have hble := hv.brk_le
  have hnd := chain_nodup _ _ _ hv.chain
  have hnb : b + BLOCK_SIZE + n ∉ l := by
    intro hm
    have hne : b + BLOCK_SIZE + n ≠ b := by simp only [BLOCK_SIZE]; omega
    have hxb := valid_bounds s l hv _ hm
    rcases tiles_sep s.mem s.lo s.brk l hv.tiles _ _ hm hb hne with h | h
    · simp only [BLOCK_SIZE] at h; omega
    · simp only [BLOCK_SIZE] at h hgt; omega
  have hnbb : b + BLOCK_SIZE + n ≠ b := by simp only [BLOCK_SIZE]; omega
  have hch1 : chain (set_free s.mem b false) s.head l :=
    chain_congr s.mem _ l _ (fun z _ => by
      rw [set_free_eq]; by_cases hz : z = b <;> simp [hz]) hv.chain
  have hti1 : tiles (set_free s.mem b false) s.lo l s.brk :=
    tiles_congr s.mem _ _ _ l (fun z _ => by
      rw [set_free_eq]; by_cases hz : z = b <;> simp [hz]) hv.tiles
  have hm1b : set_free s.mem b false b = ⟨(s.mem b).size, false, (s.mem b).next⟩ := by
    simp [set_free_eq]
  have hch : chain (store (store (set_free s.mem b false) (b + BLOCK_SIZE + n)
          ⟨(s.mem b).size - n - BLOCK_SIZE, true, (s.mem b).next⟩) b
          ⟨n, false, b + BLOCK_SIZE + n⟩) s.head (insert_after b (b + BLOCK_SIZE + n) l) := by
    refine chain_insert_after (set_free s.mem b false) _ b (b + BLOCK_SIZE + n) l hb hnb
      (by simp only [BLOCK_SIZE]; omega) (fun z h1 h2 => ?_) ?_ ?_ _ hch1
    · simp [store, h1, h2]
    · simp [store]
    · simp [store, hnbb, hm1b]
  have hti : tiles (store (store (set_free s.mem b false) (b + BLOCK_SIZE + n)
          ⟨(s.mem b).size - n - BLOCK_SIZE, true, (s.mem b).next⟩) b
          ⟨n, false, b + BLOCK_SIZE + n⟩) s.lo (insert_after b (b + BLOCK_SIZE + n) l) s.brk := by
    refine tiles_insert_after (set_free s.mem b false) _ b (b + BLOCK_SIZE + n) n l hnd hnb
      (fun z h1 h2 => ?_) ?_ rfl ?_ _ _ hti1
    · simp [store, h1, h2]
    · simp [store]
    · simp only [store, hnbb, if_false, if_true, hm1b]; omega
  refine ⟨hch, sublist_insert_after _ _ _, length_insert_after _ _ _, rfl, rfl, rfl,
    ?_, ?_, ?_, ?_, ?_, ?_⟩
  · intro x hx hxu
    have hxb : x ≠ b := fun e => by rw [e, hfit2.1] at hxu; exact absurd hxu (by simp)
    have hxnb : x ≠ b + BLOCK_SIZE + n := fun e => hnb (e ▸ hx)
    exact ⟨by simp [store, set_free_eq, hxb, hxnb], by simp [store, set_free_eq, hxb, hxnb, hxu]⟩
  · constructor
    · intro h; simp only [BLOCK_SIZE] at h; omega
    · rintro ⟨h, _⟩; rw [h b hb] at hfit; exact absurd hfit (by simp)
  · intro h; simp only [BLOCK_SIZE] at h; omega
  · intro _
    refine ⟨b, rfl, ?_, mem_insert_after _ _ _ _ hb, ?_, ?_, fun _ => hfit2.1⟩
    · simp only [BLOCK_SIZE, WORD, HALF] at *; omega
    · simp [store]
    · simp [store]
  · intro _; exact ⟨rfl, by rw [hbf]⟩
  · intro _; exact ⟨hch, hti, hv.lo_pos, hv.brk_le, hv.hi_lt⟩

theorem malloc_post_grow_empty (s : Heap) (n nbrk : Nat) (hv : Valid s [])
    (hs : sbrk s (add64 n BLOCK_SIZE) = some (s.brk, { s with brk := nbrk })) :
    MallocPost s [] n (s.brk + BLOCK_SIZE)
      { s with brk := nbrk, mem := store s.mem s.brk ⟨n, false, 0⟩, head := s.brk }
      [s.brk] := by
  have hw := hv.hi_lt
  have hble := hv.brk_le
  have hlo := hv.lo_pos
  have hlb := valid_lo_le_brk s [] hv
  have hb0 : s.brk ≠ 0 := by omega
  have hch : chain (store s.mem s.brk ⟨n, false, 0⟩) s.brk [s.brk] :=
    ⟨rfl, hb0, by simp [store, chain]⟩
  refine ⟨hch, List.nil_sublist _, by simp, rfl, rfl, rfl, ?_, ?_, ?_, ?_, ?_, ?_⟩
  · intro x hx; simp at hx
  · constructor
    · intro h; simp only [BLOCK_SIZE] at h; omega
    · rintro ⟨_, h⟩; rw [h] at hs; cases hs
  · intro h; simp only [BLOCK_SIZE] at h; omega
  · intro _
    refine ⟨s.brk, rfl, ?_, List.mem_singleton_self _, by simp [store], by simp [store], ?_⟩
    · simp only [BLOCK_SIZE, WORD, HALF] at *; omega
    · intro h; simp at h
  · rintro ⟨x, hx, _⟩; simp at hx
  · intro hn
    have hadd : add64 n BLOCK_SIZE = n + BLOCK_SIZE :=
      add64_eq _ _ (by simp only [BLOCK_SIZE, WORD, HALF] at *; omega)
    rw [hadd] at hs
    obtain ⟨h1, h2⟩ := sbrk_some_pos s _ hn _ hs
    simp only at h1 h2
    refine ⟨hch, ?_, hlo, h2, hw⟩
    have ht : s.lo = s.brk := hv.tiles
    show tiles_entries s.lo (view _ [s.brk]) nbrk
    simp only [view, List.map_cons, List.map_nil, tiles_entries, store, if_true]
    omega

theorem malloc_post_grow_append (s : Heap) (x : Nat) (xs : List Nat) (n nbrk : Nat)
    (hv : Valid s (x :: xs)) (hb : ∀ z ∈ x :: xs, fits s.mem n z = false)
    (hs : sbrk s (add64 n BLOCK_SIZE) = some (s.brk, { s with brk := nbrk })) :
    MallocPost s (x :: xs) n (s.brk + BLOCK_SIZE)
      { s with brk := nbrk,
               mem := set_next (store s.mem s.brk ⟨n, false, 0⟩)
                 ((x :: xs).getLast (List.cons_ne_nil _ _)) s.brk }
      (x :: xs ++ [s.brk]) := by
  have hw := hv.hi_lt
  have hble := hv.brk_le
  have hlo := hv.lo_pos
  have hlb := valid_lo_le_brk s _ hv
  have hb0 : s.brk ≠ 0 := by omega
  have hnm := valid_brk_not_mem s _ hv
  have hlast : (x :: xs).getLast (List.cons_ne_nil _ _) ≠ s.brk := by
    intro e
    exact hnm (e ▸ List.getLast_mem _)
  have hc1 : chain (store s.mem s.brk ⟨n, false, 0⟩) s.head (x :: xs) :=
    chain_congr s.mem _ _ _ (fun z hz => by
      rw [store_other _ _ _ _ (fun e => hnm (by rw [← e]; exact hz))]) hv.chain
  have hch := chain_append_last (store s.mem s.brk ⟨n, false, 0⟩) s.brk hb0 (by simp [store])
    xs s.head x hc1 hnm
  have hsz : ∀ z ∈ x :: xs, (set_next (store s.mem s.brk ⟨n, false, 0⟩)
      ((x :: xs).getLast (List.cons_ne_nil _ _)) s.brk z).size = (s.mem z).size ∧
      (set_next (store s.mem s.brk ⟨n, false, 0⟩)
      ((x :: xs).getLast (List.cons_ne_nil _ _)) s.brk z).free = (s.mem z).free := by
    intro z hz
    have hzb : z ≠ s.brk := fun e => hnm (by rw [← e]; exact hz)
    rw [set_next_eq]
    by_cases hzl : z = (x :: xs).getLast (List.cons_ne_nil _ _)
    · rw [if_pos hzl, ← hzl]
      simp [store, hzb]
    · rw [if_neg hzl]
      simp [store, hzb]
  have hnew : set_next (store s.mem s.brk ⟨n, false, 0⟩)
      ((x :: xs).getLast (List.cons_ne_nil _ _)) s.brk s.brk = ⟨n, false, 0⟩ := by
    rw [set_next_eq, if_neg (Ne.symm hlast)]
    simp [store]
  refine ⟨hch, List.sublist_append_left _ _, by simp, rfl, rfl, rfl, ?_, ?_, ?_, ?_, ?_, ?_⟩
  · intro z hz hzu
    exact ⟨(hsz z hz).1, by rw [(hsz z hz).2]; exact hzu⟩
  · constructor
    · intro h; simp only [BLOCK_SIZE] at h; omega
    · rintro ⟨_, h⟩; rw [h] at hs; cases hs
  · intro h; simp only [BLOCK_SIZE] at h; omega
  · intro _
    refine ⟨s.brk, rfl, ?_, by simp, by simp only [hnew], by simp only [hnew]; exact le_refl _, ?_⟩
    · simp only [BLOCK_SIZE, WORD, HALF] at *; omega
    · intro h; exact absurd h hnm
  · rintro ⟨z, hz, hfz⟩; rw [hb z hz] at hfz; exact absurd hfz (by simp)
  · intro hn
    have hadd : add64 n BLOCK_SIZE = n + BLOCK_SIZE :=
      add64_eq _ _ (by simp only [BLOCK_SIZE, WORD, HALF] at *; omega)
    rw [hadd] at hs
    obtain ⟨h1, h2⟩ := sbrk_some_pos s _ hn _ hs
    simp only at h1 h2
    refine ⟨hch, ?_, hlo, h2, hw⟩
    refine (tiles_append _ _ _ _ _).2 ⟨s.brk, ?_, ?_⟩
    · exact tiles_congr s.mem _ _ _ _ (fun z hz => (hsz z hz).1) hv.tiles
    · show tiles_entries s.brk (view _ [s.brk]) nbrk
      simp only [view, List.map_cons, List.map_nil, tiles_entries, hnew]
      exact ⟨trivial, by omega⟩

/-- The contract of `malloc` on a ledger state: the call returns, and the result and
the new state are related to the old state as `MallocPost` says. -/
theorem malloc_contract (s : Heap) (l : List Nat) (n fuel : Nat) (hv : Valid s l)
    (hn0 : n ≠ 0) (hf : l.length < fuel) :
    ∃ p s2 l2, malloc fuel s n = some (p, s2) ∧ MallocPost s l n p s2 l2 := by
  have hw := hv.hi_lt
  have hble := hv.brk_le
  have hlo := hv.lo_pos
  have hlb := valid_lo_le_brk s _ hv
  have hb0 : s.brk ≠ 0 := by omega
  by_cases hb : first_fit s.mem n l = 0
  · have hun := (first_fit_eq_zero s.mem n l (valid_ne_zero s l hv)).1 hb
    cases hs : sbrk s (add64 n BLOCK_SIZE) with
    | none =>
      exact ⟨0, s, l, malloc_fail s l n fuel hv.chain hn0 hf hb hs, malloc_post_fail s l n hv hun hs⟩
    | some r =>
      obtain ⟨h1, h2⟩ := sbrk_some s _ r hs
      have hr : r = (s.brk, { s with brk := r.2.brk }) := by
        rw [← h1, ← h2]
      rw [hr] at hs
      have hpay : payload s.brk = s.brk + BLOCK_SIZE :=
        payload_eq _ (by simp only [BLOCK_SIZE, WORD, HALF] at *; omega)
      cases l with
      | nil =>
        refine ⟨_, _, _, ?_, malloc_post_grow_empty s n r.2.brk hv hs⟩
        rw [← hpay]
        exact malloc_grow_empty s n fuel r.2.brk hv.chain hn0 (by omega) hb0 hs
      | cons x xs =>
        refine ⟨_, _, _, ?_, malloc_post_grow_append s x xs n r.2.brk hv hun hs⟩
        rw [← hpay]
        exact malloc_grow_append s x xs n fuel r.2.brk hv.chain hn0 hf hb0
          (valid_brk_not_mem s _ hv) hb hs
  · obtain ⟨hbl, hfit⟩ := first_fit_mem s.mem n l hb
    have hfit2 := hfit
    simp only [fits, Bool.and_eq_true, decide_eq_true_eq] at hfit2
    have hbb := valid_bounds s l hv _ hbl
    have hpay : payload (first_fit s.mem n l) = first_fit s.mem n l + BLOCK_SIZE :=
      payload_eq _ (by simp only [BLOCK_SIZE, WORD, HALF] at *; omega)
    have hadd : add64 n BLOCK_SIZE = n + BLOCK_SIZE :=
      add64_eq _ _ (by simp only [BLOCK_SIZE, WORD, HALF] at *; omega)
    have hfound := malloc_found s l n fuel hv.chain hn0 hf hb
    rw [hpay] at hfound
    have hm1 : (set_free s.mem (first_fit s.mem n l) false (first_fit s.mem n l)) =
        ⟨(s.mem (first_fit s.mem n l)).size, false, (s.mem (first_fit s.mem n l)).next⟩ := by
      simp [set_free_eq]
    by_cases hgt : n + BLOCK_SIZE < (s.mem (first_fit s.mem n l)).size
    · refine ⟨_, _, _, ?_, malloc_post_split s l n _ hv hbl hfit rfl hgt⟩
      rw [hfound]
      have hsa : split_addr (first_fit s.mem n l) n = first_fit s.mem n l + BLOCK_SIZE + n := by
        simp only [split_addr]
        rw [add64_eq _ BLOCK_SIZE (by simp only [BLOCK_SIZE, WORD, HALF] at *; omega)]
        exact add64_eq _ _ (by simp only [BLOCK_SIZE, WORD, HALF] at *; omega)
      rw [split_block_of_gt _ _ _ (by rw [hm1, hadd]; exact hgt)
        (by rw [hsa]; simp only [BLOCK_SIZE]; omega)]
      rw [hm1, hsa]
      simp only
      rw [sub64_eq _ n (by omega) (by simp only [BLOCK_SIZE, WORD, HALF] at *; omega)]
      rw [sub64_eq _ BLOCK_SIZE (by omega) (by simp only [BLOCK_SIZE, WORD, HALF] at *; omega)]
    · refine ⟨_, _, _, ?_, malloc_post_nosplit s l n _ hv hbl hfit rfl⟩
      rw [hfound]
      rw [split_block_of_le _ _ _ (by rw [hm1, hadd]; simp only; omega)]

/-! ## What free establishes -/

theorem merge_blocks_nil (mem : Nat → block_t) (fuel : Nat) (hf : 0 < fuel) :
    merge_blocks fuel mem 0 = some mem := by
  cases fuel with
  | zero => simp at hf
  | succ f => simp [merge_blocks]

/-- The contract of `free` on a block of the ledger: the call returns, and the new
ledger is the coalescing of the old one with the block marked free. -/
theorem free_contract (s : Heap) (l : List Nat) (p fuel : Nat)
    (hc : chain s.mem s.head l) (hp : p ≠ 0) (hb : header p ∈ l) (hf : l.length < fuel) :
    ∃ s3 l3, free fuel s p = some s3 ∧ FreePost s l (header p) s3 l3 := by
  cases l with
  | nil => simp at hb
  | cons x r =>
    have hhead : s.head = x := hc.1
    have hc1 : chain (set_free s.mem (header p) true) x (x :: r) := by
      have := chain_congr s.mem (set_free s.mem (header p) true) _ _ (fun z _ => by
        rw [set_free_eq]; by_cases hz : z = header p <;> simp [hz]) hc
      exact ⟨rfl, this.2.1, this.2.2⟩
    obtain ⟨mem2, l2, h1, h2, h3, h4, h5, h6⟩ :=
      merge_blocks_spec r (set_free s.mem (header p) true) x fuel hc1 (by simp at hf; omega)
    have hm1o : ∀ z, z ≠ header p → set_free s.mem (header p) true z = s.mem z :=
      fun z hz => by simp [set_free_eq, hz]
    refine ⟨{ s with mem := mem2 }, l2, ?_, ?_⟩
    · simp only [free, hp, if_false, hhead, h1]
    · refine ⟨by rw [← hhead] at h2; exact h2, h3, h4, ?_, ?_, ?_, ?_, rfl, rfl, rfl, rfl, rfl, ?_⟩
      · intro z hz hz2
        show mem2 z = s.mem z
        rw [h5 z (hz2.imp id (fun h => by rw [hm1o z hz]; exact h)), hm1o z hz]
      · intro z hz
        show (mem2 z).free = (s.mem z).free
        rw [h6 z, hm1o z hz]
      · show (mem2 (header p)).free = true
        rw [h6]; simp [set_free_eq]
      · intro y hy hyb hyu
        have hmem : (⟨y, (set_free s.mem (header p) true y).size,
            (set_free s.mem (header p) true y).free⟩ : entry) ∈
            view (set_free s.mem (header p) true) (x :: r) := mem_view _ _ y hy
        have hfree : (set_free s.mem (header p) true y).free = false := by
          rw [hm1o y hyb]; exact hyu
        have : _ ∈ coalesce_from ⟨x, (set_free s.mem (header p) true x).size,
            (set_free s.mem (header p) true x).free⟩ (view (set_free s.mem (header p) true) r) :=
          coalesce_from_used _ _ _ hmem hfree
        rw [← h3] at this
        exact (of_mem_view _ _ _ this).1
      · intro hv
        have ht1 : tiles (set_free s.mem (header p) true) s.lo (x :: r) s.brk :=
          tiles_congr s.mem _ _ _ _ (fun z _ => by
            rw [set_free_eq]; by_cases hz : z = header p <;> simp [hz]) hv.tiles
        have hw := hv.hi_lt
        have hble := hv.brk_le
        refine ⟨by rw [← hhead] at h2; exact h2, ?_, hv.lo_pos, hv.brk_le, hv.hi_lt⟩
        show tiles_entries s.lo (view mem2 l2) s.brk
        rw [h3]
        exact coalesce_from_tiles _ _ _ _ ht1 (by simp only [WORD, HALF] at *; omega)

theorem adjacent_free_cons (mem : Nat → block_t) (x y : Nat) (r : List Nat)
    (h : adjacent_free mem (x :: y :: r) = false) :
    ((mem x).free && (mem y).free) = false ∧ adjacent_free mem (y :: r) = false := by
  simp only [adjacent_free, Bool.or_eq_false_iff] at h
  exact h

/-- Nothing to merge: `merge_blocks` leaves the store as it is. -/
theorem merge_blocks_noop (mem : Nat → block_t) (l : List Nat) :
    ∀ fuel a, chain mem a l → adjacent_free mem l = false → l.length < fuel →
      merge_blocks fuel mem a = some mem := by
  induction l with
  | nil =>
    intro fuel a h _ hf
    have ha : a = 0 := h
    rw [ha]
    exact merge_blocks_nil mem fuel hf
  | cons x r ih =>
    intro fuel a h hadj hf
    obtain ⟨rfl, hx, hr⟩ := h
    cases fuel with
    | zero => simp at hf
    | succ f =>
      cases r with
      | nil =>
        have hn : (mem a).next = 0 := hr
        simp [merge_blocks, hn]
      | cons y r2 =>
        obtain ⟨h1, h2⟩ := adjacent_free_cons mem a y r2 hadj
        have hy : (mem a).next = y := hr.1
        simp only [merge_blocks]
        rw [if_pos ⟨hx, by rw [hy]; exact hr.2.1⟩, hy, if_neg (by rw [h1]; simp)]
        refine ih f y ?_ h2 (by simp at hf ⊢; omega)
        rw [hy] at hr; exact hr

/-- The scan of `merge_blocks` walks over used blocks without writing. -/
theorem merge_blocks_skip (mem : Nat → block_t) (pre : List Nat) :
    ∀ fuel a x r, chain mem a (pre ++ x :: r) → (∀ z ∈ pre, (mem z).free = false) →
      merge_blocks (fuel + pre.length) mem a = merge_blocks fuel mem x := by
  induction pre with
  | nil =>
    intro fuel a x r h _
    have : a = x := h.1
    rw [this]; rfl
  | cons y ys ih =>
    intro fuel a x r h hu
    obtain ⟨rfl, hy0, hr⟩ := h
    have hne : (ys ++ x :: r) ≠ [] := by simp
    have hr2 : chain mem (mem a).next (ys ++ x :: r) := hr
    have hnext0 : (mem a).next ≠ 0 := by
      cases hys : ys ++ x :: r with
      | nil => exact absurd hys hne
      | cons w ws => rw [hys] at hr2; rw [hr2.1]; exact hr2.2.1
    have hfa : (mem a).free = false := hu a (List.mem_cons_self _ _)
    have : fuel + (a :: ys).length = (fuel + ys.length) + 1 := by simp; omega
    rw [this]
    simp only [merge_blocks]
    rw [if_pos ⟨hy0, hnext0⟩, if_neg (by rw [hfa]; simp)]
    exact ih fuel _ x r hr2 (fun z hz => hu z (List.mem_cons_of_mem _ hz))

/-- One merging step of `merge_blocks` at a free block with a free successor. -/
theorem merge_blocks_step (mem : Nat → block_t) (fuel x y : Nat) (hx : x ≠ 0) (hy0 : y ≠ 0)
    (hxy : x ≠ y) (hy : (mem x).next = y) (hfx : (mem x).free = true)
    (hfy : (mem y).free = true) :
    merge_blocks (fuel + 1) mem x = merge_blocks fuel
      (store mem x ⟨add64 (mem x).size (add64 BLOCK_SIZE (mem y).size), true, (mem y).next⟩)
      x := by
  have hm2 : (set_next (set_size mem x (add64 (mem x).size (add64 BLOCK_SIZE (mem y).size))) x
      ((set_size mem x (add64 (mem x).size (add64 BLOCK_SIZE (mem y).size)))
        ((set_size mem x (add64 (mem x).size (add64 BLOCK_SIZE (mem y).size))) x).next).next) =
      store mem x ⟨add64 (mem x).size (add64 BLOCK_SIZE (mem y).size), true, (mem y).next⟩ := by
    funext z
    simp only [set_next_eq, set_size_eq, if_true, hy, if_neg (Ne.symm hxy), store, hfx]
    by_cases hz : z = x <;> simp [hz]
  rw [← hm2]
  simp only [merge_blocks]
  rw [if_pos ⟨hx, by rw [hy]; exact hy0⟩, hy, if_pos (by rw [hfx, hfy]; rfl)]

/-! ## Claims on malloc and realloc -/

theorem valid_demo : Valid demo [4096, 4220] :=
  ⟨by decide, by decide, by decide, by decide, by decide⟩

theorem valid_demo_used : Valid demo_used [4096, 4136, 4192] :=
  ⟨by decide, by decide, by decide, by decide, by decide⟩

theorem fits_eq_false_iff (mem : Nat → block_t) (n x : Nat) :
    fits mem n x = false ↔ ((mem x).free = true → (mem x).size < n) := by
  simp only [fits, Bool.and_eq_false_iff, decide_eq_false_iff_not, not_le]
  cases (mem x).free <;> simp

theorem header_add (b : Nat) (h : b + BLOCK_SIZE < WORD) : header (b + BLOCK_SIZE) = b := by
  rw [← payload_eq b h]; exact header_payload b h

/-- C2, amended.  On every state that keeps the ledger invariants (`Valid`: the list
from the head ends, its blocks lie back to back from the heap start to the break, and
the break is below `2^63`), a call `malloc(n)` with `n > 0` returns, and when the
result `p` is not `NULL` the ledger then contains a block `b` whose header starts
`BLOCK_SIZE` bytes before `p`; that block is used and its size is at least `n`. -/
theorem malloc_grants_block (s : Heap) (l : List Nat) (n fuel : Nat) (hv : Valid s l)
    (hn : 0 < n) (hf : l.length < fuel) :
    ∃ p s2, malloc fuel s n = some (p, s2) ∧
      (p ≠ 0 → ∃ l2 b, chain s2.mem s2.head l2 ∧ b ∈ l2 ∧ b + BLOCK_SIZE = p ∧
        header p = b ∧ (s2.mem b).free = false ∧ n ≤ (s2.mem b).size) := by
  obtain ⟨p, s2, l2, hm, hpost⟩ := malloc_contract s l n fuel hv (by omega) hf
  refine ⟨p, s2, hm, fun hp => ?_⟩
  obtain ⟨b, h1, h2, h3, h4, h5, _⟩ := hpost.block hp
  refine ⟨l2, b, hpost.chain, h3, h1.symm, ?_, h4, h5⟩
  rw [h1]
  exact header_add b (by omega)

/-- Instance of C2 on the state `demo`: the request of 10 bytes. -/
theorem malloc_grants_block_witness :
    ∃ p s2, malloc 3 demo 10 = some (p, s2) ∧
      (p ≠ 0 → ∃ l2 b, chain s2.mem s2.head l2 ∧ b ∈ l2 ∧ b + BLOCK_SIZE = p ∧
        header p = b ∧ (s2.mem b).free = false ∧ 10 ≤ (s2.mem b).size) :=
  malloc_grants_block demo [4096, 4220] 10 3
    ⟨by decide, by decide, by decide, by decide, by decide⟩ (by decide) (by decide)

/-- C3, amended.  On every state that keeps the ledger invariants (`Valid`: the list
from the head ends, its blocks lie back to back from the heap start to the break, and
the break is below `2^63`), `malloc(n)` returns, and the result is `NULL` exactly
when `n = 0`, or no block of the ledger is free with a size of at least `n` and
`sbrk` refuses the request of `n + BLOCK_SIZE` bytes; every other result is the
payload pointer of a block of the ledger. -/
theorem malloc_null_iff (s : Heap) (l : List Nat) (n fuel : Nat) (hv : Valid s l)
    (hf : l.length < fuel) :
    ∃ p s2, malloc fuel s n = some (p, s2) ∧
      (p = 0 ↔ (n = 0 ∨ ((∀ x ∈ l, (s.mem x).free = true → (s.mem x).size < n) ∧
        sbrk s (add64 n BLOCK_SIZE) = none))) ∧
      (p ≠ 0 → ∃ l2, chain s2.mem s2.head l2 ∧ header p ∈ l2 ∧ p = payload (header p)) := by
  by_cases hn : n = 0
  · refine ⟨0, s, by simp [malloc, hn], by simp [hn], fun h => absurd rfl h⟩
  · obtain ⟨p, s2, l2, hm, hpost⟩ := malloc_contract s l n fuel hv hn hf
    refine ⟨p, s2, hm, ?_, fun hp => ?_⟩
    · rw [hpost.null_iff]
      simp only [hn, false_or, fits_eq_false_iff]
    · obtain ⟨b, h1, h2, h3, _⟩ := hpost.block hp
      have hh : header p = b := by rw [h1]; exact header_add b (by omega)
      refine ⟨l2, hpost.chain, by rw [hh]; exact h3, ?_⟩
      rw [hh, payload_eq b (by omega)]
      exact h1

/-- Instance of C3 on the state `demo`: a request of 60 bytes, which no free block
holds and which the break limit allows. -/
theorem malloc_null_iff_witness :
    ∃ p s2, malloc 3 demo 60 = some (p, s2) ∧
      (p = 0 ↔ (60 = 0 ∨ ((∀ x ∈ [4096, 4220], (demo.mem x).free = true →
        (demo.mem x).size < 60) ∧ sbrk demo (add64 60 BLOCK_SIZE) = none))) ∧
      (p ≠ 0 → ∃ l2, chain s2.mem s2.head l2 ∧ header p ∈ l2 ∧ p = payload (header p)) :=
  malloc_null_iff demo [4096, 4220] 60 3
    ⟨by decide, by decide, by decide, by decide, by decide⟩ (by decide)

/-- C4. In every state, with any fuel, `malloc(0)` returns `NULL` and the state it
returns is the state it was given: no block is created or changed and the break
is where it was. -/
theorem malloc_zero (s : Heap) (fuel : Nat) : malloc fuel s 0 = some (0, s) := by
  simp [malloc]

/-- C7. For a pointer `p` other than `NULL` whose block holds at least `m` bytes,
`realloc(p, m)` returns `p` and the state it was given: ledger and payload bytes
are unchanged. -/
theorem realloc_shrink (s : Heap) (fuel p m : Nat) (hp : p ≠ 0)
    (hm : m ≤ (s.mem (header p)).size) : realloc fuel s p m = some (p, s) := by
  simp [realloc, hp, hm]

/-- Instance of C7 on the state `demo`: the block of 100 bytes resized to 40. -/
theorem realloc_shrink_witness : realloc 0 demo 4120 40 = some (4120, demo) :=
  realloc_shrink demo 0 4120 40 (by decide) (by decide)

/-- C9. When the block of `p` holds fewer than `m` bytes, no free block of the ledger
holds `m` bytes and `sbrk` refuses the request, `realloc(p, m)` returns `NULL` and
the state it was given: ledger and payload bytes are unchanged. -/
theorem realloc_fail_atomic (s : Heap) (l : List Nat) (fuel p m : Nat)
    (hc : chain s.mem s.head l) (hf : l.length < fuel) (hp : p ≠ 0)
    (hm : (s.mem (header p)).size < m)
    (hnofit : ∀ x ∈ l, (s.mem x).free = true → (s.mem x).size < m)
    (hs : sbrk s (add64 m BLOCK_SIZE) = none) :
    realloc fuel s p m = some (0, s) := by
  have hm0 : m ≠ 0 := by omega
  have hb : first_fit s.mem m l = 0 :=
    (first_fit_eq_zero s.mem m l (chain_ne_zero _ _ _ hc)).2
      (fun x hx => (fits_eq_false_iff _ _ _).2 (hnofit x hx))
  have := malloc_fail s l m fuel hc hm0 hf hb hs
  simp only [realloc, hp, if_false, not_le.2 hm, this, if_true]

/-- Instance of C9 on the state `demo`: the block of 100 bytes resized to 200, which
the break limit does not allow. -/
theorem realloc_fail_atomic_witness : realloc 3 demo 4120 200 = some (0, demo) :=
  realloc_fail_atomic demo [4096, 4220] 3 4120 200 (by decide) (by decide) (by decide)
    (by decide) (by decide) rfl

/-! ## Claims on calloc and on reuse -/

theorem first_fit_unique (mem : Nat → block_t) (n b : Nat) (l : List Nat) (hb : b ∈ l)
    (hfit : fits mem n b = true) (ho : ∀ x ∈ l, x ≠ b → fits mem n x = false) :
    first_fit mem n l = b := by
  induction l with
  | nil => simp at hb
  | cons x xs ih =>
    by_cases hx : x = b
    · simp [first_fit, hx, hfit]
    · have := ho x (List.mem_cons_self _ _) hx
      simp only [first_fit, this, Bool.false_eq_true, if_false]
      rcases List.mem_cons.1 hb with e | hb2
      · exact absurd e.symm hx
      · exact ih hb2 (fun y hy => ho y (List.mem_cons_of_mem _ hy))

theorem adjacent_free_of_single (mem : Nat → block_t) (b : Nat) (l : List Nat)
    (ho : ∀ x ∈ l, x ≠ b → (mem x).free = false) (hnd : l.Nodup) :
    adjacent_free mem l = false := by
  induction l with
  | nil => rfl
  | cons x xs ih =>
    cases xs with
    | nil => rfl
    | cons y ys =>
      have hxy : x ≠ y := by
        intro e; rw [e] at hnd; simp at hnd
      have ih2 := ih (fun z hz => ho z (List.mem_cons_of_mem _ hz)) (List.nodup_cons.1 hnd).2
      simp only [adjacent_free, ih2, Bool.or_false]
      by_cases hx : x = b
      · have := ho y (List.mem_cons_of_mem _ (List.mem_cons_self _ _)) (fun e => hxy (hx.trans e.symm))
        simp [this]
      · have := ho x (List.mem_cons_self _ _) hx
        simp [this]

/-- Release of a block in a ledger whose other blocks are all used: only the free
flag of the block changes. -/
theorem free_single (s : Heap) (l : List Nat) (b fuel : Nat) (hv : Valid s l) (hb : b ∈ l)
    (ho : ∀ x ∈ l, x ≠ b → (s.mem x).free = false) (hf : l.length < fuel) :
    free fuel s (b + BLOCK_SIZE) = some { s with mem := set_free s.mem b true } := by
  have hbb := valid_bounds s l hv b hb
  have hw := hv.hi_lt
  have hble := hv.brk_le
  have hh : header (b + BLOCK_SIZE) = b :=
    header_add b (by simp only [BLOCK_SIZE, WORD, HALF] at *; omega)
  have hc1 : chain (set_free s.mem b true) s.head l :=
    chain_congr s.mem _ _ _ (fun z _ => by
      rw [set_free_eq]; by_cases hz : z = b <;> simp [hz]) hv.chain
  have hadj : adjacent_free (set_free s.mem b true) l = false :=
    adjacent_free_of_single _ b l (fun x hx hxb => by
      simp only [set_free_eq, if_neg hxb]; exact ho x hx hxb) (chain_nodup _ _ _ hv.chain)
  have hp : b + BLOCK_SIZE ≠ 0 := by simp only [BLOCK_SIZE]; omega
  simp only [free, hp, if_false, hh, merge_blocks_noop _ l fuel s.head hc1 hadj hf]

/-! ## Reuse and coalescing -/

/-- Release of a block in a list whose other blocks are all used: only the free flag
of the block changes. -/
theorem free_single_chain (s : Heap) (l : List Nat) (p fuel : Nat)
    (hc : chain s.mem s.head l) (hp : p ≠ 0)
    (ho : ∀ x ∈ l, x ≠ header p → (s.mem x).free = false) (hf : l.length < fuel) :
    free fuel s p = some { s with mem := set_free s.mem (header p) true } := by
  have hc1 : chain (set_free s.mem (header p) true) s.head l :=
    chain_congr s.mem _ _ _ (fun z _ => by
      rw [set_free_eq]; by_cases hz : z = header p <;> simp [hz]) hc
  have hadj : adjacent_free (set_free s.mem (header p) true) l = false :=
    adjacent_free_of_single _ (header p) l (fun x hx hxb => by
      simp only [set_free_eq, if_neg hxb]; exact ho x hx hxb) (chain_nodup _ _ _ hc)
  simp only [free, hp, if_false, merge_blocks_noop _ l fuel s.head hc1 hadj hf]

/-- C5, amended.  In every state whose block list from the head ends (it reaches
`NULL`, so no block is linked back into the list) with all blocks used, for every
live pointer `p` (the payload pointer of a block of the list) and every `n` with
`0 < n` at most the size of that block: `free(p)` followed by `malloc(n)` returns
`p` again, and the state after the two calls differs from the one between them in
the header store only, so `sbrk` was not called and the break has not moved. -/
theorem free_then_malloc_reuses (s : Heap) (l : List Nat) (p n fuel : Nat)
    (hc : chain s.mem s.head l) (hall : ∀ x ∈ l, (s.mem x).free = false) (hp : p ≠ 0)
    (hb : header p ∈ l) (hpp : payload (header p) = p) (hn : 0 < n)
    (hle : n ≤ (s.mem (header p)).size) (hf : l.length < fuel) :
    ∃ s1 s2, free fuel s p = some s1 ∧ malloc fuel s1 n = some (p, s2) ∧
      s2 = { s1 with mem := s2.mem } ∧ s1.brk = s.brk ∧ s2.brk = s.brk := by
  have hfree := free_single_chain s l p fuel hc hp (fun x hx _ => hall x hx) hf
  have hc1 : chain (set_free s.mem (header p) true) s.head l :=
    chain_congr s.mem _ _ _ (fun z _ => by
      rw [set_free_eq]; by_cases hz : z = header p <;> simp [hz]) hc
  have hfit : fits (set_free s.mem (header p) true) n (header p) = true := by
    simp [fits, set_free_eq, hle]
  have hff : first_fit (set_free s.mem (header p) true) n l = header p :=
    first_fit_unique _ n (header p) l hb hfit (fun x hx hxb => by
      simp [fits, set_free_eq, hxb, hall x hx])
  have hb0 : header p ≠ 0 := chain_ne_zero _ _ _ hc _ hb
  have hm := malloc_found { s with mem := set_free s.mem (header p) true } l n fuel hc1
    (by omega) hf (by rw [hff]; exact hb0)
  simp only [hff] at hm
  rw [hpp] at hm
  revert hfree hm
  generalize header p = b
  intro hfree hm
  exact ⟨_, _, hfree, hm, rfl, rfl, rfl⟩

/-- Instance of C5 on the state `demo_used`: the block of 32 bytes at 4136, payload
pointer 4160, is released and 20 bytes are requested. -/
theorem free_then_malloc_reuses_witness :
    ∃ s1 s2, free 4 demo_used 4160 = some s1 ∧ malloc 4 s1 20 = some (4160, s2) ∧
      s2 = { s1 with mem := s2.mem } ∧ s1.brk = demo_used.brk ∧ s2.brk = demo_used.brk :=
  free_then_malloc_reuses demo_used [4096, 4136, 4192] 4160 20 4 (by decide)
    (by decide) (by decide) (by decide) (by decide) (by decide) (by decide) (by decide)

theorem chain_drop (mem : Nat → block_t) (pre : List Nat) :
    ∀ a x r, chain mem a (pre ++ x :: r) → x ≠ 0 ∧ chain mem (mem x).next r := by
  induction pre with
  | nil => intro a x r h; exact ⟨h.2.1, h.2.2⟩
  | cons y ys ih =>
    intro a x r h
    have h2 : chain mem (mem y).next (ys ++ x :: r) := h.2.2
    exact ih _ x r h2

theorem chain_splice (mem mem2 : Nat → block_t) (pre : List Nat) :
    ∀ a x r r2, chain mem a (pre ++ x :: r) → (∀ z ∈ pre, mem2 z = mem z) →
      chain mem2 (mem2 x).next r2 → chain mem2 a (pre ++ x :: r2) := by
  induction pre with
  | nil =>
    intro a x r r2 h _ h2
    exact ⟨h.1, h.2.1, h2⟩
  | cons y ys ih =>
    intro a x r r2 h ho h2
    have h3 : chain mem (mem y).next (ys ++ x :: r) := h.2.2
    refine ⟨h.1, h.2.1, ?_⟩
    rw [ho y (List.mem_cons_self _ _)]
    exact ih _ x r r2 h3 (fun z hz => ho z (List.mem_cons_of_mem _ hz)) h2

/-- Coalescing of a ledger in which exactly two neighbours `A`, `B` are free. -/
theorem merge_blocks_pair (mem : Nat → block_t) (pre post : List Nat) (A B a fuel : Nat)
    (hc : chain mem a (pre ++ A :: B :: post))
    (hpre : ∀ z ∈ pre, (mem z).free = false) (hpost : ∀ z ∈ post, (mem z).free = false)
    (hA : (mem A).free = true) (hB : (mem B).free = true)
    (hf : (pre ++ A :: B :: post).length < fuel) :
    merge_blocks fuel mem a = some (store mem A
      ⟨add64 (mem A).size (add64 BLOCK_SIZE (mem B).size), true, (mem B).next⟩) := by
  have hnd := chain_nodup _ _ _ hc
  have hnd2 : (A :: B :: post).Nodup := (List.nodup_append.1 hnd).2.1
  have hAB : A ≠ B := by intro e; rw [e] at hnd2; simp at hnd2
  have hApost : A ∉ post := fun hm =>
    (List.nodup_cons.1 hnd2).1 (List.mem_cons_of_mem _ hm)
  obtain ⟨hA0, hcA⟩ := chain_drop mem pre a A (B :: post) hc
  have hlen : (pre ++ A :: B :: post).length = pre.length + post.length + 2 := by
    simp; omega
  obtain ⟨f, hfe⟩ : ∃ f, fuel = (f + 1) + pre.length := ⟨fuel - pre.length - 1, by omega⟩
  rw [hfe, merge_blocks_skip mem pre (f + 1) a A (B :: post) hc hpre]
  rw [merge_blocks_step mem f A B hA0 hcA.2.1 hAB hcA.1 hA hB]
  have hc3 : chain (store mem A
      ⟨add64 (mem A).size (add64 BLOCK_SIZE (mem B).size), true, (mem B).next⟩) A
      (A :: post) := by
    refine ⟨rfl, hA0, ?_⟩
    rw [store_same]
    refine chain_congr mem _ post _ (fun z hz => ?_) hcA.2.2
    rw [store_other _ _ _ _ (fun e => hApost (by rw [← e]; exact hz))]
  refine merge_blocks_noop _ (A :: post) f A hc3 ?_ (by simp; omega)
  refine adjacent_free_of_single _ A _ (fun z hz hzA => ?_) (List.nodup_cons.2
    ⟨hApost, (List.nodup_cons.1 (List.nodup_cons.1 hnd2).2).2⟩)
  rw [store_other _ _ _ _ hzA]
  rcases List.mem_cons.1 hz with e | hz2
  · exact absurd e hzA
  · exact hpost z hz2

theorem nodup_pair_facts (pre post : List Nat) (A B : Nat)
    (hnd : (pre ++ A :: B :: post).Nodup) :
    A ≠ B ∧ A ∉ pre ∧ B ∉ pre ∧ A ∉ post ∧ B ∉ post ∧ (pre ++ A :: post).Nodup := by
  have h1 := List.nodup_append.1 hnd
  have h2 := List.nodup_cons.1 h1.2.1
  have h3 := List.nodup_cons.1 h2.2
  have hd := h1.2.2
  refine ⟨?_, ?_, ?_, ?_, h3.1, ?_⟩
  · intro e; exact h2.1 (e ▸ List.mem_cons_self _ _)
  · intro hm; exact hd hm (List.mem_cons_self _ _)
  · intro hm; exact hd hm (List.mem_cons_of_mem _ (List.mem_cons_self _ _))
  · intro hm; exact h2.1 (List.mem_cons_of_mem _ hm)
  · refine List.nodup_append.2 ⟨h1.1, List.nodup_cons.2 ⟨fun hm => h2.1 (List.mem_cons_of_mem _ hm), h3.2⟩, ?_⟩
    intro z hz1 hz2
    refine hd hz1 ?_
    rcases List.mem_cons.1 hz2 with e | hz3
    · rw [e]; exact List.mem_cons_self _ _
    · exact List.mem_cons_of_mem _ (List.mem_cons_of_mem _ hz3)

/-- Second release of a pair of neighbours `A`, `B` in a ledger whose other blocks
are used: from the store with both marked free, `free` merges `B` into `A`. -/
theorem free_pair (s : Heap) (pre post : List Nat) (A B c fuel : Nat) (m1 : Nat → block_t)
    (hv : Valid s (pre ++ A :: B :: post))
    (hall : ∀ x ∈ pre ++ A :: B :: post, (s.mem x).free = false)
    (hc : c = A ∨ c = B)
    (hm1 : set_free m1 c true = set_free (set_free s.mem A true) B true)
    (hf : (pre ++ A :: B :: post).length < fuel) :
    free fuel { s with mem := m1 } (c + BLOCK_SIZE) =
      some { s with mem := (store (set_free (set_free s.mem A true) B true) A
        ⟨(s.mem A).size + BLOCK_SIZE + (s.mem B).size, true, (s.mem B).next⟩) } := by
  have hA : A ∈ pre ++ A :: B :: post := by simp
  have hB : B ∈ pre ++ A :: B :: post := by simp
  have hbA := valid_bounds s _ hv A hA
  have hbB := valid_bounds s _ hv B hB
  have hw := hv.hi_lt
  have hble := hv.brk_le
  have hnd := chain_nodup _ _ _ hv.chain
  obtain ⟨hAB, hApre, hBpre, hApost, hBpost, _⟩ := nodup_pair_facts pre post A B hnd
  have hcb : c + BLOCK_SIZE < WORD := by
    rcases hc with e | e <;> rw [e] <;> simp only [BLOCK_SIZE, WORD, HALF] at * <;> omega
  have hh : header (c + BLOCK_SIZE) = c := header_add c hcb
  have hp : c + BLOCK_SIZE ≠ 0 := by simp only [BLOCK_SIZE]; omega
  have hm2A : set_free (set_free s.mem A true) B true A = ⟨(s.mem A).size, true, (s.mem A).next⟩ := by
    simp [set_free_eq, hAB]
  have hm2B : set_free (set_free s.mem A true) B true B = ⟨(s.mem B).size, true, (s.mem B).next⟩ := by
    simp [set_free_eq, Ne.symm hAB]
  have hm2o : ∀ z, z ≠ A → z ≠ B → set_free (set_free s.mem A true) B true z = s.mem z := by
    intro z h1 h2; simp [set_free_eq, h1, h2]
  have hc2 : chain (set_free (set_free s.mem A true) B true) s.head (pre ++ A :: B :: post) :=
    chain_congr s.mem _ _ _ (fun z _ => by
      by_cases h2 : z = A
      · rw [h2, hm2A]
      · by_cases h1 : z = B
        · rw [h1, hm2B]
        · rw [hm2o z h2 h1]) hv.chain
  have hmerge := merge_blocks_pair _ pre post A B s.head fuel hc2
    (fun z hz => by
      rw [hm2o z (fun e => hApre (e ▸ hz)) (fun e => hBpre (e ▸ hz))]
      exact hall z (List.mem_append_left _ hz))
    (fun z hz => by
      rw [hm2o z (fun e => hApost (e ▸ hz)) (fun e => hBpost (e ▸ hz))]
      exact hall z (List.mem_append_right _ (List.mem_cons_of_mem _ (List.mem_cons_of_mem _ hz))))
    (by rw [hm2A]) (by rw [hm2B]) hf
  obtain ⟨m, ht1, ht2⟩ := (tiles_append s.mem _ _ pre (A :: B :: post)).1 hv.tiles
  have hadj : B = A + BLOCK_SIZE + (s.mem A).size := ht2.2.1
  have hsz : add64 (s.mem A).size (add64 BLOCK_SIZE (s.mem B).size) =
      (s.mem A).size + BLOCK_SIZE + (s.mem B).size := by
    simp only [add64, BLOCK_SIZE, WORD, HALF] at *
    omega
  rw [hm2A, hm2B] at hmerge
  simp only [hsz] at hmerge
  simp only [free, hp, if_false, hh, hm1, hmerge]

/-- C6, amended.  In every state that keeps the ledger invariants (`Valid`: the list
from the head ends, its blocks lie back to back from the heap start to the break, and
the break is below `2^63`) and whose blocks are all used, for list neighbours `A`
(size `a`) and `B` (size `b`): releasing `A` then `B`, and releasing `B` then `A`,
both return and end in the same state `sf`.  In it the ledger is the old one
without `B`, the record of `A` is free with size `a + BLOCK_SIZE + b` and has the
old successor of `B` as successor, and every other block of the ledger has its old
record.  A following `malloc(n)` with `0 < n ≤ a + BLOCK_SIZE + b` returns the
payload pointer of `A` and changes the header store only, so the break stays. -/
theorem coalesce_either_order (s : Heap) (pre post : List Nat) (A B n fuel : Nat)
    (hv : Valid s (pre ++ A :: B :: post))
    (hall : ∀ x ∈ pre ++ A :: B :: post, (s.mem x).free = false)
    (hn : 0 < n) (hle : n ≤ (s.mem A).size + BLOCK_SIZE + (s.mem B).size)
    (hf : (pre ++ A :: B :: post).length < fuel) :
    ∃ sA sB sf s3,
      free fuel s (A + BLOCK_SIZE) = some sA ∧ free fuel sA (B + BLOCK_SIZE) = some sf ∧
      free fuel s (B + BLOCK_SIZE) = some sB ∧ free fuel sB (A + BLOCK_SIZE) = some sf ∧
      chain sf.mem sf.head (pre ++ A :: post) ∧ B ∉ pre ++ A :: post ∧
      sf.mem A = ⟨(s.mem A).size + BLOCK_SIZE + (s.mem B).size, true, (s.mem B).next⟩ ∧
      (∀ x ∈ pre ++ post, sf.mem x = s.mem x) ∧ sf.brk = s.brk ∧
      malloc fuel sf n = some (A + BLOCK_SIZE, s3) ∧ s3 = { sf with mem := s3.mem } := by
  have hA : A ∈ pre ++ A :: B :: post := by simp
  have hB : B ∈ pre ++ A :: B :: post := by simp
  have hbA := valid_bounds s _ hv A hA
  have hw := hv.hi_lt
  have hble := hv.brk_le
  have hnd := chain_nodup _ _ _ hv.chain
  obtain ⟨hAB, hApre, hBpre, hApost, hBpost, hnd2⟩ := nodup_pair_facts pre post A B hnd
  have hfA := free_single s _ A fuel hv hA (fun x hx _ => hall x hx) hf
  have hfB := free_single s _ B fuel hv hB (fun x hx _ => hall x hx) hf
  have hfAB := free_pair s pre post A B B fuel (set_free s.mem A true) hv hall (Or.inr rfl) rfl hf
  have hswap : set_free (set_free s.mem B true) A true =
      set_free (set_free s.mem A true) B true := by
    funext z
    simp only [set_free_eq]
    by_cases h1 : z = A
    · simp [h1, hAB]
    · by_cases h2 : z = B <;> simp [h1, h2, Ne.symm hAB]
  have hfBA := free_pair s pre post A B A fuel (set_free s.mem B true) hv hall (Or.inl rfl)
    hswap hf
  have hso : ∀ z, z ≠ A → z ≠ B → store (set_free (set_free s.mem A true) B true) A
      ⟨(s.mem A).size + BLOCK_SIZE + (s.mem B).size, true, (s.mem B).next⟩ z = s.mem z := by
    intro z h1 h2; simp [store, set_free_eq, h1, h2]
  have hsA : store (set_free (set_free s.mem A true) B true) A
      ⟨(s.mem A).size + BLOCK_SIZE + (s.mem B).size, true, (s.mem B).next⟩ A =
      ⟨(s.mem A).size + BLOCK_SIZE + (s.mem B).size, true, (s.mem B).next⟩ := store_same _ _ _
  have hpre : ∀ z ∈ pre, z ≠ A ∧ z ≠ B :=
    fun z hz => ⟨fun e => hApre (e ▸ hz), fun e => hBpre (e ▸ hz)⟩
  have hpost : ∀ z ∈ post, z ≠ A ∧ z ≠ B :=
    fun z hz => ⟨fun e => hApost (e ▸ hz), fun e => hBpost (e ▸ hz)⟩
  have hcd := chain_drop s.mem pre s.head A (B :: post) hv.chain
  have hcpost : chain s.mem (s.mem B).next post := hcd.2.2.2
  have hchain : chain (store (set_free (set_free s.mem A true) B true) A
      ⟨(s.mem A).size + BLOCK_SIZE + (s.mem B).size, true, (s.mem B).next⟩) s.head
      (pre ++ A :: post) := by
    refine chain_splice s.mem _ pre s.head A (B :: post) post hv.chain
      (fun z hz => hso z (hpre z hz).1 (hpre z hz).2) ?_
    rw [hsA]
    exact chain_congr s.mem _ post _ (fun z hz => by rw [hso z (hpost z hz).1 (hpost z hz).2]) hcpost
  have hother : ∀ x ∈ pre ++ post, store (set_free (set_free s.mem A true) B true) A
      ⟨(s.mem A).size + BLOCK_SIZE + (s.mem B).size, true, (s.mem B).next⟩ x = s.mem x := by
    intro x hx
    rcases List.mem_append.1 hx with h | h
    · exact hso x (hpre x h).1 (hpre x h).2
    · exact hso x (hpost x h).1 (hpost x h).2
  have hfit : fits (store (set_free (set_free s.mem A true) B true) A
      ⟨(s.mem A).size + BLOCK_SIZE + (s.mem B).size, true, (s.mem B).next⟩) n A = true := by
    simp only [fits, hsA, Bool.true_and, decide_eq_true_eq]; exact hle
  have hff := first_fit_unique _ n A (pre ++ A :: post) (by simp) hfit (fun x hx hxA => by
    have hx2 : x ∈ pre ++ post := by
      rcases List.mem_append.1 hx with h | h
      · exact List.mem_append_left _ h
      · rcases List.mem_cons.1 h with e | h2
        · exact absurd e hxA
        · exact List.mem_append_right _ h2
    have hxin : x ∈ pre ++ A :: B :: post := by
      rcases List.mem_append.1 hx2 with h | h
      · exact List.mem_append_left _ h
      · exact List.mem_append_right _ (List.mem_cons_of_mem _ (List.mem_cons_of_mem _ h))
    simp only [fits, hother x hx2, hall x hxin, Bool.false_and])
  have hA0 : A ≠ 0 := valid_ne_zero s _ hv A hA
  have hm := malloc_found { s with mem := (store (set_free (set_free s.mem A true) B true) A
      ⟨(s.mem A).size + BLOCK_SIZE + (s.mem B).size, true, (s.mem B).next⟩) }
    (pre ++ A :: post) n fuel hchain (by omega)
    (by simp at hf ⊢; omega) (by rw [hff]; exact hA0)
  simp only [hff] at hm
  rw [payload_eq A (by simp only [BLOCK_SIZE, WORD, HALF] at *; omega)] at hm
  refine ⟨_, _, _, _, hfA, hfAB, hfB, hfBA, hchain, ?_, hsA, hother, rfl, hm, rfl⟩
  intro hm2
  rcases List.mem_append.1 hm2 with h | h
  · exact hBpre h
  · rcases List.mem_cons.1 h with e | h2
    · exact hAB e.symm
    · exact hBpost h2

/-- Instance of C6 on the state `demo_used`: the blocks of 16 and 32 bytes are
released and 60 bytes are requested. -/
theorem coalesce_either_order_witness :
    ∃ sA sB sf s3,
      free 4 demo_used (4096 + BLOCK_SIZE) = some sA ∧
      free 4 sA (4136 + BLOCK_SIZE) = some sf ∧
      free 4 demo_used (4136 + BLOCK_SIZE) = some sB ∧
      free 4 sB (4096 + BLOCK_SIZE) = some sf ∧
      chain sf.mem sf.head ([] ++ 4096 :: [4192]) ∧ 4136 ∉ [] ++ 4096 :: [4192] ∧
      sf.mem 4096 = ⟨(demo_used.mem 4096).size + BLOCK_SIZE + (demo_used.mem 4136).size, true,
        (demo_used.mem 4136).next⟩ ∧
      (∀ x ∈ [] ++ [4192], sf.mem x = demo_used.mem x) ∧ sf.brk = demo_used.brk ∧
      malloc 4 sf 60 = some (4096 + BLOCK_SIZE, s3) ∧ s3 = { sf with mem := s3.mem } :=
  coalesce_either_order demo_used [] [4192] 4096 4136 60 4 valid_demo_used
    (by decide) (by decide) (by decide) (by decide)

/-! ## Resize with growth -/

/-- C8, amended.  On every state that keeps the ledger invariants (`Valid`: the list
from the head ends, its blocks lie back to back from the heap start to the break, and
the break is below `2^63`), for a used block `b` of the ledger holding `s` bytes
and `m > s`, when the inner `malloc(m)` returns a pointer `q` other than `NULL`:
`realloc` of the payload pointer of `b` returns `q`; the block of `q` is in the
ledger, used, with a size of at least `m`; the first `s` bytes at `q` are the bytes
that were at the old pointer; the record of `b` is marked free, and the ledger is
the coalescing of the ledger after the allocation with `b` marked free. -/
theorem realloc_grow (s : Heap) (l : List Nat) (b m q fuel : Nat) (s1 : Heap)
    (hv : Valid s l) (hb : b ∈ l) (hbu : (s.mem b).free = false)
    (hm : (s.mem b).size < m) (hf : l.length + 1 < fuel)
    (hq : malloc fuel s m = some (q, s1)) (hq0 : q ≠ 0) :
    ∃ s3 l3 l2, realloc fuel s (b + BLOCK_SIZE) m = some (q, s3) ∧
      chain s3.mem s3.head l3 ∧ header q ∈ l3 ∧ q = header q + BLOCK_SIZE ∧
      (s3.mem (header q)).free = false ∧ m ≤ (s3.mem (header q)).size ∧
      (∀ i, i < (s.mem b).size → s3.data (q + i) = s.data (b + BLOCK_SIZE + i)) ∧
      (s3.mem b).free = true ∧ chain s1.mem s1.head l2 ∧
      view s3.mem l3 = coalesce_all (view (set_free s1.mem b true) l2) := by
  have hbb := valid_bounds s l hv b hb
  have hw := hv.hi_lt
  have hble := hv.brk_le
  have hm0 : m ≠ 0 := by omega
  obtain ⟨p2, s2, l2, hmal, hpost⟩ := malloc_contract s l m fuel hv hm0 (by omega)
  rw [hq] at hmal
  cases hmal
  obtain ⟨qb, h1, h2, h3, h4, h5, h6⟩ := hpost.block hq0
  have hqh : header q = qb := by rw [h1]; exact header_add qb (by omega)
  have hqb : qb ≠ b := by
    intro e
    rw [e] at h6
    rw [h6 hb] at hbu
    exact absurd hbu (by simp)
  have hbw : b + BLOCK_SIZE < WORD := by simp only [BLOCK_SIZE, WORD, HALF] at *; omega
  have hh : header (b + BLOCK_SIZE) = b := header_add b hbw
  have hp : b + BLOCK_SIZE ≠ 0 := by simp only [BLOCK_SIZE]; omega
  have hbl2 : b ∈ l2 := hpost.sub.subset hb
  have hsz : (s1.mem b).size = (s.mem b).size := (hpost.used b hb hbu).1
  obtain ⟨s3, l3, hfree, fpost⟩ := free_contract
    { s1 with data := memcpy s1.data q (b + BLOCK_SIZE) (s1.mem b).size } l2 (b + BLOCK_SIZE)
    fuel hpost.chain hp (by rw [hh]; exact hbl2) (by have := hpost.len; omega)
  rw [hh] at fpost
  have hframe : s3.mem qb = s1.mem qb := fpost.frame qb hqb (Or.inr h4)
  refine ⟨s3, l3, l2, ?_, fpost.chain, ?_, ?_, ?_, ?_, ?_, fpost.freed, hpost.chain,
    fpost.view_eq⟩
  · simp only [realloc, hp, if_false, hh, not_le.2 hm, hq, hq0, hfree]
  · rw [hqh]; exact fpost.used qb h3 hqb h4
  · rw [hqh]; exact h1
  · rw [hqh, hframe]; exact h4
  · rw [hqh, hframe]; exact h5
  · intro i hi
    rw [fpost.data]
    simp only [memcpy, hsz]
    rw [if_pos ⟨by omega, by omega⟩, hpost.data]
    have e : q + i - q = i := by omega
    rw [e]

/-- Instance of C8 on the state `demo_used`: the block of 16 bytes at 4096 is resized
to 40 bytes, which `malloc` serves with a new block at the old break 4224. -/
theorem realloc_grow_witness :
    ∃ s3 l3 l2, realloc 5 demo_used (4096 + BLOCK_SIZE) 40 = some (4248, s3) ∧
      chain s3.mem s3.head l3 ∧ header 4248 ∈ l3 ∧ 4248 = header 4248 + BLOCK_SIZE ∧
      (s3.mem (header 4248)).free = false ∧ 40 ≤ (s3.mem (header 4248)).size ∧
      (∀ i, i < (demo_used.mem 4096).size →
        s3.data (4248 + i) = demo_used.data (4096 + BLOCK_SIZE + i)) ∧
      (s3.mem 4096).free = true ∧ chain demo_grown.mem demo_grown.head l2 ∧
      view s3.mem l3 = coalesce_all (view (set_free demo_grown.mem 4096 true) l2) :=
  realloc_grow demo_used [4096, 4136, 4192] 4096 40 4248 5 demo_grown valid_demo_used
    (by decide) (by decide) (by decide) (by decide) rfl (by decide)

/-! ## Runs of calls -/

theorem eraseIdx_facts (live : List (Nat × Nat)) :
    ∀ (i p n : Nat), live[i]? = some (p, n) → (live.map Prod.fst).Nodup →
      (p, n) ∈ live ∧ (live.eraseIdx i).Sublist live ∧ ∀ a ∈ live.eraseIdx i, a.1 ≠ p := by
  induction live with
  | nil => intro i p n h; simp at h
  | cons x xs ih =>
    intro i p n h hnd
    simp only [List.map_cons, List.nodup_cons] at hnd
    cases i with
    | zero =>
      simp only [List.getElem?_cons_zero, Option.some.injEq] at h
      subst h
      refine ⟨List.mem_cons_self _ _, by simp, ?_⟩
      intro a ha e
      simp only [List.eraseIdx_cons_zero] at ha
      exact hnd.1 (List.mem_map.2 ⟨a, ha, e⟩)
    | succ j =>
      simp only [List.getElem?_cons_succ] at h
      obtain ⟨h1, h2, h3⟩ := ih j p n h hnd.2
      refine ⟨List.mem_cons_of_mem _ h1, ?_, ?_⟩
      · simp only [List.eraseIdx_cons_succ]
        exact List.Sublist.cons₂ _ h2
      · intro a ha
        simp only [List.eraseIdx_cons_succ, List.mem_cons] at ha
        rcases ha with e | ha
        · intro e2
          rw [e] at e2
          exact hnd.1 (List.mem_map.2 ⟨(p, n), h1, e2.symm⟩)
        · exact h3 a ha

theorem realloc_of_null (s s1 : Heap) (p m fuel : Nat) (hp : p ≠ 0)
    (hm : (s.mem (header p)).size < m) (hq : malloc fuel s m = some (0, s1)) :
    realloc fuel s p m = some (0, s1) := by
  simp only [realloc, hp, if_false, not_le.2 hm, hq, if_true]

theorem realloc_of_free (s s1 s3 : Heap) (p m q fuel : Nat) (hp : p ≠ 0)
    (hm : (s.mem (header p)).size < m) (hq : malloc fuel s m = some (q, s1)) (hq0 : q ≠ 0)
    (hfree : free fuel { s1 with data := memcpy s1.data q p (s1.mem (header p)).size } p =
      some s3) :
    realloc fuel s p m = some (q, s3) := by
  simp only [realloc, hp, if_false, not_le.2 hm, hq, hq0, hfree]

theorem inv_mono (s : Heap) (live : List (Nat × Nat)) (k k2 : Nat) (h : Inv s live k)
    (hk : k ≤ k2) : Inv s live k2 := by
  obtain ⟨⟨l, h1, h2, h3⟩, h4⟩ := h
  exact ⟨⟨l, h1, by omega, h3⟩, h4⟩

theorem inv_empty (lo hi : Nat) (hlo : 0 < lo) (hle : lo ≤ hi) (hhi : hi < HALF) :
    Inv (empty_heap lo hi) [] 0 :=
  ⟨⟨[], ⟨rfl, rfl, hlo, hle, hhi⟩, by simp, by simp⟩, by simp⟩

/-- Live allocations of a run state are pairwise disjoint. -/
theorem inv_disjoint (s : Heap) (live : List (Nat × Nat)) (k : Nat) (h : Inv s live k) :
    live.Pairwise ranges_disjoint := by
  obtain ⟨⟨l, hv, _, hl⟩, hnd⟩ := h
  have hp : live.Pairwise (fun a b => a.1 ≠ b.1) := by
    have := List.pairwise_map.1 hnd
    exact this
  refine hp.imp_of_mem ?_
  intro a c ha hc hne
  obtain ⟨b, hb, h1, _, h3⟩ := hl a ha
  obtain ⟨d, hd, g1, _, g3⟩ := hl c hc
  have hbd : b ≠ d := by intro e; apply hne; rw [h1, g1, e]
  simp only [ranges_disjoint]
  rcases tiles_sep s.mem s.lo s.brk l hv.tiles b d hb hd hbd with h | h
  · left; rw [h1, g1]; omega
  · right; rw [h1, g1]; omega

theorem step_malloc_inv (s : Heap) (live : List (Nat × Nat)) (k n fuel : Nat)
    (h : Inv s live k) (hn : n + BLOCK_SIZE < HALF) (hf : k + 1 < fuel) :
    ∃ st, step fuel (s, live) (call.malloc n) = some st ∧ Inv st.1 st.2 (k + 1) := by
  by_cases hn0 : n = 0
  · refine ⟨(s, live), ?_, inv_mono s live k _ h (by omega)⟩
    simp [step, hn0, malloc_zero]
  · obtain ⟨⟨l, hv, hlen, hl⟩, hnd⟩ := h
    obtain ⟨p, s2, l2, hm, hpost⟩ := malloc_contract s l n fuel hv hn0 (by omega)
    have hkeep : ∀ a ∈ live, ∃ b ∈ l2, a.1 = b + BLOCK_SIZE ∧ (s2.mem b).free = false ∧
        a.2 ≤ (s2.mem b).size := by
      intro a ha
      obtain ⟨b, hb, h1, h2, h3⟩ := hl a ha
      obtain ⟨g1, g2⟩ := hpost.used b hb h2
      exact ⟨b, hpost.sub.subset hb, h1, g2, by rw [g1]; exact h3⟩
    have hlen2 : l2.length ≤ k + 1 := by have := hpost.len; omega
    by_cases hp : p = 0
    · refine ⟨(s2, live), ?_, ⟨⟨l2, hpost.valid hn, hlen2, hkeep⟩, hnd⟩⟩
      simp [step, hm, hp]
    · refine ⟨(s2, live ++ [(p, n)]), ?_, ⟨⟨l2, hpost.valid hn, hlen2, ?_⟩, ?_⟩⟩
      · simp [step, hm, hp]
      · intro a ha
        rcases List.mem_append.1 ha with ha | ha
        · exact hkeep a ha
        · simp only [List.mem_singleton] at ha
          subst ha
          obtain ⟨b, h1, _, h3, h4, h5, _⟩ := hpost.block hp
          exact ⟨b, h3, h1, h4, h5⟩
      · simp only [List.map_append, List.map_cons, List.map_nil]
        refine List.nodup_append.2 ⟨hnd, by simp, ?_⟩
        intro x hx1 hx2
        simp only [List.mem_singleton] at hx2
        subst hx2
        obtain ⟨a, ha, e⟩ := List.mem_map.1 hx1
        obtain ⟨b, hb, h1, h2, _⟩ := hl a ha
        obtain ⟨b2, g1, _, _, _, _, g6⟩ := hpost.block hp
        have : b = b2 := by omega
        rw [this] at hb h2
        rw [g6 hb] at h2
        exact absurd h2 (by simp)

theorem step_free_inv (s : Heap) (live : List (Nat × Nat)) (k i fuel : Nat)
    (h : Inv s live k) (hf : k + 1 < fuel) :
    ∃ st, step fuel (s, live) (call.free i) = some st ∧ Inv st.1 st.2 (k + 1) := by
  cases hi : live[i]? with
  | none =>
    exact ⟨(s, live), by simp [step, hi], inv_mono s live k _ h (by omega)⟩
  | some a =>
    obtain ⟨p, n0⟩ := a
    obtain ⟨⟨l, hv, hlen, hl⟩, hnd⟩ := h
    obtain ⟨hmem, hsub, hne⟩ := eraseIdx_facts live i p n0 hi hnd
    obtain ⟨b, hb, h1, h2, h3⟩ := hl _ hmem
    simp only at h1
    have hbb := valid_bounds s l hv b hb
    have hw := hv.hi_lt
    have hble := hv.brk_le
    have hh : header p = b := by
      rw [h1]; exact header_add b (by simp only [BLOCK_SIZE, WORD, HALF] at *; omega)
    have hp : p ≠ 0 := by rw [h1]; simp only [BLOCK_SIZE]; omega
    obtain ⟨s3, l3, hfree, fpost⟩ := free_contract s l p fuel hv.chain hp
      (by rw [hh]; exact hb) (by omega)
    rw [hh] at fpost
    refine ⟨(s3, live.eraseIdx i), by simp [step, hi, hfree], ⟨⟨l3, fpost.valid hv, ?_, ?_⟩, ?_⟩⟩
    · have := fpost.sub.length_le; omega
    · intro a ha
      obtain ⟨d, hd, g1, g2, g3⟩ := hl a (hsub.subset ha)
      have hdb : d ≠ b := by
        intro e; apply hne a ha; rw [g1, h1, e]
      have hfr := fpost.frame d hdb (Or.inr g2)
      exact ⟨d, fpost.used d hd hdb g2, g1, by rw [hfr]; exact g2, by rw [hfr]; exact g3⟩
    · exact (hsub.map Prod.fst).nodup hnd

theorem step_realloc_inv (s : Heap) (live : List (Nat × Nat)) (k i n fuel : Nat)
    (h : Inv s live k) (hn : n + BLOCK_SIZE < HALF) (hf : k + 1 < fuel) :
    ∃ st, step fuel (s, live) (call.realloc i n) = some st ∧ Inv st.1 st.2 (k + 1) := by
  cases hi : live[i]? with
  | none =>
    exact ⟨(s, live), by simp [step, hi], inv_mono s live k _ h (by omega)⟩
  | some a =>
    obtain ⟨p, n0⟩ := a
    obtain ⟨⟨l, hv, hlen, hl⟩, hnd⟩ := h
    obtain ⟨hmem, hsub, hne⟩ := eraseIdx_facts live i p n0 hi hnd
    obtain ⟨b, hb, h1, h2, h3⟩ := hl _ hmem
    simp only at h1
    have hbb := valid_bounds s l hv b hb
    have hw := hv.hi_lt
    have hble := hv.brk_le
    have hh : header p = b := by
      rw [h1]; exact header_add b (by simp only [BLOCK_SIZE, WORD, HALF] at *; omega)
    have hp : p ≠ 0 := by rw [h1]; simp only [BLOCK_SIZE]; omega
    have hnd2 : ((live.eraseIdx i).map Prod.fst).Nodup := (hsub.map Prod.fst).nodup hnd
    by_cases hle : n ≤ (s.mem b).size
    · -- the block is large enough: same pointer, same state
      have hr : realloc fuel s p n = some (p, s) := by
        simp [realloc, hp, hh, hle]
      refine ⟨(s, live.eraseIdx i ++ [(p, n)]), by simp [step, hi, hr, hp],
        ⟨⟨l, hv, by omega, ?_⟩, ?_⟩⟩
      · intro a ha
        rcases List.mem_append.1 ha with ha | ha
        · exact hl a (hsub.subset ha)
        · simp only [List.mem_singleton] at ha
          subst ha
          exact ⟨b, hb, h1, h2, hle⟩
      · simp only [List.map_append, List.map_cons, List.map_nil]
        refine List.nodup_append.2 ⟨hnd2, by simp, ?_⟩
        intro x hx1 hx2
        simp only [List.mem_singleton] at hx2
        subst hx2
        obtain ⟨a, ha, e⟩ := List.mem_map.1 hx1
        exact hne a ha e
    · have hlt : (s.mem (header p)).size < n := by rw [hh]; omega
      have hn0 : n ≠ 0 := by omega
      obtain ⟨q, s1, l2, hm, hpost⟩ := malloc_contract s l n fuel hv hn0 (by omega)
      have hv1 := hpost.valid hn
      by_cases hq : q = 0
      · subst hq
        have hs1 := (hpost.null_same rfl).1
        have hr := realloc_of_null s s1 p n fuel hp hlt hm
        refine ⟨(s1, live), by simp [step, hi, hr], ?_⟩
        rw [hs1]
        exact inv_mono s live k _ ⟨⟨l, hv, hlen, hl⟩, hnd⟩ (by omega)
      · obtain ⟨qb, g1, _, g3, g4, g5, g6⟩ := hpost.block hq
        have hqb : qb ≠ b := by
          intro e
          rw [e] at g6
          rw [g6 hb] at h2
          exact absurd h2 (by simp)
        have hv2 : Valid { s1 with data := memcpy s1.data q p (s1.mem b).size } l2 :=
          ⟨hv1.chain, hv1.tiles, hv1.lo_pos, hv1.brk_le, hv1.hi_lt⟩
        obtain ⟨s3, l3, hfree, fpost⟩ := free_contract
          { s1 with data := memcpy s1.data q p (s1.mem (header p)).size } l2 p fuel
          hv1.chain hp (by rw [hh]; exact hpost.sub.subset hb) (by have := hpost.len; omega)
        rw [hh] at fpost
        have hr := realloc_of_free s s1 s3 p n q fuel hp hlt hm hq hfree
        refine ⟨(s3, live.eraseIdx i ++ [(q, n)]), by simp [step, hi, hr, hq],
          ⟨⟨l3, fpost.valid hv2, ?_, ?_⟩, ?_⟩⟩
        · have := fpost.sub.length_le
          have := hpost.len
          omega
        · intro a ha
          rcases List.mem_append.1 ha with ha | ha
          · obtain ⟨d, hd, e1, e2, e3⟩ := hl a (hsub.subset ha)
            have hdb : d ≠ b := by
              intro e; apply hne a ha; rw [e1, h1, e]
            obtain ⟨u1, u2⟩ := hpost.used d hd e2
            have hfr : s3.mem d = s1.mem d := fpost.frame d hdb (Or.inr u2)
            refine ⟨d, fpost.used d (hpost.sub.subset hd) hdb u2, e1, ?_, ?_⟩
            · rw [hfr]; exact u2
            · rw [hfr, u1]; exact e3
          · simp only [List.mem_singleton] at ha
            subst ha
            have hfr : s3.mem qb = s1.mem qb := fpost.frame qb hqb (Or.inr g4)
            refine ⟨qb, fpost.used qb g3 hqb g4, g1, ?_, ?_⟩
            · rw [hfr]; exact g4
            · rw [hfr]; exact g5
        · simp only [List.map_append, List.map_cons, List.map_nil]
          refine List.nodup_append.2 ⟨hnd2, by simp, ?_⟩
          intro x hx1 hx2
          simp only [List.mem_singleton] at hx2
          subst hx2
          obtain ⟨a, ha, e⟩ := List.mem_map.1 hx1
          obtain ⟨d, hd, e1, e2, _⟩ := hl a (hsub.subset ha)
          have : d = qb := by omega
          rw [this] at hd e2
          rw [g6 hd] at e2
          exact absurd e2 (by simp)

theorem step_calloc_inv (s : Heap) (live : List (Nat × Nat)) (k n sz fuel : Nat)
    (h : Inv s live k) (hn : n * sz + BLOCK_SIZE < HALF) (hf : k + 1 < fuel) :
    ∃ st, step fuel (s, live) (call.calloc n sz) = some st ∧ Inv st.1 st.2 (k + 1) := by
  have htot : n * sz % WORD = n * sz :=
    Nat.mod_eq_of_lt (by simp only [BLOCK_SIZE, WORD, HALF] at *; omega)
  by_cases hn0 : n * sz = 0
  · refine ⟨(s, live), ?_, inv_mono s live k _ h (by omega)⟩
    simp [step, calloc, hn0, malloc_zero]
  · obtain ⟨⟨l, hv, hlen, hl⟩, hnd⟩ := h
    obtain ⟨p, s2, l2, hm, hpost⟩ := malloc_contract s l (n * sz) fuel hv hn0 (by omega)
    have hv2 := hpost.valid hn
    have hkeep : ∀ a ∈ live, ∃ b ∈ l2, a.1 = b + BLOCK_SIZE ∧ (s2.mem b).free = false ∧
        a.2 ≤ (s2.mem b).size := by
      intro a ha
      obtain ⟨b, hb, h1, h2, h3⟩ := hl a ha
      obtain ⟨g1, g2⟩ := hpost.used b hb h2
      exact ⟨b, hpost.sub.subset hb, h1, g2, by rw [g1]; exact h3⟩
    have hlen2 : l2.length ≤ k + 1 := by have := hpost.len; omega
    by_cases hp : p = 0
    · refine ⟨(s2, live), ?_, ⟨⟨l2, hv2, hlen2, hkeep⟩, hnd⟩⟩
      simp [step, calloc, htot, hm, hp]
    · refine ⟨({ s2 with data := memset s2.data p 0 (n * sz) }, live ++ [(p, n * sz)]), ?_,
        ⟨⟨l2, ⟨hv2.chain, hv2.tiles, hv2.lo_pos, hv2.brk_le, hv2.hi_lt⟩, hlen2, ?_⟩, ?_⟩⟩
      · simp [step, calloc, htot, hm, hp]
      · intro a ha
        rcases List.mem_append.1 ha with ha | ha
        · exact hkeep a ha
        · simp only [List.mem_singleton] at ha
          subst ha
          obtain ⟨b, h1, _, h3, h4, h5, _⟩ := hpost.block hp
          exact ⟨b, h3, h1, h4, h5⟩
      · simp only [List.map_append, List.map_cons, List.map_nil]
        refine List.nodup_append.2 ⟨hnd, by simp, ?_⟩
        intro x hx1 hx2
        simp only [List.mem_singleton] at hx2
        subst hx2
        obtain ⟨a, ha, e⟩ := List.mem_map.1 hx1
        obtain ⟨b, hb, h1, h2, _⟩ := hl a ha
        obtain ⟨b2, g1, _, _, _, _, g6⟩ := hpost.block hp
        have : b = b2 := by omega
        rw [this] at hb h2
        rw [g6 hb] at h2
        exact absurd h2 (by simp)

theorem step_inv (s : Heap) (live : List (Nat × Nat)) (k fuel : Nat) (c : call)
    (h : Inv s live k) (hb : bounded c) (hf : k + 1 < fuel) :
    ∃ st, step fuel (s, live) c = some st ∧ Inv st.1 st.2 (k + 1) := by
  cases c with
  | malloc n => exact step_malloc_inv s live k n fuel h hb hf
  | free i => exact step_free_inv s live k i fuel h hf
  | realloc i n => exact step_realloc_inv s live k i n fuel h hb hf
  | calloc n sz => exact step_calloc_inv s live k n sz fuel h hb hf

theorem run_inv (cs : List call) :
    ∀ (st : Heap × List (Nat × Nat)) (k fuel : Nat), Inv st.1 st.2 k →
      (∀ c ∈ cs, bounded c) → k + cs.length < fuel →
      ∃ st2, run fuel st cs = some st2 ∧ Inv st2.1 st2.2 (k + cs.length) := by
  induction cs with
  | nil => intro st k fuel h _ _; exact ⟨st, rfl, h⟩
  | cons c cs ih =>
    intro st k fuel h hb hf
    simp only [List.length_cons] at hf
    obtain ⟨st1, h1, h2⟩ := step_inv st.1 st.2 k fuel c h (hb c (List.mem_cons_self _ _))
      (by omega)
    obtain ⟨st2, h3, h4⟩ := ih st1 (k + 1) fuel h2
      (fun d hd => hb d (List.mem_cons_of_mem _ hd)) (by omega)
    refine ⟨st2, ?_, ?_⟩
    · simp only [run, h1, h3]
    · simp only [List.length_cons]
      have : k + (cs.length + 1) = k + 1 + cs.length := by omega
      rw [this]; exact h4

/-! ## No overlap -/

/-- C1 as stated fails: from the empty heap with break 4096, two calls
`malloc(2^64 - 24)` both return the pointer 4120 (the increment handed to `sbrk`
wraps to `0`, so the second block is laid over the first), and the two live
allocations of `2^64 - 24` bytes at 4120 are not disjoint. -/
theorem no_overlap_counterexample :
    (run 3 (empty_heap 4096 8192, [])
      [call.malloc 18446744073709551592, call.malloc 18446744073709551592]).map Prod.snd =
      some [(4120, 18446744073709551592), (4120, 18446744073709551592)] ∧
    ¬ ranges_disjoint (4120, 18446744073709551592) (4120, 18446744073709551592) := by
  decide

/-- C1, amended.  From the empty heap (break `lo > 0`, limit `hi < 2^63`), every
sequence of `malloc`, `free`, `realloc` and `calloc` calls, `free` and `realloc`
applied to live pointers, in which every requested size `n` has
`n + BLOCK_SIZE < 2^63`, returns,
and afterwards any two live allocations `p` (granted `n` bytes) and `q` (granted
`m` bytes) have disjoint byte ranges `[p, p + n)` and `[q, q + m)`. -/
theorem no_overlap_bounded (lo hi fuel : Nat) (cs : List call) (hlo : 0 < lo)
    (hle : lo ≤ hi) (hhi : hi < HALF) (hb : ∀ c ∈ cs, bounded c) (hf : cs.length < fuel) :
    ∃ s live, run fuel (empty_heap lo hi, []) cs = some (s, live) ∧
      live.Pairwise ranges_disjoint := by
  obtain ⟨st, h1, h2⟩ := run_inv cs (empty_heap lo hi, []) 0 fuel
    (inv_empty lo hi hlo hle hhi) hb (by omega)
  exact ⟨st.1, st.2, h1, inv_disjoint st.1 st.2 _ h2⟩

/-- Instance of C1, amended: five calls from the empty heap with break 4096, which
leave two live allocations. -/
theorem no_overlap_bounded_witness :
    (run 6 (empty_heap 4096 8192, [])
      [call.malloc 100, call.malloc 50, call.free 0, call.malloc 30,
        call.realloc 0 200]).map Prod.snd = some [(4120, 30), (4318, 200)] ∧
    ∃ s live, run 6 (empty_heap 4096 8192, [])
      [call.malloc 100, call.malloc 50, call.free 0, call.malloc 30,
        call.realloc 0 200] = some (s, live) ∧ live.Pairwise ranges_disjoint :=
  ⟨by decide, no_overlap_bounded 4096 8192 6
    [call.malloc 100, call.malloc 50, call.free 0, call.malloc 30, call.realloc 0 200]
    (by decide) (by decide) (by decide) (by decide) (by decide)⟩

/-- A request whose size plus header is `2^64 - 100`, negative as `intptr_t`: `sbrk`
lowers the break by 100 bytes, and the next block taken from `sbrk` lies inside the
payload `[4120, 4320)` of the first, live allocation. -/
theorem no_overlap_negative_increment :
    (run 4 (empty_heap 4096 8192, [])
      [call.malloc 200, call.malloc 18446744073709551492, call.malloc 50]).map Prod.snd =
      some [(4120, 200), (4344, 18446744073709551492), (4244, 50)] ∧
    ¬ ranges_disjoint (4120, 200) (4244, 50) := by
  decide

/-! ## First-fit search -/

theorem first_fit_split (mem : Nat → block_t) (n : Nat) (l : List Nat)
    (h : first_fit mem n l ≠ 0) :
    ∃ pre post, l = pre ++ first_fit mem n l :: post ∧ ∀ x ∈ pre, fits mem n x = false := by
  induction l with
  | nil => simp [first_fit] at h
  | cons x xs ih =>
    by_cases hfit : fits mem n x = true
    · exact ⟨[], xs, by simp [first_fit, hfit], by simp⟩
    · simp only [first_fit, hfit, Bool.false_eq_true, if_false] at h ⊢
      obtain ⟨pre, post, h1, h2⟩ := ih h
      refine ⟨x :: pre, post, by rw [List.cons_append, ← h1], ?_⟩
      intro y hy
      rcases List.mem_cons.1 hy with e | hy
      · rw [e]; simpa using hfit
      · exact h2 y hy

/-- C13. On every finite block list, `find_free_block` returns: the result is `NULL`
exactly when no block of the list is free with a size of at least `n`; otherwise it
is a block of the list that is free with a size of at least `n`, and no block before
it in list order is.  The function computes a pointer only and has no state to
change. -/
theorem find_free_block_first_fit (mem : Nat → block_t) (l : List Nat) (a n fuel : Nat)
    (hc : chain mem a l) (hf : l.length < fuel) :
    ∃ r, find_free_block fuel mem a n = some r ∧
      (r = 0 ↔ ∀ x ∈ l, ¬ ((mem x).free = true ∧ n ≤ (mem x).size)) ∧
      (r ≠ 0 → ∃ pre post, l = pre ++ r :: post ∧ (mem r).free = true ∧ n ≤ (mem r).size ∧
        ∀ x ∈ pre, ¬ ((mem x).free = true ∧ n ≤ (mem x).size)) := by
  have hfits : ∀ x, fits mem n x = false ↔ ¬ ((mem x).free = true ∧ n ≤ (mem x).size) := by
    intro x
    simp only [fits, Bool.and_eq_false_iff, decide_eq_false_iff_not, not_and, not_le]
    cases (mem x).free <;> simp
  refine ⟨first_fit mem n l, find_free_block_eq mem n l fuel a hc hf, ?_, fun hr => ?_⟩
  · rw [first_fit_eq_zero mem n l (chain_ne_zero _ _ _ hc)]
    exact forall_congr' (fun x => forall_congr' (fun _ => hfits x))
  · obtain ⟨pre, post, h1, h2⟩ := first_fit_split mem n l hr
    have h3 := (first_fit_mem mem n l hr).2
    simp only [fits, Bool.and_eq_true, decide_eq_true_eq] at h3
    exact ⟨pre, post, h1, h3.1, h3.2, fun x hx => (hfits x).1 (h2 x hx)⟩

/-- Instance of C13 on the state `demo`: a search for 40 bytes. -/
theorem find_free_block_first_fit_witness :
    ∃ r, find_free_block 3 demo.mem 4096 40 = some r ∧
      (r = 0 ↔ ∀ x ∈ [4096, 4220], ¬ ((demo.mem x).free = true ∧ 40 ≤ (demo.mem x).size)) ∧
      (r ≠ 0 → ∃ pre post, [4096, 4220] = pre ++ r :: post ∧ (demo.mem r).free = true ∧
        40 ≤ (demo.mem r).size ∧
        ∀ x ∈ pre, ¬ ((demo.mem x).free = true ∧ 40 ≤ (demo.mem x).size)) :=
  find_free_block_first_fit demo.mem [4096, 4220] 4096 40 3 (by decide) (by decide)

/-! ## Splitting, growth and the product of calloc -/

/-- C14 as stated fails: the block of 100 bytes at 4096 in `demo` and the request
`r = 2^64 - 8` have `S ≤ r + BLOCK_SIZE`, yet `split_block` splits (it compares `S`
with `r + BLOCK_SIZE` wrapped to 16) and the size of the block becomes `r`. -/
theorem split_block_counterexample :
    (demo.mem 4096).size ≤ 18446744073709551608 + BLOCK_SIZE ∧
    (split_block demo.mem 4096 18446744073709551608 4096).size = 18446744073709551608 ∧
    (split_block demo.mem 4096 18446744073709551608 4096).size ≠ (demo.mem 4096).size := by
  decide

/-- A block whose span runs past the top of the address space: the block carved out
of it is at the wrapped address 24, not at `a + BLOCK_SIZE + r`. -/
theorem split_block_address_wraps :
    (split_block top_store 18446744073709551516 100 18446744073709551516).next = 24 ∧
    (split_block top_store 18446744073709551516 100 24).free = true ∧
    18446744073709551516 + BLOCK_SIZE + 100 ≠ 24 := by
  decide

/-- C14, amended.  For a block at address `a` with size `S` and successor `N` whose
span ends within the address space, and a request `r` with `r + BLOCK_SIZE < 2^64`:
if `S > r + BLOCK_SIZE`, then after `split_block` the block has size `r`, its old
free flag, and as successor the new block at `a + BLOCK_SIZE + r`, which is free,
has size `S - r - BLOCK_SIZE ≥ 1` and successor `N`, so that
`r + BLOCK_SIZE + (S - r - BLOCK_SIZE) = S`, and no other record changes; if
`S ≤ r + BLOCK_SIZE` the store is unchanged. -/
theorem split_block_spec (mem : Nat → block_t) (a r : Nat) (hr : r + BLOCK_SIZE < WORD)
    (ha : a + BLOCK_SIZE + (mem a).size ≤ WORD) :
    (r + BLOCK_SIZE < (mem a).size →
      split_block mem a r a = ⟨r, (mem a).free, a + BLOCK_SIZE + r⟩ ∧
      split_block mem a r (a + BLOCK_SIZE + r) =
        ⟨(mem a).size - r - BLOCK_SIZE, true, (mem a).next⟩ ∧
      1 ≤ (mem a).size - r - BLOCK_SIZE ∧
      r + BLOCK_SIZE + ((mem a).size - r - BLOCK_SIZE) = (mem a).size ∧
      ∀ z, z ≠ a → z ≠ a + BLOCK_SIZE + r → split_block mem a r z = mem z) ∧
    ((mem a).size ≤ r + BLOCK_SIZE → split_block mem a r = mem) := by
  have hadd : add64 r BLOCK_SIZE = r + BLOCK_SIZE := add64_eq _ _ hr
  constructor
  · intro hgt
    have hsa : split_addr a r = a + BLOCK_SIZE + r := by
      simp only [split_addr]
      rw [add64_eq a BLOCK_SIZE (by simp only [BLOCK_SIZE, WORD] at *; omega)]
      exact add64_eq _ _ (by simp only [BLOCK_SIZE, WORD] at *; omega)
    have hne : a + BLOCK_SIZE + r ≠ a := by simp only [BLOCK_SIZE]; omega
    have hs1 : sub64 (sub64 (mem a).size r) BLOCK_SIZE = (mem a).size - r - BLOCK_SIZE := by
      rw [sub64_eq _ r (by omega) (by simp only [BLOCK_SIZE, WORD] at *; omega)]
      rw [sub64_eq _ BLOCK_SIZE (by omega) (by simp only [BLOCK_SIZE, WORD] at *; omega)]
    rw [split_block_of_gt mem a r (by rw [hadd]; exact hgt) (by rw [hsa]; exact hne), hsa, hs1]
    refine ⟨by simp [store], by simp [store, hne], by omega, by omega, ?_⟩
    intro z h1 h2
    simp [store, h1, h2]
  · intro hle
    exact split_block_of_le mem a r (by rw [hadd]; exact hle)

/-- Instance of C14, amended, on the state `demo`: the free block of 50 bytes at 4220
and the request of 10 bytes. -/
theorem split_block_spec_witness :
    (10 + BLOCK_SIZE < (demo.mem 4220).size →
      split_block demo.mem 4220 10 4220 = ⟨10, (demo.mem 4220).free, 4220 + BLOCK_SIZE + 10⟩ ∧
      split_block demo.mem 4220 10 (4220 + BLOCK_SIZE + 10) =
        ⟨(demo.mem 4220).size - 10 - BLOCK_SIZE, true, (demo.mem 4220).next⟩ ∧
      1 ≤ (demo.mem 4220).size - 10 - BLOCK_SIZE ∧
      10 + BLOCK_SIZE + ((demo.mem 4220).size - 10 - BLOCK_SIZE) = (demo.mem 4220).size ∧
      ∀ z, z ≠ 4220 → z ≠ 4220 + BLOCK_SIZE + 10 → split_block demo.mem 4220 10 z = demo.mem z) ∧
    ((demo.mem 4220).size ≤ 10 + BLOCK_SIZE → split_block demo.mem 4220 10 = demo.mem) :=
  split_block_spec demo.mem 4220 10 (by decide) (by decide)

/-- C17 as stated fails: `request_space(2^64 - 24)` on the empty heap hands `sbrk` the
increment `0`; it returns the block at 4096 with that size while the break has not
moved, so the heap has not grown by `size + BLOCK_SIZE` bytes. -/
theorem request_space_counterexample :
    (request_space (empty_heap 4096 8192) 18446744073709551592).1 = 4096 ∧
    ((request_space (empty_heap 4096 8192) 18446744073709551592).2.mem 4096).size =
      18446744073709551592 ∧
    (request_space (empty_heap 4096 8192) 18446744073709551592).2.brk = 4096 := by
  decide

/-- C17, amended.  For every `size` with `size + BLOCK_SIZE < 2^63`, `request_space`
asks `sbrk` for `size + BLOCK_SIZE` bytes.  If `sbrk` refuses, the result is `NULL`
and the state is unchanged.  Otherwise the result is the old break, the record there
is used, of size `size`, with no successor, the break has moved up by exactly
`size + BLOCK_SIZE`, and nothing else of the state has changed. -/
theorem request_space_spec (s : Heap) (size : Nat) (hb : size + BLOCK_SIZE < HALF) :
    (sbrk s (size + BLOCK_SIZE) = none → request_space s size = (0, s)) ∧
    (∀ r, sbrk s (size + BLOCK_SIZE) = some r →
      (request_space s size).1 = s.brk ∧
      (request_space s size).2.mem s.brk = ⟨size, false, 0⟩ ∧
      (request_space s size).2.brk = s.brk + (size + BLOCK_SIZE) ∧
      (∀ z, z ≠ s.brk → (request_space s size).2.mem z = s.mem z) ∧
      (request_space s size).2.head = s.head ∧ (request_space s size).2.data = s.data ∧
      (request_space s size).2.lo = s.lo ∧ (request_space s size).2.hi = s.hi) := by
  have hadd : add64 size BLOCK_SIZE = size + BLOCK_SIZE :=
    add64_eq _ _ (by simp only [BLOCK_SIZE, WORD, HALF] at *; omega)
  constructor
  · intro h
    simp only [request_space, hadd, h]
  · intro r h
    obtain ⟨h1, h2⟩ := sbrk_some s _ r h
    obtain ⟨h3, _⟩ := sbrk_some_pos s _ hb r h
    have hr : r = (s.brk, { s with brk := s.brk + (size + BLOCK_SIZE) }) := by
      rw [← h3, ← h1, ← h2]
    subst hr
    simp only [request_space, hadd, h]
    refine ⟨trivial, by simp [store], trivial, fun z hz => by simp [store, hz], trivial, trivial,
      trivial, trivial⟩

/-- Instance of C17, amended, on the state `demo`: a request of 40 bytes. -/
theorem request_space_spec_witness :
    (sbrk demo (40 + BLOCK_SIZE) = none → request_space demo 40 = (0, demo)) ∧
    (∀ r, sbrk demo (40 + BLOCK_SIZE) = some r →
      (request_space demo 40).1 = demo.brk ∧
      (request_space demo 40).2.mem demo.brk = ⟨40, false, 0⟩ ∧
      (request_space demo 40).2.brk = demo.brk + (40 + BLOCK_SIZE) ∧
      (∀ z, z ≠ demo.brk → (request_space demo 40).2.mem z = demo.mem z) ∧
      (request_space demo 40).2.head = demo.head ∧ (request_space demo 40).2.data = demo.data ∧
      (request_space demo 40).2.lo = demo.lo ∧ (request_space demo 40).2.hi = demo.hi) :=
  request_space_spec demo 40 (by decide)

/-- C11. `calloc` depends on `count` and `elemSize` only through their product modulo
`2^64`; and for `count = 2^63 + 4`, `elemSize = 2`, whose product `2^64 + 8` is beyond
`size_t`, `calloc` on the empty heap returns a pointer other than `NULL` whose block
is used and has size `8`, less than the product. -/
theorem calloc_overflow_underallocates :
    (∀ fuel s cnt sz, calloc fuel s cnt sz = calloc fuel s (cnt * sz % WORD) 1) ∧
    ∃ cnt sz p s2, cnt < WORD ∧ sz < WORD ∧ WORD ≤ cnt * sz ∧
      calloc 1 (empty_heap 4096 8192) cnt sz = some (p, s2) ∧ p ≠ 0 ∧
      (s2.mem (header p)).free = false ∧ (s2.mem (header p)).size = cnt * sz % WORD ∧
      (s2.mem (header p)).size < cnt * sz := by
  constructor
  · intro fuel s cnt sz
    simp only [calloc, Nat.mul_one, Nat.mod_mod]
  · exact ⟨9223372036854775812, 2, 4120, _, by decide, by decide, by decide, rfl, by decide,
      by decide, by decide, by decide⟩

/-! ## Growth path of malloc -/

/-- The growth path of `malloc` on a ledger state, with the state it leaves. -/
theorem malloc_grow_spec (s : Heap) (l : List Nat) (n fuel nbrk : Nat) (hv : Valid s l)
    (hn0 : n ≠ 0) (hf : l.length < fuel) (hun : ∀ x ∈ l, fits s.mem n x = false)
    (hs : sbrk s (add64 n BLOCK_SIZE) = some (s.brk, { s with brk := nbrk })) :
    ∃ s2, malloc fuel s n = some (s.brk + BLOCK_SIZE, s2) ∧
      chain s2.mem s2.head (l ++ [s.brk]) ∧ s2.mem s.brk = ⟨n, false, 0⟩ ∧
      (∀ x ∈ l, (s2.mem x).size = (s.mem x).size ∧ (s2.mem x).free = (s.mem x).free) ∧
      s2.head = (if l = [] then s.brk else s.head) ∧ s2.brk = nbrk ∧ s2.lo = s.lo ∧
      s2.hi = s.hi ∧ s2.data = s.data := by
  have hw := hv.hi_lt
  have hble := hv.brk_le
  have hlo := hv.lo_pos
  have hlb := valid_lo_le_brk s _ hv
  have hb0 : s.brk ≠ 0 := by omega
  have hnm := valid_brk_not_mem s _ hv
  have hb : first_fit s.mem n l = 0 :=
    (first_fit_eq_zero s.mem n l (valid_ne_zero s l hv)).2 hun
  have hpay : payload s.brk = s.brk + BLOCK_SIZE :=
    payload_eq _ (by simp only [BLOCK_SIZE, WORD, HALF] at *; omega)
  cases l with
  | nil =>
    refine ⟨_, ?_, (malloc_post_grow_empty s n nbrk hv hs).chain, by simp [store],
      by simp, by simp, rfl, rfl, rfl, rfl⟩
    rw [← hpay]
    exact malloc_grow_empty s n fuel nbrk hv.chain hn0 (by omega) hb0 hs
  | cons x xs =>
    have hlast : (x :: xs).getLast (List.cons_ne_nil _ _) ≠ s.brk := by
      intro e
      exact hnm (e ▸ List.getLast_mem _)
    refine ⟨_, ?_, (malloc_post_grow_append s x xs n nbrk hv hun hs).chain, ?_, ?_,
      by simp, rfl, rfl, rfl, rfl⟩
    · rw [← hpay]
      exact malloc_grow_append s x xs n fuel nbrk hv.chain hn0 hf hb0 hnm hb hs
    · show set_next _ _ _ s.brk = _
      rw [set_next_eq, if_neg (Ne.symm hlast)]
      simp [store]
    · intro z hz
      have hzb : z ≠ s.brk := fun e => hnm (by rw [← e]; exact hz)
      show (set_next _ _ _ z).size = _ ∧ (set_next _ _ _ z).free = _
      rw [set_next_eq]
      by_cases hzl : z = (x :: xs).getLast (List.cons_ne_nil _ _)
      · rw [if_pos hzl, ← hzl]
        simp [store, hzb]
      · rw [if_neg hzl]
        simp [store, hzb]

/-- C18, amended.  On every state that keeps the ledger invariants (`Valid`: the list
from the head ends, its blocks lie back to back from the heap start to the break, and
the break is below `2^63`) with blocks `l`, none of them free with a size of at
least `n`, for `n > 0` and `sbrk` granting the request: `malloc(n)` returns the
payload pointer of a block at the old break; the ledger afterwards is `l` followed by
that one block, which is used, of size exactly `n` and last; every block of `l`
keeps its size and free flag; and the new block is the head when `l` was empty. -/
theorem malloc_growth_path (s : Heap) (l : List Nat) (n fuel : Nat) (r : Nat × Heap)
    (hv : Valid s l) (hn : 0 < n)
    (hun : ∀ x ∈ l, (s.mem x).free = true → (s.mem x).size < n)
    (hs : sbrk s (add64 n BLOCK_SIZE) = some r) (hf : l.length < fuel) :
    ∃ s2, malloc fuel s n = some (s.brk + BLOCK_SIZE, s2) ∧
      chain s2.mem s2.head (l ++ [s.brk]) ∧ s2.mem s.brk = ⟨n, false, 0⟩ ∧
      (∀ x ∈ l, (s2.mem x).size = (s.mem x).size ∧ (s2.mem x).free = (s.mem x).free) ∧
      view s2.mem (l ++ [s.brk]) = view s.mem l ++ [⟨s.brk, n, false⟩] ∧
      (l = [] → s2.head = s.brk) ∧ (l ≠ [] → s2.head = s.head) := by
  obtain ⟨h1, h2⟩ := sbrk_some s _ r hs
  have hr : r = (s.brk, { s with brk := r.2.brk }) := by rw [← h1, ← h2]
  rw [hr] at hs
  obtain ⟨s2, g1, g2, g3, g4, g5, _⟩ := malloc_grow_spec s l n fuel r.2.brk hv (by omega) hf
    (fun x hx => (fits_eq_false_iff _ _ _).2 (hun x hx)) hs
  refine ⟨s2, g1, g2, g3, g4, ?_, fun e => by rw [g5, if_pos e],
    fun e => by rw [g5, if_neg e]⟩
  simp only [view, List.map_append, List.map_cons, List.map_nil, g3]
  congr 1
  exact List.map_congr_left (fun x hx => by rw [(g4 x hx).1, (g4 x hx).2])

/-- Instance of C18 on the state `demo`: a request of 60 bytes, which the free block
of 50 bytes does not hold. -/
theorem malloc_growth_path_witness :
    ∃ s2, malloc 3 demo 60 = some (demo.brk + BLOCK_SIZE, s2) ∧
      chain s2.mem s2.head ([4096, 4220] ++ [demo.brk]) ∧ s2.mem demo.brk = ⟨60, false, 0⟩ ∧
      (∀ x ∈ [4096, 4220],
        (s2.mem x).size = (demo.mem x).size ∧ (s2.mem x).free = (demo.mem x).free) ∧
      view s2.mem ([4096, 4220] ++ [demo.brk]) =
        view demo.mem [4096, 4220] ++ [⟨demo.brk, 60, false⟩] ∧
      (([4096, 4220] : List Nat) = [] → s2.head = demo.brk) ∧
      (([4096, 4220] : List Nat) ≠ [] → s2.head = demo.head) :=
  malloc_growth_path demo [4096, 4220] 60 3 (4294, { demo with brk := 4378 }) valid_demo
    (by decide) (by decide) rfl (by decide)

/-! ## Stability of used blocks -/

/-- A used block of a ledger state survives `malloc`. -/
theorem malloc_keeps_used (s : Heap) (l : List Nat) (b n fuel : Nat) (hv : Valid s l)
    (hb : b ∈ l) (hbu : (s.mem b).free = false) (hf : l.length < fuel) :
    ∃ p s2 l2, malloc fuel s n = some (p, s2) ∧ chain s2.mem s2.head l2 ∧ b ∈ l2 ∧
      (s2.mem b).free = false ∧ (s2.mem b).size = (s.mem b).size := by
  by_cases hn : n = 0
  · exact ⟨0, s, l, by rw [hn]; exact malloc_zero s fuel, hv.chain, hb, hbu, rfl⟩
  · obtain ⟨p, s2, l2, hm, hpost⟩ := malloc_contract s l n fuel hv hn hf
    obtain ⟨g1, g2⟩ := hpost.used b hb hbu
    exact ⟨p, s2, l2, hm, hpost.chain, hpost.sub.subset hb, g2, g1⟩

/-- A used block of a finite list survives `free` of another block of the list. -/
theorem free_keeps_used (s : Heap) (l : List Nat) (b p fuel : Nat)
    (hc : chain s.mem s.head l) (hb : b ∈ l) (hbu : (s.mem b).free = false) (hp : p ≠ 0)
    (hq : header p ∈ l) (hne : header p ≠ b) (hf : l.length < fuel) :
    ∃ s3 l3, free fuel s p = some s3 ∧ chain s3.mem s3.head l3 ∧ b ∈ l3 ∧
      s3.mem b = s.mem b ∧ s3.data = s.data := by
  obtain ⟨s3, l3, hfree, fpost⟩ := free_contract s l p fuel hc hp hq hf
  exact ⟨s3, l3, hfree, fpost.chain, fpost.used b hb (Ne.symm hne) hbu,
    fpost.frame b (Ne.symm hne) (Or.inr hbu), fpost.data⟩

/-- C12, amended.  On every state that keeps the ledger invariants (`Valid`: the
list from the head ends, its blocks lie back to back from the heap start to the
break, and the break is below `2^63`), a used block `b` of the ledger (the block of a live
pointer `b + BLOCK_SIZE`) is still a block of the ledger, used and of the same size,
after any `malloc(n)`, and after any `free` or `realloc` of the payload pointer of
another block `c` of the ledger; each of these calls returns. -/
theorem live_block_stable (s : Heap) (l : List Nat) (b fuel : Nat) (hv : Valid s l)
    (hb : b ∈ l) (hbu : (s.mem b).free = false) (hf : l.length + 1 < fuel) :
    (∀ n, ∃ p s2 l2, malloc fuel s n = some (p, s2) ∧ chain s2.mem s2.head l2 ∧ b ∈ l2 ∧
      (s2.mem b).free = false ∧ (s2.mem b).size = (s.mem b).size) ∧
    (∀ c ∈ l, c ≠ b → ∃ s3 l3, free fuel s (c + BLOCK_SIZE) = some s3 ∧
      chain s3.mem s3.head l3 ∧ b ∈ l3 ∧
      (s3.mem b).free = false ∧ (s3.mem b).size = (s.mem b).size) ∧
    (∀ c ∈ l, c ≠ b → ∀ n, ∃ q s3 l3, realloc fuel s (c + BLOCK_SIZE) n = some (q, s3) ∧
      chain s3.mem s3.head l3 ∧ b ∈ l3 ∧
      (s3.mem b).free = false ∧ (s3.mem b).size = (s.mem b).size) := by
  have hw := hv.hi_lt
  have hble := hv.brk_le
  have hhdr : ∀ c ∈ l, header (c + BLOCK_SIZE) = c ∧ c + BLOCK_SIZE ≠ 0 := by
    intro c hc
    have hbb := valid_bounds s l hv c hc
    exact ⟨header_add c (by simp only [BLOCK_SIZE, WORD, HALF] at *; omega),
      by simp only [BLOCK_SIZE]; omega⟩
  refine ⟨fun n => malloc_keeps_used s l b n fuel hv hb hbu (by omega), ?_, ?_⟩
  · intro c hc hcb
    obtain ⟨hh, hp⟩ := hhdr c hc
    obtain ⟨s3, l3, h1, h2, h3, h4, _⟩ := free_keeps_used s l b (c + BLOCK_SIZE) fuel hv.chain
      hb hbu hp (by rw [hh]; exact hc) (by rw [hh]; exact hcb) (by omega)
    exact ⟨s3, l3, h1, h2, h3, by rw [h4]; exact hbu, by rw [h4]⟩
  · intro c hc hcb n
    obtain ⟨hh, hp⟩ := hhdr c hc
    by_cases hle : n ≤ (s.mem c).size
    · refine ⟨c + BLOCK_SIZE, s, l, ?_, hv.chain, hb, hbu, rfl⟩
      simp [realloc, hp, hh, hle]
    · have hlt : (s.mem (header (c + BLOCK_SIZE))).size < n := by rw [hh]; omega
      obtain ⟨q, s1, l2, hm, g1, g2, g3, g4⟩ :=
        malloc_keeps_used s l b n fuel hv hb hbu (by omega)
      have hn0 : n ≠ 0 := by omega
      obtain ⟨q2, s12, l22, hm2, hpost⟩ := malloc_contract s l n fuel hv hn0 (by omega)
      rw [hm] at hm2
      cases hm2
      have hl2 := chain_unique _ _ _ _ g1 hpost.chain
      subst hl2
      by_cases hq : q = 0
      · subst hq
        exact ⟨0, s1, l2, realloc_of_null s s1 _ n fuel hp hlt hm, g1, g2, g3, g4⟩
      · obtain ⟨s3, l3, h1, h2, h3, h4, _⟩ := free_keeps_used
          { s1 with data := (memcpy s1.data q (c + BLOCK_SIZE)
              (s1.mem (header (c + BLOCK_SIZE))).size) }
          l2 b (c + BLOCK_SIZE) fuel g1 g2 g3 hp
          (by rw [hh]; exact hpost.sub.subset hc) (by rw [hh]; exact hcb)
          (by have := hpost.len; omega)
        refine ⟨q, s3, l3, realloc_of_free s s1 s3 _ n q fuel hp hlt hm hq h1, h2, h3, ?_, ?_⟩
        · rw [h4]; exact g3
        · rw [h4]; exact g4

/-- Instance of C12 on the state `demo_used`: the block at 4136 under calls that
allocate, and that release or resize the blocks at 4096 and 4192. -/
theorem live_block_stable_witness :
    (∀ n, ∃ p s2 l2, malloc 5 demo_used n = some (p, s2) ∧ chain s2.mem s2.head l2 ∧
      4136 ∈ l2 ∧ (s2.mem 4136).free = false ∧ (s2.mem 4136).size = (demo_used.mem 4136).size) ∧
    (∀ c ∈ [4096, 4136, 4192], c ≠ 4136 → ∃ s3 l3,
      free 5 demo_used (c + BLOCK_SIZE) = some s3 ∧ chain s3.mem s3.head l3 ∧ 4136 ∈ l3 ∧
      (s3.mem 4136).free = false ∧ (s3.mem 4136).size = (demo_used.mem 4136).size) ∧
    (∀ c ∈ [4096, 4136, 4192], c ≠ 4136 → ∀ n, ∃ q s3 l3,
      realloc 5 demo_used (c + BLOCK_SIZE) n = some (q, s3) ∧ chain s3.mem s3.head l3 ∧
      4136 ∈ l3 ∧ (s3.mem 4136).free = false ∧
      (s3.mem 4136).size = (demo_used.mem 4136).size) :=
  live_block_stable demo_used [4096, 4136, 4192] 4136 5 valid_demo_used (by decide)
    (by decide) (by decide)

/-! ## Exhaustive coalescing -/

theorem valid_demo_runs : Valid demo_runs [4096, 4136, 4168, 4200, 4240, 4272] :=
  ⟨by decide, by decide, by decide, by decide, by decide⟩

theorem adjacent_free_view (mem : Nat → block_t) (l : List Nat) :
    adjacent_free mem l = adjacent_free_entries (view mem l) := by
  induction l with
  | nil => rfl
  | cons x xs ih =>
    cases xs with
    | nil => rfl
    | cons y ys =>
      simp only [adjacent_free, view, List.map_cons, adjacent_free_entries]
      simp only [view, List.map_cons] at ih
      rw [ih]

theorem coalesce_from_head (v : List entry) :
    ∀ cur : entry, ∃ sz t, coalesce_from cur v = ⟨cur.addr, sz, cur.free⟩ :: t := by
  induction v with
  | nil => intro cur; exact ⟨cur.size, [], rfl⟩
  | cons y ys ih =>
    intro cur
    by_cases hfree : (cur.free && y.free) = true
    · simp only [coalesce_from, hfree, if_true]
      exact ih _
    · simp only [coalesce_from, hfree]
      exact ⟨cur.size, _, rfl⟩

/-- After coalescing no two neighbours are both free. -/
theorem coalesce_from_no_adjacent (v : List entry) :
    ∀ cur : entry, adjacent_free_entries (coalesce_from cur v) = false := by
  induction v with
  | nil => intro cur; rfl
  | cons y ys ih =>
    intro cur
    by_cases hfree : (cur.free && y.free) = true
    · simp only [coalesce_from, hfree, if_true]
      exact ih _
    · simp only [coalesce_from, hfree]
      obtain ⟨sz, t, ht⟩ := coalesce_from_head ys y
      have := ih y
      rw [ht] at this ⊢
      simp only [Bool.false_eq_true, if_false, adjacent_free_entries, this, Bool.or_false]
      simpa using hfree

/-- Coalescing keeps the used entries, in their order. -/
theorem coalesce_from_filter_used (v : List entry) :
    ∀ cur : entry, (coalesce_from cur v).filter (fun e => !e.free) =
      (cur :: v).filter (fun e => !e.free) := by
  induction v with
  | nil => intro cur; rfl
  | cons y ys ih =>
    intro cur
    by_cases hfree : (cur.free && y.free) = true
    · have hc : cur.free = true := by simp at hfree; exact hfree.1
      have hy : y.free = true := by simp at hfree; exact hfree.2
      simp only [coalesce_from, hfree, if_true]
      rw [ih]
      simp [List.filter_cons, hc, hy]
    · simp only [coalesce_from, hfree, Bool.false_eq_true, if_false]
      rw [List.filter_cons, ih y]
      conv_rhs => rw [List.filter_cons]

theorem total_append (v w : List entry) : total (v ++ w) = total v + total w := by
  simp [total, List.map_append, List.sum_append]

theorem total_cons (x : entry) (v : List entry) :
    total (x :: v) = BLOCK_SIZE + x.size + total v := by
  simp [total]

theorem total_split (v : List entry) :
    total v = total (v.takeWhile (fun y => y.free)) + total (v.dropWhile (fun y => y.free)) := by
  rw [← total_append, List.takeWhile_append_dropWhile]

/-- From a free entry, coalescing sums up the run that follows, when nothing wraps. -/
theorem coalesce_from_free (v : List entry) :
    ∀ cur : entry, cur.free = true →
      cur.size + total (v.takeWhile (fun y => y.free)) < WORD →
      coalesce_from cur v =
        ⟨cur.addr, cur.size + total (v.takeWhile (fun y => y.free)), true⟩ ::
          coalesce_all (v.dropWhile (fun y => y.free)) := by
  induction v with
  | nil =>
    intro cur hc _
    simp only [coalesce_from, List.takeWhile_nil, List.dropWhile_nil, total, List.map_nil,
      List.sum_nil, Nat.add_zero, coalesce_all]
    rw [← hc]
  | cons y ys ih =>
    intro cur hc hw
    by_cases hy : y.free = true
    · simp only [List.takeWhile_cons, hy, if_true, List.dropWhile_cons, total_cons] at hw ⊢
      simp only [coalesce_from, hc, hy, Bool.and_self, if_true]
      have e1 : add64 cur.size (add64 BLOCK_SIZE y.size) = cur.size + (BLOCK_SIZE + y.size) := by
        simp only [add64, BLOCK_SIZE, WORD] at *
        omega
      rw [e1, ih _ rfl (by simp only; omega)]
      simp only [Nat.add_assoc]
    · simp only [List.takeWhile_cons, hy, Bool.false_eq_true, if_false, List.dropWhile_cons,
        total, List.map_nil, List.sum_nil, Nat.add_zero]
      simp only [coalesce_from, hc, hy, Bool.and_false, Bool.false_eq_true, if_false,
        coalesce_all]
      rw [← hc]

theorem coalesce_from_used_head (v : List entry) (cur : entry) (hc : cur.free = false) :
    coalesce_from cur v = cur :: coalesce_all v := by
  cases v with
  | nil => rfl
  | cons y ys => simp [coalesce_from, hc, coalesce_all]

theorem collapse_runs_eq (fuel : Nat) :
    ∀ v : List entry, v.length ≤ fuel → total v < WORD →
      collapse_runs fuel v = coalesce_all v := by
  induction fuel with
  | zero =>
    intro v hl _
    have : v = [] := List.length_eq_zero.1 (by omega)
    subst this
    rfl
  | succ f ih =>
    intro v hl hw
    cases v with
    | nil => rfl
    | cons x r =>
      have hsplit := total_split r
      rw [total_cons] at hw
      have hdl : (r.dropWhile (fun y => y.free)).length ≤ r.length :=
        (List.dropWhile_sublist _).length_le
      simp only [List.length_cons] at hl
      by_cases hx : x.free = true
      · simp only [collapse_runs, hx, if_true, coalesce_all]
        rw [coalesce_from_free r x hx (by omega), ih _ (by omega) (by omega)]
      · have hx2 : x.free = false := by simpa using hx
        simp only [collapse_runs, hx, Bool.false_eq_true, if_false, coalesce_all]
        rw [coalesce_from_used_head r x hx2, ih r (by omega) (by omega)]

/-- Coalescing computes the collapse of runs when the ledger spans less than `2^64`
bytes. -/
theorem coalesce_all_eq_collapse (v : List entry) (hw : total v < WORD) :
    coalesce_all v = collapse v :=
  (collapse_runs_eq v.length v (le_refl _) hw).symm

theorem tiles_entries_total (v : List entry) :
    ∀ a e, tiles_entries a v e → a + total v = e := by
  induction v with
  | nil => intro a e h; simpa [total] using h
  | cons x xs ih =>
    intro a e h
    obtain ⟨h1, h2⟩ := h
    have := ih _ _ h2
    rw [total_cons]
    omega

/-- The loop of `merge_blocks` from the head of a finite list, the empty list
included. -/
theorem merge_blocks_ledger (mem : Nat → block_t) (a : Nat) (l : List Nat) (fuel : Nat)
    (hc : chain mem a l) (hf : l.length < fuel) :
    ∃ mem2 l2, merge_blocks fuel mem a = some mem2 ∧ chain mem2 a l2 ∧
      view mem2 l2 = coalesce_all (view mem l) ∧ l2.Sublist l := by
  cases l with
  | nil =>
    have ha : a = 0 := hc
    subst ha
    exact ⟨mem, [], merge_blocks_nil mem fuel (by omega), hc, rfl, List.Sublist.refl _⟩
  | cons x r =>
    have ha : a = x := hc.1
    subst ha
    obtain ⟨mem2, l2, h1, h2, h3, h4, _⟩ :=
      merge_blocks_spec r mem a fuel hc (by simp at hf; omega)
    exact ⟨mem2, l2, h1, h2, h3, h4⟩

theorem valid_total (s : Heap) (l : List Nat) (hv : Valid s l) :
    total (view s.mem l) < WORD := by
  have := tiles_entries_total _ _ _ hv.tiles
  have hw := hv.hi_lt
  have hble := hv.brk_le
  simp only [WORD, HALF] at *
  omega

theorem total_view_congr (mem mem2 : Nat → block_t) (l : List Nat)
    (h : ∀ x ∈ l, (mem2 x).size = (mem x).size) :
    total (view mem2 l) = total (view mem l) := by
  simp only [total, view, List.map_map]
  congr 1
  exact List.map_congr_left (fun x hx => by simp [h x hx])

/-- C15, amended.  On every state that keeps the ledger invariants (`Valid`: the
list from the head ends, its blocks lie back to back from the heap start to the
break, and the break is below `2^63`, so that no sum of footprints wraps), one call
of `merge_blocks` returns and leaves a ledger
in which no two list neighbours are both free: its entries are the old entries with
every maximal run of free blocks of sizes `s1 .. sk` replaced by one free block at
the address of the first, of size `s1 + .. + sk + (k - 1) * BLOCK_SIZE`, and the used
entries are the old ones in the old order.  The same holds of the ledger that every
`free` of a block of the ledger leaves, with that block counted as free. -/
theorem merge_blocks_collapses (s : Heap) (l : List Nat) (fuel : Nat) (hv : Valid s l)
    (hf : l.length < fuel) :
    (∃ mem2 l2, merge_blocks fuel s.mem s.head = some mem2 ∧ chain mem2 s.head l2 ∧
      view mem2 l2 = collapse (view s.mem l) ∧ adjacent_free mem2 l2 = false ∧
      (view mem2 l2).filter (fun e => !e.free) = (view s.mem l).filter (fun e => !e.free)) ∧
    (∀ p, p ≠ 0 → header p ∈ l → ∃ s3 l3, free fuel s p = some s3 ∧
      chain s3.mem s3.head l3 ∧ adjacent_free s3.mem l3 = false ∧
      view s3.mem l3 = collapse (view (set_free s.mem (header p) true) l)) := by
  have hfilter : ∀ v : List entry,
      (coalesce_all v).filter (fun e => !e.free) = v.filter (fun e => !e.free) := by
    intro v
    cases v with
    | nil => rfl
    | cons x r => exact coalesce_from_filter_used r x
  have hnoadj : ∀ v : List entry, adjacent_free_entries (coalesce_all v) = false := by
    intro v
    cases v with
    | nil => rfl
    | cons x r => exact coalesce_from_no_adjacent r x
  constructor
  · obtain ⟨mem2, l2, h1, h2, h3, _⟩ := merge_blocks_ledger s.mem s.head l fuel hv.chain hf
    refine ⟨mem2, l2, h1, h2, ?_, ?_, ?_⟩
    · rw [h3]; exact coalesce_all_eq_collapse _ (valid_total s l hv)
    · rw [adjacent_free_view, h3]; exact hnoadj _
    · rw [h3]; exact hfilter _
  · intro p hp hb
    obtain ⟨s3, l3, hfree, fpost⟩ := free_contract s l p fuel hv.chain hp hb hf
    refine ⟨s3, l3, hfree, fpost.chain, ?_, ?_⟩
    · rw [adjacent_free_view, fpost.view_eq]; exact hnoadj _
    · rw [fpost.view_eq]
      refine coalesce_all_eq_collapse _ ?_
      rw [total_view_congr s.mem _ l (fun x _ => by
        rw [set_free_eq]; by_cases hx : x = header p <;> simp [hx])]
      exact valid_total s l hv

/-- Instance of C15 on the state `demo_runs`, with the collapse of its entries: the
run of free blocks of 8, 8 and 16 bytes becomes one free block of 80 bytes. -/
theorem merge_blocks_collapses_witness :
    collapse (view demo_runs.mem [4096, 4136, 4168, 4200, 4240, 4272]) =
      [⟨4096, 16, false⟩, ⟨4136, 80, true⟩, ⟨4240, 8, false⟩, ⟨4272, 8, true⟩] ∧
    (∃ mem2 l2, merge_blocks 7 demo_runs.mem demo_runs.head = some mem2 ∧
      chain mem2 demo_runs.head l2 ∧
      view mem2 l2 = collapse (view demo_runs.mem [4096, 4136, 4168, 4200, 4240, 4272]) ∧
      adjacent_free mem2 l2 = false ∧
      (view mem2 l2).filter (fun e => !e.free) =
        (view demo_runs.mem [4096, 4136, 4168, 4200, 4240, 4272]).filter (fun e => !e.free)) ∧
    (∀ p, p ≠ 0 → header p ∈ [4096, 4136, 4168, 4200, 4240, 4272] → ∃ s3 l3,
      free 7 demo_runs p = some s3 ∧ chain s3.mem s3.head l3 ∧
      adjacent_free s3.mem l3 = false ∧
      view s3.mem l3 = collapse (view (set_free demo_runs.mem (header p) true)
        [4096, 4136, 4168, 4200, 4240, 4272])) :=
  ⟨by decide,
    merge_blocks_collapses demo_runs [4096, 4136, 4168, 4200, 4240, 4272] 7 valid_demo_runs
      (by decide)⟩

/-! ## Neighbours that are both free -/

/-- The found path of `malloc` on a ledger state, with the state it leaves: the
block is marked used and, when it is large enough, split. -/
theorem malloc_found_spec (s : Heap) (l : List Nat) (n fuel : Nat) (hv : Valid s l)
    (hn0 : n ≠ 0) (hf : l.length < fuel) (hb : first_fit s.mem n l ≠ 0) :
    ((s.mem (first_fit s.mem n l)).size ≤ n + BLOCK_SIZE ∧
      malloc fuel s n = some (first_fit s.mem n l + BLOCK_SIZE,
        { s with mem := set_free s.mem (first_fit s.mem n l) false })) ∨
    (n + BLOCK_SIZE < (s.mem (first_fit s.mem n l)).size ∧
      malloc fuel s n = some (first_fit s.mem n l + BLOCK_SIZE,
        { s with mem := (store (store (set_free s.mem (first_fit s.mem n l) false)
          (first_fit s.mem n l + BLOCK_SIZE + n)
          ⟨(s.mem (first_fit s.mem n l)).size - n - BLOCK_SIZE, true,
            (s.mem (first_fit s.mem n l)).next⟩) (first_fit s.mem n l)
          ⟨n, false, first_fit s.mem n l + BLOCK_SIZE + n⟩) })) := by
  have hw := hv.hi_lt
  have hble := hv.brk_le
  obtain ⟨hbl, hfit⟩ := first_fit_mem s.mem n l hb
  have hfit2 := hfit
  simp only [fits, Bool.and_eq_true, decide_eq_true_eq] at hfit2
  have hbb := valid_bounds s l hv _ hbl
  have hpay : payload (first_fit s.mem n l) = first_fit s.mem n l + BLOCK_SIZE :=
    payload_eq _ (by simp only [BLOCK_SIZE, WORD, HALF] at *; omega)
  have hadd : add64 n BLOCK_SIZE = n + BLOCK_SIZE :=
    add64_eq _ _ (by simp only [BLOCK_SIZE, WORD, HALF] at *; omega)
  have hfound := malloc_found s l n fuel hv.chain hn0 hf hb
  rw [hpay] at hfound
  have hm1 : (set_free s.mem (first_fit s.mem n l) false (first_fit s.mem n l)) =
      ⟨(s.mem (first_fit s.mem n l)).size, false, (s.mem (first_fit s.mem n l)).next⟩ := by
    simp [set_free_eq]
  by_cases hgt : n + BLOCK_SIZE < (s.mem (first_fit s.mem n l)).size
  · right
    refine ⟨hgt, ?_⟩
    rw [hfound]
    have hsa : split_addr (first_fit s.mem n l) n = first_fit s.mem n l + BLOCK_SIZE + n := by
      simp only [split_addr]
      rw [add64_eq _ BLOCK_SIZE (by simp only [BLOCK_SIZE, WORD, HALF] at *; omega)]
      exact add64_eq _ _ (by simp only [BLOCK_SIZE, WORD, HALF] at *; omega)
    rw [split_block_of_gt _ _ _ (by rw [hm1, hadd]; exact hgt)
      (by rw [hsa]; simp only [BLOCK_SIZE]; omega)]
    rw [hm1, hsa]
    simp only
    rw [sub64_eq _ n (by omega) (by simp only [BLOCK_SIZE, WORD, HALF] at *; omega)]
    rw [sub64_eq _ BLOCK_SIZE (by omega) (by simp only [BLOCK_SIZE, WORD, HALF] at *; omega)]
  · left
    refine ⟨by omega, ?_⟩
    rw [hfound]
    rw [split_block_of_le _ _ _ (by rw [hm1, hadd]; simp only; omega)]

theorem adjacent_free_mono (mem mem2 : Nat → block_t) (l : List Nat)
    (h : ∀ x ∈ l, (mem2 x).free = true → (mem x).free = true)
    (ha : adjacent_free mem l = false) : adjacent_free mem2 l = false := by
  induction l with
  | nil => rfl
  | cons x xs ih =>
    cases xs with
    | nil => rfl
    | cons y ys =>
      obtain ⟨h1, h2⟩ := adjacent_free_cons mem x y ys ha
      have ih2 := ih (fun z hz => h z (List.mem_cons_of_mem _ hz)) h2
      simp only [adjacent_free, ih2, Bool.or_false]
      by_contra hc
      simp only [Bool.not_eq_false, Bool.and_eq_true] at hc
      have e1 := h x (List.mem_cons_self _ _) hc.1
      have e2 := h y (List.mem_cons_of_mem _ (List.mem_cons_self _ _)) hc.2
      rw [e1, e2] at h1
      exact absurd h1 (by simp)

theorem adjacent_free_snoc (mem : Nat → block_t) (l : List Nat) (z : Nat)
    (hz : (mem z).free = false) (ha : adjacent_free mem l = false) :
    adjacent_free mem (l ++ [z]) = false := by
  induction l with
  | nil => rfl
  | cons x xs ih =>
    cases xs with
    | nil => simp [adjacent_free, hz]
    | cons y ys =>
      obtain ⟨h1, h2⟩ := adjacent_free_cons mem x y ys ha
      have ih2 := ih h2
      simp only [List.cons_append] at ih2 ⊢
      simp only [adjacent_free, ih2, Bool.or_false]
      exact h1

theorem insert_after_head (b nb x : Nat) (xs : List Nat) :
    ∃ t, insert_after b nb (x :: xs) = x :: t := by
  by_cases hx : x = b
  · exact ⟨nb :: xs, by simp [insert_after, hx]⟩
  · exact ⟨insert_after b nb xs, by simp [insert_after, hx]⟩

/-- After a split of the free block `b`, whose successor is not free, no two
neighbours are both free. -/
theorem adjacent_free_insert_after (mem mem2 : Nat → block_t) (b nb : Nat) (l : List Nat)
    (hnd : l.Nodup) (hnb : nb ∉ l) (hbf : (mem b).free = true)
    (hb2 : (mem2 b).free = false)
    (ho : ∀ z, z ≠ b → z ≠ nb → (mem2 z).free = (mem z).free)
    (ha : adjacent_free mem l = false) :
    adjacent_free mem2 (insert_after b nb l) = false := by
  induction l with
  | nil => rfl
  | cons x xs ih =>
    have hxnb : x ≠ nb := fun e => hnb (e ▸ List.mem_cons_self _ _)
    have hnbxs : nb ∉ xs := fun hm => hnb (List.mem_cons_of_mem _ hm)
    have hnd2 := List.nodup_cons.1 hnd
    by_cases hx : x = b
    · subst hx
      simp only [insert_after, if_true]
      have hrest : adjacent_free mem2 xs = false := by
        refine adjacent_free_mono mem mem2 xs (fun z hz h => ?_) ?_
        · rw [ho z (fun e => hnd2.1 (e ▸ hz)) (fun e => hnbxs (e ▸ hz))] at h
          exact h
        · cases xs with
          | nil => rfl
          | cons y ys => exact (adjacent_free_cons mem x y ys ha).2
      cases xs with
      | nil => simp [adjacent_free, hb2]
      | cons y ys =>
        have hy : (mem y).free = false := by
          have := (adjacent_free_cons mem x y ys ha).1
          rw [hbf] at this
          simpa using this
        have hy2 : (mem2 y).free = false := by
          rw [ho y (fun e => hnd2.1 (e ▸ List.mem_cons_self _ _))
            (fun e => hnbxs (e ▸ List.mem_cons_self _ _))]
          exact hy
        simp [adjacent_free, hb2, hy2, hrest]
    · simp only [insert_after, hx, if_false]
      cases xs with
      | nil => rfl
      | cons y ys =>
        obtain ⟨h1, h2⟩ := adjacent_free_cons mem x y ys ha
        have ih2 := ih hnd2.2 hnbxs h2
        obtain ⟨t, ht⟩ := insert_after_head b nb y ys
        rw [ht] at ih2 ⊢
        simp only [adjacent_free, ih2, Bool.or_false]
        have hx2 : (mem2 x).free = (mem x).free := ho x hx hxnb
        by_cases hy : y = b
        · rw [hy, hb2]; simp
        · have hy2 : (mem2 y).free = (mem y).free :=
            ho y hy (fun e => hnbxs (e ▸ List.mem_cons_self _ _))
          rw [hx2, hy2]; exact h1

theorem split_addr_not_mem (s : Heap) (l : List Nat) (b n : Nat) (hv : Valid s l)
    (hb : b ∈ l) (hgt : n + BLOCK_SIZE < (s.mem b).size) : b + BLOCK_SIZE + n ∉ l := by
  intro hm
  have hne : b + BLOCK_SIZE + n ≠ b := by simp only [BLOCK_SIZE]; omega
  rcases tiles_sep s.mem s.lo s.brk l hv.tiles _ _ hm hb hne with h | h
  · simp only [BLOCK_SIZE] at h; omega
  · simp only [BLOCK_SIZE] at h hgt; omega

theorem malloc_no_adjacent (s : Heap) (l : List Nat) (n fuel p : Nat) (s2 : Heap)
    (hv : Valid s l) (ha : adjacent_free s.mem l = false) (hf : l.length < fuel)
    (hm : malloc fuel s n = some (p, s2)) : no_adjacent_free s2 := by
  intro l2 hc2
  by_cases hn0 : n = 0
  · rw [hn0, malloc_zero] at hm
    cases hm
    rw [← chain_unique _ _ _ _ hv.chain hc2]; exact ha
  by_cases hb : first_fit s.mem n l = 0
  · have hun := (first_fit_eq_zero s.mem n l (valid_ne_zero s l hv)).1 hb
    cases hs : sbrk s (add64 n BLOCK_SIZE) with
    | none =>
      rw [malloc_fail s l n fuel hv.chain hn0 hf hb hs] at hm
      cases hm
      rw [← chain_unique _ _ _ _ hv.chain hc2]; exact ha
    | some r =>
      obtain ⟨h1, h2⟩ := sbrk_some s _ r hs
      have hr : r = (s.brk, { s with brk := r.2.brk }) := by rw [← h1, ← h2]
      rw [hr] at hs
      obtain ⟨s3, g1, g2, g3, g4, _⟩ := malloc_grow_spec s l n fuel r.2.brk hv hn0 hf hun hs
      rw [g1] at hm
      cases hm
      rw [← chain_unique _ _ _ _ g2 hc2]
      refine adjacent_free_snoc _ l s.brk (by rw [g3]) ?_
      exact adjacent_free_mono s.mem _ l (fun x hx h => by rw [← (g4 x hx).2]; exact h) ha
  · obtain ⟨hbl, hfit⟩ := first_fit_mem s.mem n l hb
    have hfit2 := hfit
    simp only [fits, Bool.and_eq_true, decide_eq_true_eq] at hfit2
    rcases malloc_found_spec s l n fuel hv hn0 hf hb with ⟨_, h⟩ | ⟨hgt, h⟩
    · rw [h] at hm
      cases hm
      have hch : chain (set_free s.mem (first_fit s.mem n l) false) s.head l :=
        chain_congr s.mem _ l _ (fun z _ => by
          rw [set_free_eq]; by_cases hz : z = first_fit s.mem n l <;> simp [hz]) hv.chain
      rw [← chain_unique _ _ _ _ hch hc2]
      refine adjacent_free_mono s.mem _ l (fun x _ h => ?_) ha
      simp only [set_free_eq] at h
      by_cases hx : x = first_fit s.mem n l
      · simp [hx] at h
      · simpa [hx] using h
    · rw [h] at hm
      cases hm
      have hch := (malloc_post_split s l n _ hv hbl hfit rfl hgt).chain
      rw [← chain_unique _ _ _ _ hch hc2]
      have hnb := split_addr_not_mem s l _ n hv hbl hgt
      have hne : first_fit s.mem n l + BLOCK_SIZE + n ≠ first_fit s.mem n l := by
        simp only [BLOCK_SIZE]; omega
      refine adjacent_free_insert_after s.mem _ _ _ l (chain_nodup _ _ _ hv.chain) hnb
        hfit2.1 (by simp [store]) (fun z h1 h2 => ?_) ha
      simp [store, set_free_eq, h1, h2]

theorem free_no_adjacent (s : Heap) (l : List Nat) (p fuel : Nat) (s3 : Heap)
    (hc : chain s.mem s.head l) (hp : p ≠ 0) (hb : header p ∈ l) (hf : l.length < fuel)
    (hfree : free fuel s p = some s3) : no_adjacent_free s3 := by
  intro l3 hc3
  obtain ⟨s4, l4, h1, fpost⟩ := free_contract s l p fuel hc hp hb hf
  rw [hfree] at h1
  cases h1
  rw [← chain_unique _ _ _ _ fpost.chain hc3, adjacent_free_view, fpost.view_eq]
  cases hv : view (set_free s.mem (header p) true) l with
  | nil => rfl
  | cons x r => exact coalesce_from_no_adjacent r x

theorem realloc_no_adjacent (s : Heap) (l : List Nat) (p n q fuel : Nat) (s2 : Heap)
    (hv : Valid s l) (ha : adjacent_free s.mem l = false) (hp : p ≠ 0) (hb : header p ∈ l)
    (hf : l.length + 1 < fuel) (hr : realloc fuel s p n = some (q, s2)) :
    no_adjacent_free s2 := by
  by_cases hle : n ≤ (s.mem (header p)).size
  · simp only [realloc, hp, if_false, hle, if_true] at hr
    cases hr
    intro l2 hc2
    rw [← chain_unique _ _ _ _ hv.chain hc2]; exact ha
  · have hlt : (s.mem (header p)).size < n := by omega
    have hn0 : n ≠ 0 := by omega
    obtain ⟨q1, s1, l2, hm, hpost⟩ := malloc_contract s l n fuel hv hn0 (by omega)
    by_cases hq : q1 = 0
    · subst hq
      rw [realloc_of_null s s1 p n fuel hp hlt hm] at hr
      cases hr
      exact malloc_no_adjacent s l n fuel 0 _ hv ha (by omega) hm
    · obtain ⟨s3, l3, hfree, _⟩ := free_contract
        { s1 with data := (memcpy s1.data q1 p (s1.mem (header p)).size) } l2 p fuel
        hpost.chain hp (hpost.sub.subset hb) (by have := hpost.len; omega)
      rw [realloc_of_free s s1 s3 p n q1 fuel hp hlt hm hq hfree] at hr
      cases hr
      exact free_no_adjacent
        { s1 with data := (memcpy s1.data q p (s1.mem (header p)).size) } l2 p fuel _
        hpost.chain hp (hpost.sub.subset hb) (by have := hpost.len; omega) hfree

/-! ## Invariants of runs -/

theorem step_no_adjacent (s : Heap) (live : List (Nat × Nat)) (k fuel : Nat) (c : call)
    (st : Heap × List (Nat × Nat)) (h : Inv s live k) (ha : no_adjacent_free s)
    (hf : k + 1 < fuel) (hst : step fuel (s, live) c = some st) :
    no_adjacent_free st.1 := by
  obtain ⟨⟨l, hv, hlen, hl⟩, hnd⟩ := h
  have hal := ha l hv.chain
  have hw := hv.hi_lt
  have hble := hv.brk_le
  have hptr : ∀ (i p n0 : Nat), live[i]? = some (p, n0) → p ≠ 0 ∧ header p ∈ l := by
    intro i p n0 hi
    obtain ⟨hmem, _, _⟩ := eraseIdx_facts live i p n0 hi hnd
    obtain ⟨b, hb, h1, _, _⟩ := hl _ hmem
    simp only at h1
    have hbb := valid_bounds s l hv b hb
    have hh : header p = b := by
      rw [h1]; exact header_add b (by simp only [BLOCK_SIZE, WORD, HALF] at *; omega)
    exact ⟨by rw [h1]; simp only [BLOCK_SIZE]; omega, by rw [hh]; exact hb⟩
  cases c with
  | malloc n =>
    cases hm : malloc fuel s n with
    | none => simp [step, hm] at hst
    | some r =>
      obtain ⟨p, s2⟩ := r
      simp only [step, hm, Option.some.injEq] at hst
      rw [← hst]
      exact malloc_no_adjacent s l n fuel p s2 hv hal (by omega) hm
  | calloc n sz =>
    cases hm : malloc fuel s (n * sz % WORD) with
    | none => simp [step, calloc, hm] at hst
    | some r =>
      obtain ⟨p, s2⟩ := r
      have h2 := malloc_no_adjacent s l _ fuel p s2 hv hal (by omega) hm
      by_cases hp : p = 0
      · simp only [step, calloc, hm, hp, if_true, Option.some.injEq] at hst
        rw [← hst]; exact h2
      · simp only [step, calloc, hm, hp, if_false, Option.some.injEq] at hst
        rw [← hst]
        exact fun l2 hc2 => h2 l2 hc2
  | free i =>
    cases hi : live[i]? with
    | none =>
      simp only [step, hi, Option.some.injEq] at hst
      rw [← hst]; exact ha
    | some a =>
      obtain ⟨p, n0⟩ := a
      obtain ⟨hp, hb⟩ := hptr i p n0 hi
      cases hfr : free fuel s p with
      | none => simp [step, hi, hfr] at hst
      | some s3 =>
        simp only [step, hi, hfr, Option.some.injEq] at hst
        rw [← hst]
        exact free_no_adjacent s l p fuel s3 hv.chain hp hb (by omega) hfr
  | realloc i n =>
    cases hi : live[i]? with
    | none =>
      simp only [step, hi, Option.some.injEq] at hst
      rw [← hst]; exact ha
    | some a =>
      obtain ⟨p, n0⟩ := a
      obtain ⟨hp, hb⟩ := hptr i p n0 hi
      cases hr : realloc fuel s p n with
      | none => simp [step, hi, hr] at hst
      | some r =>
        obtain ⟨q, s2⟩ := r
        simp only [step, hi, hr, Option.some.injEq] at hst
        rw [← hst]
        exact realloc_no_adjacent s l p n q fuel s2 hv hal hp hb (by omega) hr

/-- A bounded run keeps the invariant and leaves no two free neighbours. -/
theorem run_inv_no_adjacent (cs : List call) :
    ∀ (st : Heap × List (Nat × Nat)) (k fuel : Nat), Inv st.1 st.2 k →
      no_adjacent_free st.1 → (∀ c ∈ cs, bounded c) → k + cs.length < fuel →
      ∃ st2, run fuel st cs = some st2 ∧ Inv st2.1 st2.2 (k + cs.length) ∧
        no_adjacent_free st2.1 := by
  induction cs with
  | nil => intro st k fuel h ha _ _; exact ⟨st, rfl, h, ha⟩
  | cons c cs ih =>
    intro st k fuel h ha hb hf
    simp only [List.length_cons] at hf
    obtain ⟨st1, h1, h2⟩ := step_inv st.1 st.2 k fuel c h (hb c (List.mem_cons_self _ _))
      (by omega)
    have ha1 := step_no_adjacent st.1 st.2 k fuel c st1 h ha (by omega) h1
    obtain ⟨st2, h3, h4, h5⟩ := ih st1 (k + 1) fuel h2 ha1
      (fun d hd => hb d (List.mem_cons_of_mem _ hd)) (by omega)
    refine ⟨st2, ?_, ?_, h5⟩
    · simp only [run, h1, h3]
    · simp only [List.length_cons]
      have : k + (cs.length + 1) = k + 1 + cs.length := by omega
      rw [this]; exact h4

theorem no_adjacent_free_empty (lo hi : Nat) : no_adjacent_free (empty_heap lo hi) := by
  intro l hc
  cases l with
  | nil => rfl
  | cons x xs => exact absurd hc.1.symm hc.2.1

/-- In a ledger state every successor pointer is the address right behind the
payload, and the list is in strictly ascending address order. -/
theorem valid_address_order (mem : Nat → block_t) (l : List Nat) :
    ∀ a a2 e, chain mem a l → tiles mem a2 l e →
      (∀ b ∈ l, (mem b).next ≠ 0 → (mem b).next = b + BLOCK_SIZE + (mem b).size) ∧
      l.Pairwise (fun x y => x < y) := by
  intro a a2 e hc ht
  constructor
  · induction l generalizing a a2 with
    | nil => intro b hb; simp at hb
    | cons x xs ih =>
      intro b hb hnz
      obtain ⟨_, _, hc2⟩ := hc
      obtain ⟨_, ht2⟩ := ht
      rcases List.mem_cons.1 hb with e1 | hb2
      · subst e1
        cases xs with
        | nil => exact absurd hc2 hnz
        | cons y ys =>
          have h1 : (mem b).next = y := hc2.1
          have h2 : y = b + BLOCK_SIZE + (mem b).size := ht2.1
          rw [h1, h2]
      · exact ih _ _ hc2 ht2 b hb2 hnz
  · exact (tiles_pairwise mem a2 e l ht).imp (fun h => by simp only [BLOCK_SIZE] at h; omega)

theorem request_space_lo (s : Heap) (n : Nat) : (request_space s n).2.lo = s.lo := by
  cases hs : sbrk s (add64 n BLOCK_SIZE) with
  | none => simp [request_space, hs]
  | some r =>
    obtain ⟨_, h2⟩ := sbrk_some s _ r hs
    simp only [request_space, hs]
    rw [h2]

theorem malloc_lo (fuel : Nat) (s : Heap) (n p : Nat) (s2 : Heap)
    (h : malloc fuel s n = some (p, s2)) : s2.lo = s.lo := by
  unfold malloc at h
  split at h
  · cases h; rfl
  · split at h
    · cases h
    · split at h
      · cases h; rfl
      · simp only at h
        split at h
        · cases h; exact request_space_lo s n
        · split at h
          · cases h; exact request_space_lo s n
          · split at h
            · cases h
            · cases h; exact request_space_lo s n

theorem free_lo (fuel : Nat) (s : Heap) (p : Nat) (s2 : Heap)
    (h : free fuel s p = some s2) : s2.lo = s.lo := by
  unfold free at h
  split at h
  · cases h; rfl
  · simp only at h
    split at h
    · cases h
    · cases h; rfl

theorem calloc_lo (fuel : Nat) (s : Heap) (n sz p : Nat) (s2 : Heap)
    (h : calloc fuel s n sz = some (p, s2)) : s2.lo = s.lo := by
  unfold calloc at h
  simp only at h
  split at h
  · cases h
  · rename_i q s1 hm
    have hlo := malloc_lo _ _ _ _ _ hm
    split at h
    · cases h; exact hlo
    · cases h; exact hlo

theorem realloc_lo (fuel : Nat) (s : Heap) (p n q : Nat) (s2 : Heap)
    (h : realloc fuel s p n = some (q, s2)) : s2.lo = s.lo := by
  unfold realloc at h
  split at h
  · exact malloc_lo _ _ _ _ _ h
  · simp only at h
    split at h
    · cases h; rfl
    · split at h
      · cases h
      · rename_i q1 s1 hm
        have hlo := malloc_lo _ _ _ _ _ hm
        split at h
        · cases h; exact hlo
        · split at h
          · cases h
          · rename_i s3 hfr
            cases h
            rw [free_lo _ _ _ _ hfr]
            exact hlo

theorem step_lo (fuel : Nat) (st st2 : Heap × List (Nat × Nat)) (c : call)
    (h : step fuel st c = some st2) : st2.1.lo = st.1.lo := by
  cases c with
  | malloc n =>
    cases hm : malloc fuel st.1 n with
    | none => simp [step, hm] at h
    | some r =>
      simp only [step, hm, Option.some.injEq] at h
      rw [← h]; exact malloc_lo _ _ _ _ _ hm
  | calloc n sz =>
    cases hm : calloc fuel st.1 n sz with
    | none => simp [step, hm] at h
    | some r =>
      simp only [step, hm, Option.some.injEq] at h
      rw [← h]; exact calloc_lo _ _ _ _ _ _ hm
  | free i =>
    cases hi : st.2[i]? with
    | none => simp only [step, hi, Option.some.injEq] at h; rw [← h]
    | some a =>
      cases hfr : free fuel st.1 a.1 with
      | none => simp [step, hi, hfr] at h
      | some s3 =>
        simp only [step, hi, hfr, Option.some.injEq] at h
        rw [← h]; exact free_lo _ _ _ _ hfr
  | realloc i n =>
    cases hi : st.2[i]? with
    | none => simp only [step, hi, Option.some.injEq] at h; rw [← h]
    | some a =>
      cases hr : realloc fuel st.1 a.1 n with
      | none => simp [step, hi, hr] at h
      | some r =>
        simp only [step, hi, hr, Option.some.injEq] at h
        rw [← h]; exact realloc_lo _ _ _ _ _ _ hr

theorem run_lo (fuel : Nat) (cs : List call) :
    ∀ st st2 : Heap × List (Nat × Nat), run fuel st cs = some st2 → st2.1.lo = st.1.lo := by
  induction cs with
  | nil => intro st st2 h; simp only [run, Option.some.injEq] at h; rw [← h]
  | cons c cs ih =>
    intro st st2 h
    cases hs : step fuel st c with
    | none => simp [run, hs] at h
    | some st1 =>
      simp only [run, hs] at h
      rw [ih st1 st2 h, step_lo fuel st st1 c hs]

/-! ## Address order and free neighbours in reachable states -/

theorem valid_extent (s : Heap) (l : List Nat) (hv : Valid s l) :
    s.lo + total (view s.mem l) = s.brk :=
  tiles_entries_total _ _ _ hv.tiles

/-- On a ledger state a bounded `malloc` returns, leaves a ledger state, and either
leaves the break or, when no block fits, moves it up by the request and a header. -/
theorem malloc_extent (s : Heap) (l : List Nat) (n fuel : Nat) (hv : Valid s l)
    (hn : n + BLOCK_SIZE < HALF) (hf : l.length < fuel) :
    ∃ p s2 l2, malloc fuel s n = some (p, s2) ∧ Valid s2 l2 ∧ s2.lo = s.lo ∧
      (s2.brk = s.brk ∨
        ((∀ x ∈ l, fits s.mem n x = false) ∧ s2.brk = s.brk + (n + BLOCK_SIZE))) := by
  by_cases hn0 : n = 0
  · exact ⟨0, s, l, by rw [hn0]; exact malloc_zero s fuel, hv, rfl, Or.inl rfl⟩
  obtain ⟨p, s2, l2, hm, hpost⟩ := malloc_contract s l n fuel hv hn0 hf
  refine ⟨p, s2, l2, hm, hpost.valid hn, hpost.lo, ?_⟩
  by_cases hb : first_fit s.mem n l = 0
  · have hun := (first_fit_eq_zero s.mem n l (valid_ne_zero s l hv)).1 hb
    cases hs : sbrk s (add64 n BLOCK_SIZE) with
    | none =>
      rw [malloc_fail s l n fuel hv.chain hn0 hf hb hs] at hm
      cases hm
      exact Or.inl rfl
    | some r =>
      obtain ⟨h1, h2⟩ := sbrk_some s _ r hs
      have hr : r = (s.brk, { s with brk := r.2.brk }) := by rw [← h1, ← h2]
      have hadd : add64 n BLOCK_SIZE = n + BLOCK_SIZE :=
        add64_eq _ _ (by simp only [BLOCK_SIZE, WORD, HALF] at *; omega)
      have hpos := (sbrk_some_pos s _ hn r (by rw [← hadd]; exact hs)).1
      rw [hr] at hs
      obtain ⟨s3, g1, _, _, _, _, g6, _⟩ := malloc_grow_spec s l n fuel r.2.brk hv hn0 hf hun hs
      rw [g1] at hm
      cases hm
      exact Or.inr ⟨hun, by rw [g6, hpos]⟩
  · obtain ⟨hbl, hfit⟩ := first_fit_mem s.mem n l hb
    exact Or.inl (hpost.found ⟨_, hbl, hfit⟩).1

theorem adjacent_free_pairs (mem : Nat → block_t) (l : List Nat)
    (h : adjacent_free mem l = false) :
    ∀ pre x y post, l = pre ++ x :: y :: post →
      ¬ ((mem x).free = true ∧ (mem y).free = true) := by
  intro pre
  induction pre generalizing l with
  | nil =>
    intro x y post hl
    subst hl
    have := (adjacent_free_cons mem x y post h).1
    simpa using this
  | cons z zs ih =>
    intro x y post hl
    subst hl
    cases hzs : zs ++ x :: y :: post with
    | nil => simp at hzs
    | cons w ws =>
      have h2 : adjacent_free mem (z :: w :: ws) = false := by
        rw [← hzs]; exact h
      exact ih (w :: ws) (adjacent_free_cons mem z w ws h2).2 x y post hzs.symm

/-- C16 as stated fails: after `malloc(200)`, `malloc(2^64 - 124)` (an increment of
`-100` for `sbrk`) and `malloc(50)` from the empty heap, the list is 4096, 4320,
4220; the block at 4320 has the successor 4220, which is neither
`4320 + BLOCK_SIZE + size` nor above 4320. -/
theorem address_order_counterexample :
    (run 4 (empty_heap 4096 8192, [])
      [call.malloc 200, call.malloc 18446744073709551492, call.malloc 50]).map
      (fun st => (decide (chain st.1.mem st.1.head [4096, 4320, 4220]),
        (st.1.mem 4320).next, (st.1.mem 4320).size)) =
      some (true, 4220, 18446744073709551492) ∧
    4220 ≠ 4320 + BLOCK_SIZE + 18446744073709551492 ∧ ¬ (4320 < 4220) := by
  decide

/-- C16, amended.  From the empty heap (break `lo > 0`, limit `hi < 2^63`), every
sequence of calls in which every requested size `n` has `n + BLOCK_SIZE < 2^63`
returns, and in the state it reaches every block of the list with a successor has
it at `address + BLOCK_SIZE + size`, and the list is in strictly ascending address
order.  The ledger invariant behind this is kept by every such `malloc` (split and
growth) and by every `free` of a block of the ledger (coalescing). -/
theorem address_order_bounded (lo hi fuel : Nat) (cs : List call) (hlo : 0 < lo)
    (hle : lo ≤ hi) (hhi : hi < HALF) (hb : ∀ c ∈ cs, bounded c) (hf : cs.length < fuel) :
    (∃ s live l, run fuel (empty_heap lo hi, []) cs = some (s, live) ∧
      chain s.mem s.head l ∧
      (∀ b ∈ l, (s.mem b).next ≠ 0 → (s.mem b).next = b + BLOCK_SIZE + (s.mem b).size) ∧
      l.Pairwise (fun x y => x < y)) ∧
    (∀ s l n fl, Valid s l → n + BLOCK_SIZE < HALF → l.length < fl →
      ∃ p s2 l2, malloc fl s n = some (p, s2) ∧ Valid s2 l2) ∧
    (∀ s l p fl, Valid s l → p ≠ 0 → header p ∈ l → l.length < fl →
      ∃ s3 l3, free fl s p = some s3 ∧ Valid s3 l3) := by
  refine ⟨?_, ?_, ?_⟩
  · obtain ⟨st, h1, h2⟩ := run_inv cs (empty_heap lo hi, []) 0 fuel
      (inv_empty lo hi hlo hle hhi) hb (by omega)
    obtain ⟨⟨l, hv, _, _⟩, _⟩ := h2
    obtain ⟨g1, g2⟩ := valid_address_order st.1.mem l _ _ _ hv.chain hv.tiles
    exact ⟨st.1, st.2, l, h1, hv.chain, g1, g2⟩
  · intro s l n fl hv hn hfl
    obtain ⟨p, s2, l2, hm, hv2, _⟩ := malloc_extent s l n fl hv hn hfl
    exact ⟨p, s2, l2, hm, hv2⟩
  · intro s l p fl hv hp hbl hfl
    obtain ⟨s3, l3, hfree, fpost⟩ := free_contract s l p fl hv.chain hp hbl hfl
    exact ⟨s3, l3, hfree, fpost.valid hv⟩

/-- Instance of C16, amended: five calls from the empty heap with break 4096. -/
theorem address_order_bounded_witness :
    (∃ s live l, run 6 (empty_heap 4096 8192, [])
        [call.malloc 100, call.malloc 50, call.free 0, call.malloc 30,
          call.realloc 0 200] = some (s, live) ∧
      chain s.mem s.head l ∧
      (∀ b ∈ l, (s.mem b).next ≠ 0 → (s.mem b).next = b + BLOCK_SIZE + (s.mem b).size) ∧
      l.Pairwise (fun x y => x < y)) ∧
    (∀ s l n fl, Valid s l → n + BLOCK_SIZE < HALF → l.length < fl →
      ∃ p s2 l2, malloc fl s n = some (p, s2) ∧ Valid s2 l2) ∧
    (∀ s l p fl, Valid s l → p ≠ 0 → header p ∈ l → l.length < fl →
      ∃ s3 l3, free fl s p = some s3 ∧ Valid s3 l3) :=
  address_order_bounded 4096 8192 6
    [call.malloc 100, call.malloc 50, call.free 0, call.malloc 30, call.realloc 0 200]
    (by decide) (by decide) (by decide) (by decide) (by decide)

/-- C19 as stated fails: after `malloc(2^64 - 24)`, `free` of the result and
`malloc(2^64 - 24)` again from the empty heap, the block carved by `split_block` is
the found block itself; the head block at 4096 is free, its successor is the block
at 4096, free as well, and the pointer 4120 just returned is live. -/
theorem no_adjacent_free_counterexample :
    (run 2 (empty_heap 4096 8192, [])
      [call.malloc 18446744073709551592, call.free 0,
        call.malloc 18446744073709551592]).map
      (fun st => (st.1.head, (st.1.mem st.1.head).free, (st.1.mem st.1.head).next,
        (st.1.mem (st.1.mem st.1.head).next).free, st.2.map Prod.fst)) =
      some (4096, true, 4096, true, [4120]) := by
  decide

/-- Two different neighbours both free: after a negative increment has lowered the
break, `malloc(132)` splits the block at 4096 and writes the carved block over the
live block at 4252, whose predecessor in the list, the block at 4352, is free. -/
theorem no_adjacent_free_negative_increment :
    (run 8 (empty_heap 4096 8192, [])
      [call.malloc 200, call.malloc 8, call.malloc 18446744073709551492, call.malloc 8,
        call.free 2, call.free 0, call.malloc 132]).map
      (fun st => ((st.1.mem 4320).next, (st.1.mem 4352).free, (st.1.mem 4352).next,
        (st.1.mem 4252).free, st.2.map Prod.fst)) =
      some (4352, true, 4252, true, [4344, 4276, 4120]) := by
  decide

/-- C19, amended.  From the empty heap (break `lo > 0`, limit `hi < 2^63`), every
sequence of `malloc`, `free`, `calloc` and `realloc` calls, `free` and `realloc`
applied to live pointers, in which every requested size `n` has
`n + BLOCK_SIZE < 2^63`, returns, and in the state it reaches no two list neighbours
are both free.  On a ledger state without two free neighbours every `malloc` leaves
a state without two free neighbours, so the block a split carves is not followed by
a free block. -/
theorem no_adjacent_free_bounded (lo hi fuel : Nat) (cs : List call) (hlo : 0 < lo)
    (hle : lo ≤ hi) (hhi : hi < HALF) (hb : ∀ c ∈ cs, bounded c) (hf : cs.length < fuel) :
    (∃ s live l, run fuel (empty_heap lo hi, []) cs = some (s, live) ∧
      chain s.mem s.head l ∧ adjacent_free s.mem l = false ∧
      ∀ pre x y post, l = pre ++ x :: y :: post →
        ¬ ((s.mem x).free = true ∧ (s.mem y).free = true)) ∧
    (∀ s l n fl p s2, Valid s l → adjacent_free s.mem l = false → l.length < fl →
      malloc fl s n = some (p, s2) →
      ∀ l2, chain s2.mem s2.head l2 → adjacent_free s2.mem l2 = false) := by
  constructor
  · obtain ⟨st, h1, h2, h3⟩ := run_inv_no_adjacent cs (empty_heap lo hi, []) 0 fuel
      (inv_empty lo hi hlo hle hhi) (no_adjacent_free_empty lo hi) hb (by omega)
    obtain ⟨⟨l, hv, _, _⟩, _⟩ := h2
    exact ⟨st.1, st.2, l, h1, hv.chain, h3 l hv.chain,
      adjacent_free_pairs _ l (h3 l hv.chain)⟩
  · intro s l n fl p s2 hv ha hfl hm
    exact malloc_no_adjacent s l n fl p s2 hv ha hfl hm

/-- Instance of C19, amended: six calls from the empty heap with break 4096, among
them a `calloc` and a `malloc` that splits a free block. -/
theorem no_adjacent_free_bounded_witness :
    (∃ s live l, run 7 (empty_heap 4096 8192, [])
        [call.malloc 100, call.calloc 5 10, call.free 0, call.malloc 30,
          call.realloc 0 200, call.free 0] = some (s, live) ∧
      chain s.mem s.head l ∧ adjacent_free s.mem l = false ∧
      ∀ pre x y post, l = pre ++ x :: y :: post →
        ¬ ((s.mem x).free = true ∧ (s.mem y).free = true)) ∧
    (∀ s l n fl p s2, Valid s l → adjacent_free s.mem l = false → l.length < fl →
      malloc fl s n = some (p, s2) →
      ∀ l2, chain s2.mem s2.head l2 → adjacent_free s2.mem l2 = false) :=
  no_adjacent_free_bounded 4096 8192 7
    [call.malloc 100, call.calloc 5 10, call.free 0, call.malloc 30, call.realloc 0 200,
      call.free 0]
    (by decide) (by decide) (by decide) (by decide) (by decide)

/-! ## Extent conservation -/

theorem malloc_huge_fails (s : Heap) (l : List Nat) (n fuel : Nat) (hv : Valid s l)
    (hh : HALF ≤ n + BLOCK_SIZE) (hw : s.brk - s.lo + (n + BLOCK_SIZE) < WORD)
    (hf : l.length < fuel) : malloc fuel s n = some (0, s) := by
  have hhi := hv.hi_lt
  have hble := hv.brk_le
  have hn0 : n ≠ 0 := by simp only [BLOCK_SIZE, HALF] at hh; omega
  have hun : ∀ x ∈ l, fits s.mem n x = false := by
    intro x hx
    have hb := valid_bounds s l hv x hx
    simp only [fits, Bool.and_eq_false_iff, decide_eq_false_iff_not, not_le]
    right
    simp only [BLOCK_SIZE, HALF] at *
    omega
  have hadd : add64 n BLOCK_SIZE = n + BLOCK_SIZE :=
    add64_eq _ _ (by omega)
  have hs : sbrk s (add64 n BLOCK_SIZE) = none := by
    rw [hadd]
    simp only [sbrk, not_lt.2 hh, if_false]
    rw [if_neg]
    simp only [BLOCK_SIZE, HALF, WORD] at *
    omega
  exact malloc_fail s l n fuel hv.chain hn0 hf
    ((first_fit_eq_zero s.mem n l (valid_ne_zero s l hv)).2 hun) hs

theorem step_inv_within (s : Heap) (live : List (Nat × Nat)) (k fuel : Nat) (c : call)
    (h : Inv s live k) (hw : within_extent s c = true) (hf : k + 1 < fuel) :
    ∃ st, step fuel (s, live) c = some st ∧ Inv st.1 st.2 (k + 1) := by
  by_cases hb : bounded c
  · exact step_inv s live k fuel c h hb hf
  have hsame : step fuel (s, live) c = some (s, live) := by
    obtain ⟨⟨l, hv, hlen, hl⟩, hnd⟩ := h
    have hhi := hv.hi_lt
    have hble := hv.brk_le
    cases c with
    | malloc n =>
      simp only [bounded, not_lt] at hb
      simp only [within_extent, request, decide_eq_true_eq] at hw
      simp [step, malloc_huge_fails s l n fuel hv hb hw (by omega)]
    | free i => exact absurd trivial hb
    | realloc i n =>
      simp only [bounded, not_lt] at hb
      simp only [within_extent, request, decide_eq_true_eq] at hw
      have hm := malloc_huge_fails s l n fuel hv hb hw (by omega)
      cases hi : live[i]? with
      | none => simp [step, hi]
      | some a =>
        obtain ⟨hmem, _, _⟩ := eraseIdx_facts live i a.1 a.2 hi hnd
        obtain ⟨b, hbl, hab, _, _⟩ := hl a hmem
        have hbd := valid_bounds s l hv b hbl
        have hbw : b + BLOCK_SIZE < WORD := by
          simp only [BLOCK_SIZE, HALF, WORD] at *; omega
        have hp : a.1 ≠ 0 := by rw [hab]; simp [BLOCK_SIZE]
        have hhd : header a.1 = b := by rw [hab]; exact header_add b hbw
        have hsz : (s.mem (header a.1)).size < n := by
          rw [hhd]; simp only [BLOCK_SIZE, HALF, WORD] at *; omega
        have hr := realloc_of_null s s a.1 n fuel hp hsz hm
        obtain ⟨p, m⟩ := a
        simp only [step, hi, hr, if_true]
    | calloc n sz =>
      simp only [bounded, not_lt] at hb
      simp only [within_extent, request, decide_eq_true_eq] at hw
      have hm := malloc_huge_fails s l (n * sz) fuel hv hb hw (by omega)
      have htot : n * sz % WORD = n * sz := Nat.mod_eq_of_lt (by omega)
      simp [step, calloc, htot, hm]
  exact ⟨(s, live), hsame, inv_mono s live k _ h (by omega)⟩

theorem run_within_inv (cs : List call) :
    ∀ (st : Heap × List (Nat × Nat)) (k fuel : Nat), Inv st.1 st.2 k →
      run_within fuel st cs = true → k + cs.length < fuel →
      ∃ st2, run fuel st cs = some st2 ∧ Inv st2.1 st2.2 (k + cs.length) := by
  induction cs with
  | nil => intro st k fuel h _ _; exact ⟨st, rfl, h⟩
  | cons c cs ih =>
    intro st k fuel h hw hf
    simp only [List.length_cons] at hf
    simp only [run_within, Bool.and_eq_true] at hw
    obtain ⟨st1, h1, hinv⟩ := step_inv_within st.1 st.2 k fuel c h hw.1 (by omega)
    have h1b : step fuel st c = some st1 := h1
    have hw2 : run_within fuel st1 cs = true := by
      have := hw.2
      rw [h1b] at this
      exact this
    obtain ⟨st2, h2, hinv2⟩ := ih st1 (k + 1) fuel hinv hw2 (by omega)
    refine ⟨st2, ?_, ?_⟩
    · simp only [run, h1b]; exact h2
    · have e : k + (cs.length + 1) = k + 1 + cs.length := by omega
      simp only [List.length_cons]
      rw [e]; exact hinv2

/-- On a ledger state, a `malloc` whose request would take the extent to `2^64` or
beyond gets a negative increment through: the break falls, and the block footprints
of the list then add up to `2^64` or more. -/
theorem malloc_beyond_extent (s : Heap) (l : List Nat) (n fuel : Nat) (hv : Valid s l)
    (hn : n + BLOCK_SIZE < WORD) (hw : WORD ≤ s.brk - s.lo + (n + BLOCK_SIZE))
    (hf : l.length < fuel) :
    ∃ p s2, malloc fuel s n = some (p, s2) ∧ chain s2.mem s2.head (l ++ [s.brk]) ∧
      total (view s2.mem (l ++ [s.brk])) = total (view s.mem l) + (n + BLOCK_SIZE) ∧
      WORD ≤ total (view s2.mem (l ++ [s.brk])) ∧ s2.brk < s.brk := by
  have hhi := hv.hi_lt
  have hble := hv.brk_le
  have hext := valid_extent s l hv
  have hh : HALF ≤ n + BLOCK_SIZE := by simp only [BLOCK_SIZE, HALF, WORD] at *; omega
  have hn0 : n ≠ 0 := by simp only [BLOCK_SIZE, HALF] at hh; omega
  have hun : ∀ x ∈ l, fits s.mem n x = false := by
    intro x hx
    have hb := valid_bounds s l hv x hx
    simp only [fits, Bool.and_eq_false_iff, decide_eq_false_iff_not, not_le]
    right
    simp only [BLOCK_SIZE, HALF] at *
    omega
  have hadd : add64 n BLOCK_SIZE = n + BLOCK_SIZE := add64_eq _ _ hn
  have hs : sbrk s (add64 n BLOCK_SIZE) =
      some (s.brk, { s with brk := s.brk - (WORD - (n + BLOCK_SIZE)) }) := by
    rw [hadd]
    simp only [sbrk, not_lt.2 hh, if_false]
    rw [if_pos]
    simp only [BLOCK_SIZE, HALF, WORD] at *
    omega
  obtain ⟨s2, g1, g2, g3, g4, _, g6, _⟩ := malloc_grow_spec s l n fuel _ hv hn0 hf hun hs
  have ht : total (view s2.mem (l ++ [s.brk])) = total (view s.mem l) + (n + BLOCK_SIZE) := by
    have hview : view s2.mem (l ++ [s.brk]) = view s2.mem l ++ view s2.mem [s.brk] := by
      simp [view]
    rw [hview, total_append, total_view_congr s.mem s2.mem l (fun x hx => (g4 x hx).1)]
    simp [view, total, g3]
    omega
  refine ⟨_, s2, g1, g2, ht, ?_, ?_⟩
  · rw [ht]; omega
  · rw [g6]; simp only [BLOCK_SIZE, HALF, WORD] at *; omega

/-- C20. Extent conservation.  Take the empty heap (break `lo > 0`, limit
`hi < 2^63`) and a sequence of calls each made in a state where the extent, grown by
the request `n` and a header, stays below `2^64` (so `n + BLOCK_SIZE < 2^64`).  The
sequence returns, and in the state it reaches the footprints `size + BLOCK_SIZE` of
the blocks of the list add up to the bytes between the first break and the current
break, which is what `sbrk` has handed out.  On every ledger state such a `malloc`
returns and leaves a ledger state; the sum and the break are unchanged, or no block
fitted and both went up by `n + BLOCK_SIZE`.  A `free` of a block of the ledger
leaves a ledger state with the same sum and break. -/
theorem extent_conserved (lo hi fuel : Nat) (cs : List call) (hlo : 0 < lo)
    (hle : lo ≤ hi) (hhi : hi < HALF)
    (hw : run_within fuel (empty_heap lo hi, []) cs = true) (hf : cs.length < fuel) :
    (∃ s live l, run fuel (empty_heap lo hi, []) cs = some (s, live) ∧
      chain s.mem s.head l ∧ lo ≤ s.brk ∧ total (view s.mem l) = s.brk - lo) ∧
    (∀ s l n fl, Valid s l → s.brk - s.lo + (n + BLOCK_SIZE) < WORD → l.length < fl →
      ∃ p s2 l2, malloc fl s n = some (p, s2) ∧ Valid s2 l2 ∧
        ((total (view s2.mem l2) = total (view s.mem l) ∧ s2.brk = s.brk) ∨
          ((∀ x ∈ l, fits s.mem n x = false) ∧
            total (view s2.mem l2) = total (view s.mem l) + (n + BLOCK_SIZE) ∧
            s2.brk = s.brk + (n + BLOCK_SIZE)))) ∧
    (∀ s l p fl, Valid s l → p ≠ 0 → header p ∈ l → l.length < fl →
      ∃ s3 l3, free fl s p = some s3 ∧ Valid s3 l3 ∧
        total (view s3.mem l3) = total (view s.mem l) ∧ s3.brk = s.brk) := by
  refine ⟨?_, ?_, ?_⟩
  · obtain ⟨st, h1, h2⟩ := run_within_inv cs (empty_heap lo hi, []) 0 fuel
      (inv_empty lo hi hlo hle hhi) hw (by omega)
    obtain ⟨⟨l, hv, _, _⟩, _⟩ := h2
    have hl : st.1.lo = lo := run_lo fuel cs _ st h1
    have hext := valid_extent st.1 l hv
    rw [hl] at hext
    exact ⟨st.1, st.2, l, h1, hv.chain, by omega, by omega⟩
  · intro s l n fl hv hw2 hfl
    have hext := valid_extent s l hv
    by_cases hn : n + BLOCK_SIZE < HALF
    · obtain ⟨p, s2, l2, hm, hv2, hlo2, hbrk⟩ := malloc_extent s l n fl hv hn hfl
      have hext2 := valid_extent s2 l2 hv2
      refine ⟨p, s2, l2, hm, hv2, ?_⟩
      rcases hbrk with hb | ⟨hun, hb⟩
      · left; exact ⟨by omega, hb⟩
      · right; exact ⟨hun, by omega, hb⟩
    · exact ⟨0, s, l, malloc_huge_fails s l n fl hv (not_lt.1 hn) hw2 hfl, hv,
        Or.inl ⟨rfl, rfl⟩⟩
  · intro s l p fl hv hp hbl hfl
    obtain ⟨s3, l3, hfree, fpost⟩ := free_contract s l p fl hv.chain hp hbl hfl
    have hv3 := fpost.valid hv
    have hext := valid_extent s l hv
    have hext3 := valid_extent s3 l3 hv3
    have := fpost.lo
    have := fpost.brk
    exact ⟨s3, l3, hfree, hv3, by omega, fpost.brk⟩

/-- Instance of C20: seven calls from the empty heap with break 4096, among them a
request of `2^64 - 5000` bytes that `sbrk` refuses. -/
theorem extent_conserved_witness :
    (∃ s live l, run 8 (empty_heap 4096 8192, [])
        [call.malloc 100, call.calloc 5 10, call.free 0,
          call.malloc 18446744073709546616, call.malloc 30, call.realloc 0 200,
          call.free 0] = some (s, live) ∧
      chain s.mem s.head l ∧ 4096 ≤ s.brk ∧ total (view s.mem l) = s.brk - 4096) ∧
    (∀ s l n fl, Valid s l → s.brk - s.lo + (n + BLOCK_SIZE) < WORD → l.length < fl →
      ∃ p s2 l2, malloc fl s n = some (p, s2) ∧ Valid s2 l2 ∧
        ((total (view s2.mem l2) = total (view s.mem l) ∧ s2.brk = s.brk) ∨
          ((∀ x ∈ l, fits s.mem n x = false) ∧
            total (view s2.mem l2) = total (view s.mem l) + (n + BLOCK_SIZE) ∧
            s2.brk = s.brk + (n + BLOCK_SIZE)))) ∧
    (∀ s l p fl, Valid s l → p ≠ 0 → header p ∈ l → l.length < fl →
      ∃ s3 l3, free fl s p = some s3 ∧ Valid s3 l3 ∧
        total (view s3.mem l3) = total (view s.mem l) ∧ s3.brk = s.brk) :=
  extent_conserved 4096 8192 8
    [call.malloc 100, call.calloc 5 10, call.free 0, call.malloc 18446744073709546616,
      call.malloc 30, call.realloc 0 200, call.free 0]
    (by decide) (by decide) (by decide) (by decide) (by decide)

/-! ## Loops that do not end and runs that reach a ledger -/

/-- The search never leaves a block that does not fit and is its own successor. -/
theorem find_free_block_self_loop (mem : Nat → block_t) (a n : Nat) (ha : a ≠ 0)
    (hfit : fits mem n a = false) (hnext : (mem a).next = a) :
    ∀ fuel, find_free_block fuel mem a n = none := by
  intro fuel
  induction fuel with
  | zero => rfl
  | succ k ih =>
    simp only [fits] at hfit
    simp only [find_free_block, ha, if_false, hfit, hnext]
    exact ih

/-- The coalescing loop never leaves a free block that is its own successor. -/
theorem merge_blocks_self_loop (a : Nat) (ha : a ≠ 0) :
    ∀ fuel (mem : Nat → block_t), (mem a).free = true → (mem a).next = a →
      merge_blocks fuel mem a = none := by
  intro fuel
  induction fuel with
  | zero => intro mem _ _; rfl
  | succ k ih =>
    intro mem hfree hnext
    have hc : a ≠ 0 ∧ (mem a).next ≠ 0 := ⟨ha, by rw [hnext]; exact ha⟩
    simp only [merge_blocks, hc, and_self, if_true, hnext, hfree, Bool.and_self]
    rw [if_pos ha]
    apply ih
    · simp [set_next, set_size, store, hfree]
    · simp [set_next, set_size, store, hnext]

theorem find_free_block_det (mem : Nat → block_t) (n : Nat) :
    ∀ (f1 f2 a r1 r2 : Nat), find_free_block f1 mem a n = some r1 →
      find_free_block f2 mem a n = some r2 → r1 = r2 := by
  intro f1
  induction f1 with
  | zero => intro f2 a r1 r2 h1; simp [find_free_block] at h1
  | succ k ih =>
    intro f2 a r1 r2 h1 h2
    cases f2 with
    | zero => simp [find_free_block] at h2
    | succ k2 =>
      simp only [find_free_block] at h1 h2
      split at h1
      · rw [if_pos (by assumption)] at h2
        cases h1; cases h2; rfl
      · rw [if_neg (by assumption)] at h2
        split at h1
        · rw [if_pos (by assumption)] at h2
          cases h1; cases h2; rfl
        · rw [if_neg (by assumption)] at h2
          exact ih k2 _ r1 r2 h1 h2

theorem find_last_det (mem : Nat → block_t) :
    ∀ (f1 f2 a r1 r2 : Nat), find_last f1 mem a = some r1 →
      find_last f2 mem a = some r2 → r1 = r2 := by
  intro f1
  induction f1 with
  | zero => intro f2 a r1 r2 h1; simp [find_last] at h1
  | succ k ih =>
    intro f2 a r1 r2 h1 h2
    cases f2 with
    | zero => simp [find_last] at h2
    | succ k2 =>
      simp only [find_last] at h1 h2
      split at h1
      · rw [if_pos (by assumption)] at h2
        exact ih k2 _ r1 r2 h1 h2
      · rw [if_neg (by assumption)] at h2
        cases h1; cases h2; rfl

/-- The result of `malloc`, when it returns, does not depend on the fuel. -/
theorem malloc_det (s : Heap) (n f1 f2 : Nat) (r1 r2 : Nat × Heap)
    (h1 : malloc f1 s n = some r1) (h2 : malloc f2 s n = some r2) : r1 = r2 := by
  unfold malloc at h1 h2
  split at h1
  · rw [if_pos (by assumption)] at h2
    cases h1; cases h2; rfl
  · rw [if_neg (by assumption)] at h2
    cases hb1 : find_free_block f1 s.mem s.head n with
    | none => rw [hb1] at h1; cases h1
    | some b1 =>
      cases hb2 : find_free_block f2 s.mem s.head n with
      | none => rw [hb2] at h2; cases h2
      | some b2 =>
        have hb := find_free_block_det s.mem n f1 f2 _ b1 b2 hb1 hb2
        subst hb
        rw [hb1] at h1
        rw [hb2] at h2
        simp only at h1 h2
        split at h1
        · rw [if_pos (by assumption)] at h2
          cases h1; cases h2; rfl
        · rw [if_neg (by assumption)] at h2
          split at h1
          · rw [if_pos (by assumption)] at h2
            cases h1; cases h2; rfl
          · rw [if_neg (by assumption)] at h2
            split at h1
            · rw [if_pos (by assumption)] at h2
              cases h1; cases h2; rfl
            · rw [if_neg (by assumption)] at h2
              cases hl1 : find_last f1 (request_space s n).2.mem (request_space s n).2.head with
              | none => rw [hl1] at h1; cases h1
              | some l1 =>
                cases hl2 : find_last f2 (request_space s n).2.mem (request_space s n).2.head with
                | none => rw [hl2] at h2; cases h2
                | some l2 =>
                  have hl := find_last_det _ f1 f2 _ l1 l2 hl1 hl2
                  subst hl
                  rw [hl1] at h1
                  rw [hl2] at h2
                  cases h1; cases h2; rfl

/-- Every run from the empty heap whose requests have `n + BLOCK_SIZE < 2^63` returns
and reaches a ledger state in which every live pointer is the payload pointer of a
used block of the ledger that holds at least the bytes granted. -/
theorem bounded_run_ledger (lo hi fuel : Nat) (cs : List call) (hlo : 0 < lo)
    (hle : lo ≤ hi) (hhi : hi < HALF) (hb : ∀ c ∈ cs, bounded c) (hf : cs.length < fuel) :
    ∃ s live l, run fuel (empty_heap lo hi, []) cs = some (s, live) ∧ Valid s l ∧
      ∀ a ∈ live, ∃ b ∈ l, a.1 = b + BLOCK_SIZE ∧ (s.mem b).free = false ∧
        a.2 ≤ (s.mem b).size := by
  obtain ⟨st, h1, h2⟩ := run_inv cs (empty_heap lo hi, []) 0 fuel
    (inv_empty lo hi hlo hle hhi) hb (by omega)
  obtain ⟨⟨l, hv, _, hl⟩, _⟩ := h2
  exact ⟨st.1, st.2, l, h1, hv, hl⟩

/-! ## Where the claims fail outside ledger states -/

/-- C2 as stated fails.  After `malloc(8)`, `malloc(2^64 - 24)` and `free` of the
second result the list is the used block at 4096 and the free block at 4128 of size
`2^64 - 24`.  Then `malloc(2^64 - 24)` finds that block; the guard of `split_block`
compares with `size + BLOCK_SIZE` wrapped to `0`, and the carved block is the block
itself.  The call returns 4152, and the block in front of that pointer is free and
its own successor. -/
theorem malloc_grants_block_counterexample :
    (run 4 (empty_heap 4096 8192, [])
      [call.malloc 8, call.malloc 18446744073709551592, call.free 1]).map
      (fun st => (decide (chain st.1.mem st.1.head [4096, 4128]), (st.1.mem 4128).size,
        (st.1.mem 4128).free)) = some (true, 18446744073709551592, true) ∧
    ((run 4 (empty_heap 4096 8192, [])
      [call.malloc 8, call.malloc 18446744073709551592, call.free 1]).bind
      (fun st => malloc 4 st.1 18446744073709551592)).map
      (fun r => (r.1, header r.1, (r.2.mem (header r.1)).free,
        (r.2.mem (header r.1)).next)) = some (4152, 4128, true, 4128) := by
  decide

/-- C3 as stated fails.  After `malloc(2^64 - 24)` twice (each hands `sbrk` the
increment `0`) the one block at 4096 is used and its own successor.  For
`malloc(8)` the size is not `0` and `sbrk` would grant the request, so the claim has
the call return a pointer other than `NULL`; the search loop of `find_free_block`
never ends, and the call returns nothing, whatever the fuel. -/
theorem malloc_null_iff_counterexample :
    (run 3 (empty_heap 4096 8192, [])
      [call.malloc 18446744073709551592, call.malloc 18446744073709551592]).map
      (fun st => (st.1.head, (st.1.mem 4096).free, (st.1.mem 4096).next,
        (sbrk st.1 (add64 8 BLOCK_SIZE)).isSome)) = some (4096, false, 4096, true) ∧
    ∀ fuel, (run 3 (empty_heap 4096 8192, [])
      [call.malloc 18446744073709551592, call.malloc 18446744073709551592]).bind
      (fun st => malloc fuel st.1 8) = none := by
  have h : (run 3 (empty_heap 4096 8192, [])
      [call.malloc 18446744073709551592, call.malloc 18446744073709551592]).map
      (fun st => (st.1.head, (st.1.mem 4096).free, (st.1.mem 4096).next,
        (sbrk st.1 (add64 8 BLOCK_SIZE)).isSome)) = some (4096, false, 4096, true) := by
    decide
  refine ⟨h, fun fuel => ?_⟩
  cases hr : run 3 (empty_heap 4096 8192, [])
      [call.malloc 18446744073709551592, call.malloc 18446744073709551592] with
  | none => rfl
  | some st =>
    rw [hr] at h
    simp only [Option.map_some', Option.some.injEq, Prod.mk.injEq] at h
    obtain ⟨h1, h2, h3, _⟩ := h
    have hloop := find_free_block_self_loop st.1.mem 4096 8 (by decide)
      (by simp [fits, h2]) h3 fuel
    simp only [Option.some_bind, malloc, h1, hloop]
    simp

/-- C5 as stated fails.  After `malloc(2^64 - 24)` twice the one block at 4096 is
used, so all blocks are used, and 4120 is a live pointer; the block is its own
successor.  `free(4120)` marks it free and the loop of `merge_blocks` merges the
block with itself for ever: the call returns nothing, whatever the fuel, and no
`malloc` follows. -/
theorem free_then_malloc_reuses_counterexample :
    (run 3 (empty_heap 4096 8192, [])
      [call.malloc 18446744073709551592, call.malloc 18446744073709551592]).map
      (fun st => (st.1.head, (st.1.mem 4096).free, (st.1.mem 4096).next,
        (st.1.mem 4096).size, st.2.map Prod.fst)) =
      some (4096, false, 4096, 18446744073709551592, [4120, 4120]) ∧
    header 4120 = 4096 ∧
    ∀ fuel, (run 3 (empty_heap 4096 8192, [])
      [call.malloc 18446744073709551592, call.malloc 18446744073709551592]).bind
      (fun st => free fuel st.1 4120) = none := by
  have h : (run 3 (empty_heap 4096 8192, [])
      [call.malloc 18446744073709551592, call.malloc 18446744073709551592]).map
      (fun st => (st.1.head, (st.1.mem 4096).free, (st.1.mem 4096).next,
        (st.1.mem 4096).size, st.2.map Prod.fst)) =
      some (4096, false, 4096, 18446744073709551592, [4120, 4120]) := by
    decide
  have hh : header 4120 = 4096 := by decide
  refine ⟨h, hh, fun fuel => ?_⟩
  cases hr : run 3 (empty_heap 4096 8192, [])
      [call.malloc 18446744073709551592, call.malloc 18446744073709551592] with
  | none => rfl
  | some st =>
    rw [hr] at h
    simp only [Option.map_some', Option.some.injEq, Prod.mk.injEq] at h
    obtain ⟨h1, _, h3, _⟩ := h
    have hloop := merge_blocks_self_loop 4096 (by decide) fuel
      (set_free st.1.mem 4096 true) (by simp [set_free_eq]) (by simp [set_free_eq, h3])
    simp only [Option.some_bind, free, hh, h1, hloop]
    simp

/-- C6 as stated fails.  After `malloc(8)` and `malloc(2^64 - 24)` the list is the
used blocks `A` at 4096 (`a = 8`) and `B` at 4128 (`b = 2^64 - 24`).  Releasing both,
in either order, leaves `A` free with size 8, not `a + BLOCK_SIZE + b`: the addition
in `merge_blocks` wraps.  A following `malloc(2^64 - 20)`, a size above `max(a, b)`
and at most `a + BLOCK_SIZE + b`, returns 4152 instead of the payload pointer 4120
of `A`, and moves the break from 4128 to 4132. -/
theorem coalesce_either_order_counterexample :
    (run 5 (empty_heap 4096 8192, [])
      [call.malloc 8, call.malloc 18446744073709551592]).map
      (fun st => (decide (chain st.1.mem st.1.head [4096, 4128]), st.1.brk,
        st.2.map Prod.fst)) = some (true, 4128, [4120, 4152]) ∧
    (run 5 (empty_heap 4096 8192, [])
      [call.malloc 8, call.malloc 18446744073709551592]).map
      (fun st => ((st.1.mem 4096).size, (st.1.mem 4096).free, (st.1.mem 4128).size,
        (st.1.mem 4128).free)) = some (8, false, 18446744073709551592, false) ∧
    (run 5 (empty_heap 4096 8192, [])
      [call.malloc 8, call.malloc 18446744073709551592, call.free 0, call.free 0]).map
      (fun st => ((st.1.mem 4096).size, (st.1.mem 4096).free, (st.1.mem 4096).next)) =
      some (8, true, 0) ∧
    (run 5 (empty_heap 4096 8192, [])
      [call.malloc 8, call.malloc 18446744073709551592, call.free 1, call.free 0]).map
      (fun st => ((st.1.mem 4096).size, (st.1.mem 4096).free, (st.1.mem 4096).next)) =
      some (8, true, 0) ∧
    8 + BLOCK_SIZE + 18446744073709551592 ≠ 8 ∧
    18446744073709551592 < 18446744073709551596 ∧
    18446744073709551596 ≤ 8 + BLOCK_SIZE + 18446744073709551592 ∧
    ((run 5 (empty_heap 4096 8192, [])
      [call.malloc 8, call.malloc 18446744073709551592, call.free 1, call.free 0]).bind
      (fun st => malloc 5 st.1 18446744073709551596)).map (fun r => (r.1, r.2.brk)) =
      some (4152, 4132) := by
  decide

/-- C8 as stated fails.  After `malloc(100)` and `malloc(2^64 - 148)` (the increment
`-124` for `sbrk`) the break is back at 4096, and 4120 is a live pointer whose block
holds 100 bytes.  In `realloc(4120, 200)` the inner `malloc(200)` returns 4120, not
`NULL`: its header is laid over the block of 4120, which becomes its own successor.
The `free` at the end of `realloc` then never leaves `merge_blocks`: `realloc`
returns nothing, whatever the fuel. -/
theorem realloc_grow_counterexample :
    (run 3 (empty_heap 4096 8192, [])
      [call.malloc 100, call.malloc 18446744073709551468]).map
      (fun st => (decide (chain st.1.mem st.1.head [4096, 4220]),
        (st.1.mem (header 4120)).size, (st.1.mem (header 4120)).free, st.1.brk,
        st.2.map Prod.fst)) = some (true, 100, false, 4096, [4120, 4244]) ∧
    ((run 3 (empty_heap 4096 8192, [])
      [call.malloc 100, call.malloc 18446744073709551468]).bind
      (fun st => malloc 3 st.1 200)).map
      (fun r => (r.1, r.2.head, (r.2.mem 4096).next)) = some (4120, 4096, 4096) ∧
    ∀ fuel, (run 3 (empty_heap 4096 8192, [])
      [call.malloc 100, call.malloc 18446744073709551468]).bind
      (fun st => realloc fuel st.1 4120 200) = none := by
  have h : (run 3 (empty_heap 4096 8192, [])
      [call.malloc 100, call.malloc 18446744073709551468]).map
      (fun st => (decide (chain st.1.mem st.1.head [4096, 4220]),
        (st.1.mem (header 4120)).size, (st.1.mem (header 4120)).free, st.1.brk,
        st.2.map Prod.fst)) = some (true, 100, false, 4096, [4120, 4244]) := by
    decide
  have hin : ((run 3 (empty_heap 4096 8192, [])
      [call.malloc 100, call.malloc 18446744073709551468]).bind
      (fun st => malloc 3 st.1 200)).map
      (fun r => (r.1, r.2.head, (r.2.mem 4096).next)) = some (4120, 4096, 4096) := by
    decide
  have hh : header 4120 = 4096 := by decide
  refine ⟨h, hin, fun fuel => ?_⟩
  cases hr : run 3 (empty_heap 4096 8192, [])
      [call.malloc 100, call.malloc 18446744073709551468] with
  | none => rfl
  | some st =>
    rw [hr] at h hin
    simp only [Option.map_some', Option.some.injEq, Prod.mk.injEq] at h
    obtain ⟨_, hsz, _, _, _⟩ := h
    simp only [Option.some_bind] at hin ⊢
    cases hm3 : malloc 3 st.1 200 with
    | none => rw [hm3] at hin; simp at hin
    | some r3 =>
      rw [hm3] at hin
      simp only [Option.map_some', Option.some.injEq, Prod.mk.injEq] at hin
      obtain ⟨hq, hhead, hnext⟩ := hin
      have hlt : ¬ (200 ≤ (st.1.mem (header 4120)).size) := by rw [hsz]; decide
      cases hm : malloc fuel st.1 200 with
      | none => simp [realloc, hlt, hm]
      | some r =>
        have hrr : r = r3 := malloc_det st.1 200 fuel 3 r r3 hm hm3
        subst hrr
        obtain ⟨q, s1⟩ := r
        simp only at hq hhead hnext
        subst hq
        have hloop := merge_blocks_self_loop 4096 (by decide) fuel
          (set_free s1.mem 4096 true) (by simp [set_free_eq])
          (by simp [set_free_eq, hnext])
        have hlt2 : (st.1.mem 4096).size < 200 := by rw [hh] at hsz; omega
        simp [realloc, hlt2, hm, free, hh, hhead, hloop]

/-- C12 as stated fails.  After `malloc(8)`, `malloc(100)` and `malloc(2^64 - 148)`
(the increment `-124` for `sbrk`) the break is back at 4128, where the block of the
live pointer 4152 starts with size 100.  A further `malloc(50)` gets 4128 from `sbrk`
and writes its header over that block: the block in front of 4152 now has size 50,
and 4152 has been handed out twice. -/
theorem live_block_stable_counterexample :
    (run 5 (empty_heap 4096 8192, [])
      [call.malloc 8, call.malloc 100, call.malloc 18446744073709551468]).map
      (fun st => (decide (chain st.1.mem st.1.head [4096, 4128, 4252]),
        (st.1.mem (header 4152)).size, (st.1.mem (header 4152)).free, st.1.brk,
        st.2.map Prod.fst)) = some (true, 100, false, 4128, [4120, 4152, 4276]) ∧
    (run 5 (empty_heap 4096 8192, [])
      [call.malloc 8, call.malloc 100, call.malloc 18446744073709551468,
        call.malloc 50]).map
      (fun st => ((st.1.mem (header 4152)).size, (st.1.mem (header 4152)).next,
        st.2.map Prod.fst)) = some (50, 4128, [4120, 4152, 4276, 4152]) := by
  decide

/-- C15 as stated fails.  After `malloc(8)`, `malloc(2^64 - 24)` and `free` of the
second result the list is the block at 4096 of size 8 and the free block at 4128 of
size `2^64 - 24`.  With the first block marked free as well, `merge_blocks` leaves
one free block at 4096 of size 8: the sum `8 + (2^64 - 24) + BLOCK_SIZE` of the claim
has wrapped. -/
theorem merge_blocks_collapses_counterexample :
    (run 4 (empty_heap 4096 8192, [])
      [call.malloc 8, call.malloc 18446744073709551592, call.free 1]).map
      (fun st => (decide (chain st.1.mem st.1.head [4096, 4128]), (st.1.mem 4096).size,
        (st.1.mem 4128).size, (st.1.mem 4128).free)) =
      some (true, 8, 18446744073709551592, true) ∧
    ((run 4 (empty_heap 4096 8192, [])
      [call.malloc 8, call.malloc 18446744073709551592, call.free 1]).bind
      (fun st => merge_blocks 3 (set_free st.1.mem 4096 true) st.1.head)).map
      (fun m => ((m 4096).size, (m 4096).free, (m 4096).next)) = some (8, true, 0) ∧
    8 + 18446744073709551592 + (2 - 1) * BLOCK_SIZE ≠ 8 := by
  decide

/-- C18 as stated fails.  After `malloc(100)` and `malloc(2^64 - 148)` (the increment
`-124` for `sbrk`) the list is the used blocks `b1` at 4096 (size 100) and `b2` at
4220, and the break is back at 4096.  No block is free, and `sbrk` grants the
request of `malloc(50)`: the new header is written over `b1`, which now has size 50
and is its own successor, so `b1` has changed and `b2` is out of the list. -/
theorem malloc_growth_path_counterexample :
    (run 4 (empty_heap 4096 8192, [])
      [call.malloc 100, call.malloc 18446744073709551468]).map
      (fun st => (decide (chain st.1.mem st.1.head [4096, 4220]), (st.1.mem 4096).size,
        (st.1.mem 4096).free, (st.1.mem 4220).free, st.1.brk,
        (sbrk st.1 (add64 50 BLOCK_SIZE)).isSome)) =
      some (true, 100, false, false, 4096, true) ∧
    (run 4 (empty_heap 4096 8192, [])
      [call.malloc 100, call.malloc 18446744073709551468, call.malloc 50]).map
      (fun st => (st.1.head, (st.1.mem 4096).size, (st.1.mem 4096).next,
        st.2.map Prod.fst)) = some (4096, 50, 4096, [4120, 4244, 4120]) := by
  decide

end Memalloc
